import Mathlib

/-!
# Verification of the B+ tree storage engine (`db_management_system`)

Shallow embedding of `src/db_management_system/database/bplustree.py` and of the
snapshot-loading logic of `src/db_management_system/database/db_manager.py`.

Modelling conventions:

* Keys are `Int` (the Python code only compares keys with a total order);
  values are an arbitrary type `V` (the payload is opaque to the tree).
* A `Node` is either a leaf (aligned `keys`/`values` lists) or an internal node
  (`keys` plus `children`).  The Python `parent` back-pointers exist only so the
  imperative code can walk upward during split/rebalance; the functional
  embedding expresses the same bottom-up cascades by returning results from the
  recursive descent, so no parent field is needed.
* The Python `next_leaf` chain is updated in exactly two places: leaf split
  (`_split_node` lines 176-178, inserting the new sibling right after the split
  leaf) and leaf merge (`_merge` line 410, bypassing the absorbed right leaf).
  Both updates keep the chain identical to the left-to-right order of the
  leaves in the tree, so the embedding represents the chain implicitly as the
  in-order sequence of leaves.
* `bisect.bisect_left` / `bisect.bisect_right` are binary searches whose
  results on a sorted list equal the number of elements `< k` (resp. `≤ k`);
  they are embedded as `takeWhile`-lengths, which agree with the Python
  functions on sorted input (all key lists of the tree are sorted).
* Recursive descent into `children[i]` is embedded by a structural walk over
  the children list (`…At` helpers); an index beyond the end of the list
  corresponds to the fresh empty padding leaf that
  `ensure_valid_structure` would have appended to a malformed node.
* Python list indexing that would raise `IndexError` on malformed trees is
  embedded with total lookups (`getD`, `[·]?`, `getLast?`) whose fallback
  branches are marked as unreachable for the states in which the source code
  runs them; the well-formedness invariant proved below rules those states out.
-/

namespace DB

/-- `math.ceil(n / 2)` for a natural number `n` (used for the occupancy
thresholds in `BPlusTreeNode.is_underflow` and `BPlusTree._fill_child`). -/
def ceilHalf (n : Nat) : Nat := (n + 1) / 2

/-- `bisect.bisect_left(l, k)`: on a sorted list, the number of elements
strictly below `k`. -/
def bisectLeft (l : List Int) (k : Int) : Nat :=
  (l.takeWhile (fun y => decide (y < k))).length

/-- `bisect.bisect_right(l, k)`: on a sorted list, the number of elements
not exceeding `k`. -/
def bisectRight (l : List Int) (k : Int) : Nat :=
  (l.takeWhile (fun y => decide (y ≤ k))).length

/-- A B+ tree node (`BPlusTreeNode`): a leaf stores aligned keys and values, an
internal node stores separator keys and children (`bplustree.py` lines 12-20). -/
inductive Node (V : Type) where
  | leaf (keys : List Int) (values : List V)
  | internal (keys : List Int) (children : List (Node V))
deriving Repr

namespace Node

variable {V : Type}

/-- The `keys` field of a node. -/
def keysOf : Node V → List Int
  | leaf ks _ => ks
  | internal ks _ => ks

/-- `BPlusTreeNode.is_leaf`. -/
def isLeaf : Node V → Bool
  | leaf _ _ => true
  | internal _ _ => false

/-- `BPlusTreeNode.is_full` (lines 50-51): `len(keys) >= order - 1`. -/
def isFull (m : Nat) (n : Node V) : Bool := decide (m - 1 ≤ n.keysOf.length)

/-- Minimum keys of a (non-root) leaf per `is_underflow` (line 56):
`math.ceil((order - 1) / 2)`. -/
def leafMin (m : Nat) : Nat := ceilHalf (m - 1)

/-- Minimum keys of a (non-root) internal node per `is_underflow` (line 58)
and the threshold used by `_fill_child` (line 305): `math.ceil(order / 2) - 1`. -/
def internalMin (m : Nat) : Nat := ceilHalf m - 1

/-- `BPlusTreeNode.is_underflow` (lines 53-59). -/
def isUnderflow (m : Nat) (n : Node V) : Bool :=
  match n with
  | leaf ks _ => decide (ks.length < leafMin m)
  | internal ks _ => decide (ks.length < internalMin m)

/-- The children-list adjustment performed by
`BPlusTreeNode.ensure_valid_structure` (lines 22-48): pad with fresh empty
leaves when there are fewer than `len(keys) + 1` children, truncate
(`[children[0]] + children[1:expected]`, i.e. `take`) when there are more. -/
def repairChildren (ks : List Int) (cs : List (Node V)) : List (Node V) :=
  let e := ks.length + 1
  if cs.length = e then cs
  else if cs.length < e then cs ++ List.replicate (e - cs.length) (.leaf [] [])
  else cs.take e

/-- `BPlusTreeNode.ensure_valid_structure` as a node transformer (leaves are
returned unchanged, lines 24-25). -/
def ensureValid : Node V → Node V
  | leaf ks vs => leaf ks vs
  | internal ks cs => internal ks (repairChildren ks cs)

end Node

/-- `BPlusTree` (lines 62-67): a root node plus the order. -/
structure Tree (V : Type) where
  root : Node V
  order : Nat
deriving Repr

variable {V : Type}

mutual

/-- The in-order list of leaf contents of a subtree.  By the `next_leaf`
modelling convention, this is the portion of the leaf chain spanned by the
subtree. -/
def leavesOf : Node V → List (List Int × List V)
  | .leaf ks vs => [(ks, vs)]
  | .internal _ cs => leavesList cs

/-- Leaves of a list of subtrees, in order. -/
def leavesList : List (Node V) → List (List Int × List V)
  | [] => []
  | c :: cs => leavesOf c ++ leavesList cs

end

/-- All key/value pairs stored in a subtree, in leaf order.  This is the
abstraction of the tree as an association list. -/
def entriesOf (n : Node V) : List (Int × V) :=
  (leavesOf n).flatMap fun p => p.1.zip p.2

/-- Number of leaves of a subtree. -/
def leafCount (n : Node V) : Nat := (leavesOf n).length

/-- Key/value pairs stored in a segment of the leaf chain. -/
def entriesLV (ls : List (List Int × List V)) : List (Int × V) :=
  ls.flatMap fun p => p.1.zip p.2

/-! ## Insert (`BPlusTree.insert`, `BPlusTree._split_node`) -/

/-- Result of inserting into a subtree: either the updated subtree, or the two
halves plus the separator promoted to the parent when `_split_node` fired. -/
inductive InsRes (V : Type) where
  | one (n : Node V)
  | split (l : Node V) (sep : Int) (r : Node V)
deriving Repr

/-- The leaf-level part of `BPlusTree.insert` (lines 137-152) together with the
leaf case of `_split_node` (lines 159-181): upsert into the sorted key list,
then split at `mid = order // 2` when `is_full` (the promoted separator is the
new sibling's first key, line 174). -/
def leafInsert (m : Nat) (k : Int) (v : V) (ks : List Int) (vs : List V) :
    InsRes V :=
  let i := bisectLeft ks k
  if i < ks.length ∧ ks.getD i 0 = k then
    .one (.leaf ks (vs.set i v))
  else
    let ks' := ks.insertIdx i k
    let vs' := vs.insertIdx i v
    if m - 1 ≤ ks'.length then
      let mid := m / 2
      .split (.leaf (ks'.take mid) (vs'.take mid)) (ks'.getD mid 0)
        (.leaf (ks'.drop mid) (vs'.drop mid))
    else .one (.leaf ks' vs')

/-- The internal case of `BPlusTree._split_node` (lines 182-204): the key at
`mid = order // 2` is pushed up, the sibling receives `keys[mid+1:]` and
`children[mid+1:]`; both halves are passed through `ensure_valid_structure`
(lines 203-204). -/
def splitInternal (m : Nat) (ks : List Int) (cs : List (Node V)) : InsRes V :=
  let mid := m / 2
  .split (Node.ensureValid (.internal (ks.take mid) (cs.take (mid + 1))))
    (ks.getD mid 0)
    (Node.ensureValid (.internal (ks.drop (mid + 1)) (cs.drop (mid + 1))))

mutual

/-- Recursive insertion.  The descent mirrors `_find_leaf` (lines 69-90):
every internal node on the path is passed through `ensure_valid_structure`
before its child at `bisect_right(keys, k)` is entered.  When the child
reports a split, the separator is inserted in this node's keys at
`bisect_left(keys, sep)` (line 224) and the sibling right after the child
(lines 230-234); the node is repaired (line 240) and split in turn when full
(lines 243-244). -/
def insertNode (m : Nat) (k : Int) (v : V) : Node V → InsRes V
  | .leaf ks vs => leafInsert m k v ks vs
  | .internal ks cs =>
    let cs' := Node.repairChildren ks cs
    let i := bisectRight ks k
    match insertNodeAt m k v cs i with
    | .one c' => .one (.internal ks (cs'.set i c'))
    | .split l sep r =>
      let ks2 := ks.insertIdx (bisectLeft ks sep) sep
      let cs2 := (cs'.set i l).insertIdx (i + 1) r
      let cs3 := Node.repairChildren ks2 cs2
      if m - 1 ≤ ks2.length then splitInternal m ks2 cs3
      else .one (.internal ks2 cs3)

/-- Insertion into the `i`-th child; past the end of the list the child is the
fresh empty padding leaf supplied by `ensure_valid_structure`. -/
def insertNodeAt (m : Nat) (k : Int) (v : V) : List (Node V) → Nat → InsRes V
  | [], _ => leafInsert m k v [] []
  | c :: _, 0 => insertNode m k v c
  | _ :: cs, i + 1 => insertNodeAt m k v cs i

end

/-- `BPlusTree.insert` (lines 107-152): the empty-root fast path appends
directly (lines 114-117); a root split allocates a new root with one key
(lines 207-218). -/
def Tree.insert (t : Tree V) (k : Int) (v : V) : Tree V :=
  match t.root with
  | .leaf [] vs => ⟨.leaf [k] (vs ++ [v]), t.order⟩
  | r =>
    match insertNode t.order k v r with
    | .one n => ⟨n, t.order⟩
    | .split l sep rr => ⟨.internal [sep] [l, rr], t.order⟩

/-! ## Lookup (`BPlusTree._find_leaf`, `BPlusTree.search`) -/

mutual

/-- Contents of the leaf reached by `_find_leaf` (lines 69-90): descend via
`bisect_right(keys, k)`. -/
def findLeaf (k : Int) : Node V → List Int × List V
  | .leaf ks vs => (ks, vs)
  | .internal ks cs => findLeafAt k cs (bisectRight ks k)

/-- Leaf reached through the `i`-th child; past the end the child is the fresh
empty padding leaf. -/
def findLeafAt (k : Int) : List (Node V) → Nat → List Int × List V
  | [], _ => ([], [])
  | c :: _, 0 => findLeaf k c
  | _ :: cs, i + 1 => findLeafAt k cs i

end

mutual

/-- The tree as modified by one `_find_leaf` traversal: every internal node on
the descent path is passed through `ensure_valid_structure` (lines 74-75 and
85-86); nothing else is touched.  On well-formed trees this is the identity
(proved below), which is the content of the read-only claim.  (Repairing the
padding leaf past the end of the children list is the identity on it, so the
`set` is a no-op in that case.) -/
def findLeafRepair (k : Int) : Node V → Node V
  | .leaf ks vs => .leaf ks vs
  | .internal ks cs =>
    let cs' := Node.repairChildren ks cs
    let i := bisectRight ks k
    .internal ks (cs'.set i (findLeafRepairAt k cs i))

/-- The repaired `i`-th child of the descent. -/
def findLeafRepairAt (k : Int) : List (Node V) → Nat → Node V
  | [], _ => .leaf [] []
  | c :: _, 0 => findLeafRepair k c
  | _ :: cs, i + 1 => findLeafRepairAt k cs i

end

/-- `BPlusTree.search` (lines 92-105): find the leaf, `bisect_left` its keys,
return the aligned value only when the key matches and the values list is long
enough (lines 100-103). -/
def Tree.search (t : Tree V) (k : Int) : Option V :=
  let p := findLeaf k t.root
  let i := bisectLeft p.1 k
  if i < p.1.length ∧ p.1.getD i 0 = k then p.2[i]? else none

/-! ## Range query and full scan -/

mutual

/-- The suffix of the leaf chain starting at the leaf `_find_leaf k` reaches:
that leaf followed by every leaf to its right in the tree (the `next_leaf`
chain, per the modelling convention). -/
def leafSuffix (k : Int) : Node V → List (List Int × List V)
  | .leaf ks vs => [(ks, vs)]
  | .internal ks cs =>
    let i := bisectRight ks k
    leafSuffixAt k cs i ++ leavesList (cs.drop (i + 1))

/-- Chain suffix through the `i`-th child. -/
def leafSuffixAt (k : Int) : List (Node V) → Nat → List (List Int × List V)
  | [], _ => [([], [])]
  | c :: _, 0 => leafSuffix k c
  | _ :: cs, i + 1 => leafSuffixAt k cs i

end

/-- The inner loop of `range_query` over one leaf (lines 475-479): emit each
pair whose key is within `[lo, hi]`, return early (`Bool` flag) on the first
key above `hi`.  Keys below `lo` are skipped. -/
def scanLeaf (lo hi : Int) : List (Int × V) → List (Int × V) × Bool
  | [] => ([], false)
  | (key, v) :: rest =>
    if lo ≤ key ∧ key ≤ hi then
      let r := scanLeaf lo hi rest
      ((key, v) :: r.1, r.2)
    else if hi < key then ([], true)
    else scanLeaf lo hi rest

/-- The leaf-chain walk of `range_query` (lines 472-488): scan the current
leaf; stop on an early return, at the end of the chain, or when the next
leaf's first key exceeds `hi` (line 485; an empty next leaf does not stop the
walk). -/
def rangeWalk (lo hi : Int) : List (List Int × List V) → List (Int × V)
  | [] => []
  | (ks, vs) :: rest =>
    let r := scanLeaf lo hi (ks.zip vs)
    if r.2 then r.1
    else
      match rest with
      | [] => r.1
      | (ks', _) :: _ =>
        if ks' ≠ [] ∧ hi < ks'.headD 0 then r.1
        else r.1 ++ rangeWalk lo hi rest

/-- `BPlusTree.range_query` (lines 462-488): empty result for an inverted
range (lines 464-465), otherwise walk the chain from `_find_leaf lo`. -/
def Tree.rangeQuery (t : Tree V) (lo hi : Int) : List (Int × V) :=
  if hi < lo then [] else rangeWalk lo hi (leafSuffix lo t.root)

/-- `BPlusTree.get_all` (lines 490-503): descend to the leftmost leaf and walk
the whole chain, pairing each key with its aligned value. -/
def Tree.getAll (t : Tree V) : List (Int × V) :=
  (leavesOf t.root).flatMap fun p => p.1.zip p.2

/-! ## Update (`BPlusTree.update`, lines 449-460) -/

mutual

/-- Recursive form of `update`: locate the leaf exactly as `_find_leaf` does,
overwrite the aligned value on an exact key match, report whether the key was
present.  The returned node records the repairs `_find_leaf` makes on the
descent path (identity on well-formed trees). -/
def updateNode (k : Int) (v : V) : Node V → Node V × Bool
  | .leaf ks vs =>
    let i := bisectLeft ks k
    if i < ks.length ∧ ks.getD i 0 = k then (.leaf ks (vs.set i v), true)
    else (.leaf ks vs, false)
  | .internal ks cs =>
    let cs' := Node.repairChildren ks cs
    let i := bisectRight ks k
    let r := updateNodeAt k v cs i
    (.internal ks (cs'.set i r.1), r.2)

/-- Update through the `i`-th child. -/
def updateNodeAt (k : Int) (v : V) : List (Node V) → Nat → Node V × Bool
  | [], _ => (.leaf [] [], false)
  | c :: _, 0 => updateNode k v c
  | _ :: cs, i + 1 => updateNodeAt k v cs i

end

/-- `BPlusTree.update` at the tree level. -/
def Tree.update (t : Tree V) (k : Int) (v : V) : Tree V × Bool :=
  let r := updateNode k v t.root
  (⟨r.1, t.order⟩, r.2)

/-! ## Delete (`BPlusTree.delete`, `_fill_child`, `_borrow_from_prev`,
`_borrow_from_next`, `_merge`) -/

/-- `BPlusTree._borrow_from_prev` (lines 336-364) acting on the parent's keys
and children at child index `i`.  For leaves: move the left sibling's last
key/value to the front of the child and set the separator at `i-1` to the
child's new first key (line 350).  For internal nodes: prepend the separator
to the child's keys, move the left sibling's last child pointer (lines
356-361, guarded by the sibling having children), and pop the left sibling's
last key up to the parent (line 364). -/
def borrowFromPrev (ks : List Int) (cs : List (Node V)) (i : Nat) :
    List Int × List (Node V) :=
  match cs[i]?, cs[i - 1]? with
  | some (.leaf cks cvs), some (.leaf lks lvs) =>
    match lks.getLast?, lvs.getLast? with
    | some mk, some mv =>
      (ks.set (i - 1) mk,
        (cs.set i (.leaf (mk :: cks) (mv :: cvs))).set (i - 1)
          (.leaf lks.dropLast lvs.dropLast))
    | _, _ => (ks, cs)  -- empty left sibling: Python raises IndexError here
  | some (.internal cks ccs), some (.internal lks lcs) =>
    let sep := ks.getD (i - 1) 0
    let ccs' := match lcs.getLast? with
      | some mc => mc :: ccs
      | none => ccs
    match lks.getLast? with
    | some mk =>
      (ks.set (i - 1) mk,
        (cs.set i (.internal (sep :: cks) ccs')).set (i - 1)
          (.internal lks.dropLast lcs.dropLast))
    | none => (ks, cs)  -- empty left sibling: Python raises IndexError here
  | _, _ => (ks, cs)  -- mixed variants or invalid index cannot occur

/-- `BPlusTree._borrow_from_next` (lines 366-394), symmetric to
`_borrow_from_prev`: move the right sibling's first key/value (or child) into
the child and update the separator at `i` (lines 380 and 394). -/
def borrowFromNext (ks : List Int) (cs : List (Node V)) (i : Nat) :
    List Int × List (Node V) :=
  match cs[i]?, cs[i + 1]? with
  | some (.leaf cks cvs), some (.leaf rks rvs) =>
    match rks, rvs with
    | rk :: rkRest, rv :: rvRest =>
      (ks.set i (rkRest.headD 0),
        (cs.set i (.leaf (cks ++ [rk]) (cvs ++ [rv]))).set (i + 1)
          (.leaf rkRest rvRest))
    | _, _ => (ks, cs)  -- empty right sibling: Python raises IndexError here
  | some (.internal cks ccs), some (.internal rks rcs) =>
    let sep := ks.getD i 0
    let cks' := cks ++ [sep]
    match rks with
    | rk :: rkRest =>
      let moved := rcs.headD (.leaf [] [])
      let ccs' := if rcs.isEmpty then ccs else ccs ++ [moved]
      let rcs' := if rcs.isEmpty then rcs else rcs.tail
      (ks.set i rk,
        (cs.set i (.internal cks' ccs')).set (i + 1) (.internal rkRest rcs'))
    | [] => (ks, cs)  -- empty right sibling: Python raises IndexError here
  | _, _ => (ks, cs)  -- mixed variants or invalid index cannot occur

/-- `BPlusTree._merge` (lines 396-420), the merge itself: pull the separator
at index `s` out of the parent, combine `children[s]` and `children[s+1]`
(leaves concatenate keys and values and re-link the chain; internal nodes put
the separator between the two key lists and concatenate children), and drop
the right child.  The parent-underflow cascade of `_merge` (lines 422-440) is
handled by the caller in the recursive embedding of `delete`. -/
def mergeAt (ks : List Int) (cs : List (Node V)) (s : Nat) :
    List Int × List (Node V) :=
  match cs[s]?, cs[s + 1]? with
  | some lc, some rc =>
    let sep := ks.getD s 0
    let merged : Node V :=
      match lc, rc with
      | .leaf lks lvs, .leaf rks rvs => .leaf (lks ++ rks) (lvs ++ rvs)
      | .internal lks lcs, .internal rks rcs =>
        .internal (lks ++ sep :: rks) (lcs ++ rcs)
      | _, _ => lc  -- mixed variants cannot occur at one level
    (ks.eraseIdx s, (cs.set s merged).eraseIdx (s + 1))
  | _, _ => (ks, cs)  -- invalid merge index: Python raises IndexError here

/-- `BPlusTree._fill_child` (lines 293-334) on the parent's keys and children:
repair the parent (line 298), bail out on an invalid index (lines 301-302),
try borrowing from the left then the right sibling against the threshold
`math.ceil(order / 2) - 1` (lines 305-323; the sibling repairs at lines 310
and 319 do not change any key list), otherwise merge with the previous child
when `i` is last, else with the next (lines 327-331), repairing the parent
again afterwards (line 334).  The returned flag records whether a merge
happened (it drives the upward cascade of `_merge`). -/
def fillChild (m : Nat) (ks : List Int) (cs0 : List (Node V)) (i : Nat) :
    List Int × List (Node V) × Bool :=
  let cs := Node.repairChildren ks cs0
  if i < cs.length then
    let minK := Node.internalMin m
    let cs1 :=
      if 0 < i then cs.set (i - 1) (Node.ensureValid (cs.getD (i - 1) (.leaf [] [])))
      else cs
    if 0 < i ∧ minK < ((cs1.getD (i - 1) (.leaf [] [])).keysOf).length then
      let r := borrowFromPrev ks cs1 i
      (r.1, r.2, false)
    else
      let cs2 :=
        if i + 1 < cs1.length then
          cs1.set (i + 1) (Node.ensureValid (cs1.getD (i + 1) (.leaf [] [])))
        else cs1
      if i + 1 < cs2.length ∧ minK < ((cs2.getD (i + 1) (.leaf [] [])).keysOf).length then
        let r := borrowFromNext ks cs2 i
        (r.1, r.2, false)
      else
        let s := if i = cs2.length - 1 then i - 1 else i
        let r := mergeAt ks cs2 s
        (r.1, Node.repairChildren r.1 r.2, true)
  else (ks, cs, false)

mutual

/-- Recursive form of `BPlusTree.delete` (lines 246-291).  At a leaf: locate
the key with `bisect_left`, report `false` when absent (line 262), otherwise
remove the key and value (lines 265-266).  At an internal node: descend like
`_find_leaf`; afterwards run `_fill_child` on this node exactly when the code
does - for a leaf child, when the deletion succeeded and the child underflows
(line 269); for an internal child, when a merge at the child's level popped
one of its keys and it underflows (lines 428-438).  The third component of
the result records whether a merge happened among this node's children, which
is what propagates the cascade. -/
def deleteNode (m : Nat) (k : Int) : Node V → Node V × Bool × Bool
  | .leaf ks vs =>
    let i := bisectLeft ks k
    if i < ks.length ∧ ks.getD i 0 = k then
      (.leaf (ks.eraseIdx i) (vs.eraseIdx i), true, false)
    else (.leaf ks vs, false, false)
  | .internal ks cs =>
    let cs' := Node.repairChildren ks cs
    let i := bisectRight ks k
    let r := deleteNodeAt m k cs i
    let c' := r.1
    let cs'' := cs'.set i c'
    if r.2.1 ∧ (c'.isLeaf = true ∨ r.2.2 = true) ∧ c'.isUnderflow m = true then
      let f := fillChild m ks cs'' i
      (.internal f.1 f.2.1, true, f.2.2)
    else (.internal ks cs'', r.2.1, false)

/-- Deletion through the `i`-th child; past the end of the list the child is
the fresh empty padding leaf, in which the key is never found. -/
def deleteNodeAt (m : Nat) (k : Int) : List (Node V) → Nat → Node V × Bool × Bool
  | [], _ => (.leaf [] [], false, false)
  | c :: _, 0 => deleteNode m k c
  | _ :: cs, i + 1 => deleteNodeAt m k cs i

end

/-- `BPlusTree.delete` at the tree level.  The root collapse of `_merge`
(lines 424-426) fires when a merge among the root's children emptied the
root's key list: the single merged child becomes the new root. -/
def Tree.delete (t : Tree V) (k : Int) : Tree V × Bool :=
  let r := deleteNode t.order k t.root
  match r.1, r.2.2 with
  | .internal [] (c :: _), true => (⟨c, t.order⟩, r.2.1)
  | n, _ => (⟨n, t.order⟩, r.2.1)

/-! ## Constructor and operation sequences -/

/-- `BPlusTree.__init__` (lines 62-67): reject `order < 3` (`ValueError`,
modelled as `none`), otherwise start from an empty leaf root. -/
def mkTree (V : Type) (order : Nat) : Option (Tree V) :=
  if order < 3 then none else some ⟨.leaf [] [], order⟩

/-- A public mutating operation of the tree. -/
inductive Op (V : Type) where
  | ins (k : Int) (v : V)
  | del (k : Int)
  | upd (k : Int) (v : V)
deriving Repr

/-- Apply one public operation. -/
def applyOp (t : Tree V) : Op V → Tree V
  | .ins k v => t.insert k v
  | .del k => (t.delete k).1
  | .upd k v => (t.update k v).1

/-- The tree obtained from a freshly constructed tree of order `m` by a
sequence of public operations. -/
def runOps (m : Nat) (ops : List (Op V)) : Tree V :=
  ops.foldl applyOp ⟨.leaf [] [], m⟩

/-! ## The association-list model

The tree is abstracted by `entriesOf root`, a key-sorted association list.
The model operations below state what each tree operation does to it. -/

/-- Model of an upsert on a key-sorted association list: everything below `k`,
then `(k, v)`, then everything above `k` (any previous binding of `k` is
dropped). -/
def minsert (l : List (Int × V)) (k : Int) (v : V) : List (Int × V) :=
  l.filter (fun p => decide (p.1 < k)) ++ (k, v) :: l.filter (fun p => decide (k < p.1))

/-- Model of a deletion: drop the binding of `k` if present. -/
def mdelete (l : List (Int × V)) (k : Int) : List (Int × V) :=
  l.filter (fun p => !decide (p.1 = k))

/-- Model of an update: overwrite the binding of `k` where present. -/
def mupdate (l : List (Int × V)) (k : Int) (v : V) : List (Int × V) :=
  l.map (fun p => if p.1 = k then (k, v) else p)

/-- Model of a lookup on an association list. -/
def mlookup (l : List (Int × V)) (k : Int) : Option V :=
  (l.find? (fun p => decide (p.1 = k))).map (fun p => p.2)

/-- Model of one public operation. -/
def mapplyOp (l : List (Int × V)) : Op V → List (Int × V)
  | .ins k v => minsert l k v
  | .del k => mdelete l k
  | .upd k v => mupdate l k v

/-- The model produced by a sequence of public operations. -/
def mrunOps (ops : List (Op V)) : List (Int × V) := ops.foldl mapplyOp []

/-- Whether key `k` is "inserted so far minus deleted" after a sequence of
operations: inserts add it, deletes remove it, updates leave membership
unchanged. -/
def insMinusDel (ops : List (Op V)) (k : Int) : Bool :=
  ops.foldl
    (fun b op =>
      match op with
      | .ins k' _ => b || decide (k' = k)
      | .del k' => b && !decide (k' = k)
      | .upd _ _ => b)
    false

/-! ## Well-formedness

The invariant that the tree operations actually preserve: sorted keys, aligned
values, `len(children) = len(keys) + 1`, and the separator/interval discipline
that makes `bisect`-guided descent correct.  `lo` is an inclusive lower bound
for stored (leaf) keys and a strict lower bound for separators; `hi` is a
strict upper bound for both.  Deliberately *not* part of the invariant: the
minimum-occupancy rules I2/I3 of the specification (the code does not maintain
them, see the theorems on claim C1) and any upper bound on key counts. -/

/-- `lo ≤ k` for an optional lower bound. -/
def lbLe : Option Int → Int → Prop
  | none, _ => True
  | some a, k => a ≤ k

/-- `lo < k` for an optional lower bound. -/
def lbLt : Option Int → Int → Prop
  | none, _ => True
  | some a, k => a < k

/-- `k < hi` for an optional upper bound. -/
def ubLt : Int → Option Int → Prop
  | _, none => True
  | k, some b => k < b

mutual

/-- Well-formedness of a subtree between the optional bounds `lo` and `hi`. -/
def WFB : Node V → Option Int → Option Int → Prop
  | .leaf ks vs, lo, hi =>
    List.Pairwise (· < ·) ks ∧ vs.length = ks.length ∧
      ∀ k ∈ ks, lbLe lo k ∧ ubLt k hi
  | .internal ks cs, lo, hi => WFseq lo hi ks cs

/-- Well-formedness of an internal node's keys/children telescope: child `i`
lives on the interval between separators `i-1` and `i`, each separator lies
strictly between the running lower bound and the node's upper bound, and there
is exactly one more child than keys. -/
def WFseq : Option Int → Option Int → List Int → List (Node V) → Prop
  | lo, hi, [], [c] => WFB c lo hi
  | lo, hi, s :: ks, c :: cs =>
    lbLt lo s ∧ ubLt s hi ∧ WFB c lo (some s) ∧ WFseq (some s) hi ks cs
  | _, _, _, _ => False

end

/-- Well-formedness of a whole tree. -/
def Tree.WF (t : Tree V) : Prop := WFB t.root none none

/-! ## Balance (equal leaf depth)

The code keeps all leaves at the same depth (invariant I5).  The rebalancing
helpers (`_borrow_from_prev`, `_borrow_from_next`, `_merge`) rely on it:
their mixed-variant fallbacks would lose data.  `EqHeight n h` states that
every leaf of `n` sits exactly `h` levels down, which all the operations
preserve (the root height may change at the top). -/

mutual

/-- All leaves of the node at depth exactly `h`. -/
def EqHeight : Node V → Nat → Prop
  | .leaf _ _, h => h = 0
  | .internal _ cs, h => ∃ h', h = h' + 1 ∧ EqHeightL cs h'

/-- `EqHeight · h` at each node of a list. -/
def EqHeightL : List (Node V) → Nat → Prop
  | [], _ => True
  | c :: cs, h => EqHeight c h ∧ EqHeightL cs h

end

/-- A balanced tree: some common depth for all leaves. -/
def Tree.Bal (t : Tree V) : Prop := ∃ h, EqHeight t.root h

/-! ## Frame effects of the query operations

`BPlusTree._find_leaf` (lines 69-90) is the only mutation on the query paths:
it calls `ensure_valid_structure` on the root when the root is internal and on
each internal node it descends through, which is exactly `findLeafRepair`.
`search` (lines 92-105) and `update` call `_find_leaf(key)`;
`range_query` (lines 462-488) returns `[]` *before* calling
`_find_leaf(start_key)` whenever `start_key > end_key`; `get_all`
(lines 490-503) walks `children[0]` links and then `next_leaf` links without
ever calling `ensure_valid_structure`.  The definitions below record the tree
state after each query returns. -/

/-- Tree state after `search k` returns. -/
def Tree.searchEffect (t : Tree V) (k : Int) : Tree V :=
  ⟨findLeafRepair k t.root, t.order⟩

/-- Tree state after `range_query lo hi` returns. -/
def Tree.rangeEffect (t : Tree V) (lo hi : Int) : Tree V :=
  if lo > hi then t else ⟨findLeafRepair lo t.root, t.order⟩

/-- Tree state after `get_all` returns: the walk is read-only. -/
def Tree.getAllEffect (t : Tree V) : Tree V := t

/-! ## The database loader (`Database._load_database`, db_manager.py 95-115)

The file system interaction is abstracted by a `FileView`: whether the
persistence file exists, its size, and what `pickle.load` would produce on its
contents (`none` models a raising `pickle.load`, i.e. a corrupted snapshot;
all three `except` arms of the source behave identically).  The loader returns
the resulting table map together with a flag recording whether the
"Starting with empty database" diagnostic was printed; it never propagates an
exception. -/

/-- Abstraction of the persistence file seen by `_load_database`. -/
structure FileView (T : Type) where
  present : Bool
  size : Nat
  decode : Option T

/-- `Database._load_database`: missing or empty file, or a corrupted snapshot,
yields the empty table map `emptyTables` plus a diagnostic; a loadable
snapshot is installed verbatim. -/
def loadDatabase {T : Type} (emptyTables : T) (f : FileView T) : T × Bool :=
  if f.present = false ∨ f.size = 0 then (emptyTables, true)
  else
    match f.decode with
    | some tables => (tables, false)
    | none => (emptyTables, true)

/-! ## Basic lemmas about bounds and `bisect` -/

theorem lbLe_none (k : Int) : lbLe none k := trivial

theorem lbLt_none (k : Int) : lbLt none k := trivial

theorem ubLt_none (k : Int) : ubLt k none := trivial

theorem lbLe_of_lbLt {lo : Option Int} {k : Int} (h : lbLt lo k) : lbLe lo k := by
  cases lo with
  | none => trivial
  | some a => exact le_of_lt h

theorem lbLe_trans {lo : Option Int} {a b : Int} (h : lbLe lo a) (hab : a ≤ b) :
    lbLe lo b := by
  cases lo with
  | none => trivial
  | some x => exact le_trans h hab

theorem lbLt_trans_le {lo : Option Int} {a b : Int} (h : lbLt lo a) (hab : a ≤ b) :
    lbLt lo b := by
  cases lo with
  | none => trivial
  | some x => exact lt_of_lt_of_le h hab

theorem ubLt_trans_le {hi : Option Int} {a b : Int} (hab : a ≤ b) (h : ubLt b hi) :
    ubLt a hi := by
  cases hi with
  | none => trivial
  | some x => exact lt_of_le_of_lt hab h

theorem ubLt_of_lt_of_ubLt {hi : Option Int} {a b : Int} (hab : a < b) (h : ubLt b hi) :
    ubLt a hi := ubLt_trans_le (le_of_lt hab) h

theorem lbLe_some {a k : Int} : lbLe (some a) k ↔ a ≤ k := Iff.rfl

theorem lbLt_some {a k : Int} : lbLt (some a) k ↔ a < k := Iff.rfl

theorem ubLt_some {a k : Int} : ubLt k (some a) ↔ k < a := Iff.rfl

theorem bisectLeft_nil (k : Int) : bisectLeft [] k = 0 := rfl

theorem bisectLeft_cons (a : Int) (l : List Int) (k : Int) :
    bisectLeft (a :: l) k = if a < k then bisectLeft l k + 1 else 0 := by
  simp only [bisectLeft, List.takeWhile]
  by_cases h : a < k <;> simp [h]

theorem bisectRight_nil (k : Int) : bisectRight [] k = 0 := rfl

theorem bisectRight_cons (a : Int) (l : List Int) (k : Int) :
    bisectRight (a :: l) k = if a ≤ k then bisectRight l k + 1 else 0 := by
  simp only [bisectRight, List.takeWhile]
  by_cases h : a ≤ k <;> simp [h]

theorem bisectLeft_le_length (l : List Int) (k : Int) : bisectLeft l k ≤ l.length :=
  le_trans ((List.takeWhile_sublist _).length_le) (le_refl _)

theorem bisectRight_le_length (l : List Int) (k : Int) : bisectRight l k ≤ l.length :=
  le_trans ((List.takeWhile_sublist _).length_le) (le_refl _)

/-- On a sorted list, `bisect_left` locates `k` exactly when `k` is present:
the leaf-level membership test of `search`, `update` and `delete`. -/
theorem bisectLeft_found_iff {ks : List Int} (hs : List.Pairwise (· < ·) ks) (k : Int) :
    (bisectLeft ks k < ks.length ∧ ks.getD (bisectLeft ks k) 0 = k) ↔ k ∈ ks := by
  induction ks with
  | nil => simp [bisectLeft_nil]
  | cons a l ih =>
    have hal : ∀ b ∈ l, a < b := fun b hb => (List.pairwise_cons.mp hs).1 b hb
    have hl := ih (List.pairwise_cons.mp hs).2
    rw [bisectLeft_cons]
    by_cases h : a < k
    · simp only [if_pos h, List.length_cons, List.mem_cons]
      constructor
      · rintro ⟨h1, h2⟩
        right
        exact hl.mp ⟨Nat.lt_of_succ_lt_succ h1, by simpa using h2⟩
      · rintro (rfl | hk)
        · exact absurd h (lt_irrefl _)
        · obtain ⟨h1, h2⟩ := hl.mpr hk
          exact ⟨Nat.succ_lt_succ h1, by simpa using h2⟩
    · simp only [if_neg h, List.length_cons, List.mem_cons]
      constructor
      · rintro ⟨-, h2⟩
        simp only [List.getD_cons_zero] at h2
        exact Or.inl h2.symm
      · rintro (rfl | hk)
        · exact ⟨Nat.succ_pos _, rfl⟩
        · exact absurd (hal k hk) h

/-! ## Lemmas about leaves and entries -/

/-- Entries of a list of subtrees, in order. -/
def entriesL (cs : List (Node V)) : List (Int × V) :=
  (leavesList cs).flatMap fun p => p.1.zip p.2

theorem entriesOf_leaf (ks : List Int) (vs : List V) :
    entriesOf (Node.leaf ks vs) = ks.zip vs := by
  simp [entriesOf, leavesOf]

theorem entriesOf_internal (ks : List Int) (cs : List (Node V)) :
    entriesOf (Node.internal ks cs) = entriesL cs := by
  simp [entriesOf, entriesL, leavesOf]

theorem leavesList_nil : leavesList (V := V) [] = [] := by simp [leavesList]

theorem leavesList_cons (c : Node V) (cs : List (Node V)) :
    leavesList (c :: cs) = leavesOf c ++ leavesList cs := by simp [leavesList]

theorem leavesList_append (l1 l2 : List (Node V)) :
    leavesList (l1 ++ l2) = leavesList l1 ++ leavesList l2 := by
  induction l1 with
  | nil => simp [leavesList]
  | cons c cs ih => simp [leavesList_cons, ih]

theorem entriesL_nil : entriesL (V := V) [] = [] := by
  simp [entriesL, leavesList]

theorem entriesL_cons (c : Node V) (cs : List (Node V)) :
    entriesL (c :: cs) = entriesOf c ++ entriesL cs := by
  simp [entriesL, leavesList_cons, entriesOf]

theorem entriesL_append (l1 l2 : List (Node V)) :
    entriesL (l1 ++ l2) = entriesL l1 ++ entriesL l2 := by
  simp [entriesL, leavesList_append]

theorem entriesL_singleton (c : Node V) : entriesL [c] = entriesOf c := by
  simp [entriesL_cons, entriesL_nil]

/-! ## Repair is the identity on consistent nodes -/

theorem repairChildren_eq_self {ks : List Int} {cs : List (Node V)}
    (h : cs.length = ks.length + 1) : Node.repairChildren ks cs = cs := by
  simp [Node.repairChildren, h]

theorem WFseq_length {ks : List Int} {cs : List (Node V)} :
    ∀ {lo hi : Option Int}, WFseq lo hi ks cs → cs.length = ks.length + 1 := by
  induction ks generalizing cs with
  | nil =>
    intro lo hi h
    match cs with
    | [] => simp [WFseq] at h
    | [c] => simp
    | c :: c' :: cs' => simp [WFseq] at h
  | cons s ks ih =>
    intro lo hi h
    match cs with
    | [] => simp [WFseq] at h
    | c :: cs' =>
      simp only [WFseq] at h
      simp [ih h.2.2.2]

theorem WFseq_ne_nil {ks : List Int} {lo hi : Option Int} :
    ¬ WFseq (V := V) lo hi ks [] := by
  cases ks <;> simp [WFseq]

theorem repairChildren_of_WFseq {ks : List Int} {cs : List (Node V)}
    {lo hi : Option Int} (h : WFseq lo hi ks cs) :
    Node.repairChildren ks cs = cs :=
  repairChildren_eq_self (WFseq_length h)

theorem ensureValid_of_WFB {n : Node V} {lo hi : Option Int} (h : WFB n lo hi) :
    Node.ensureValid n = n := by
  match n with
  | .leaf ks vs => rfl
  | .internal ks cs =>
    simp only [WFB] at h
    simp [Node.ensureValid, repairChildren_of_WFseq h]

/-! ## Entries of a well-formed subtree are sorted and bounded -/

theorem pairwise_fst_zip {ks : List Int} {vs : List V}
    (h : List.Pairwise (· < ·) ks) :
    List.Pairwise (fun p q : Int × V => p.1 < q.1) (ks.zip vs) := by
  induction ks generalizing vs with
  | nil => simp
  | cons a l ih =>
    cases vs with
    | nil => simp
    | cons v vs =>
      simp only [List.zip_cons_cons, List.pairwise_cons]
      refine ⟨?_, ih (List.pairwise_cons.mp h).2⟩
      rintro ⟨b, w⟩ hb
      exact (List.pairwise_cons.mp h).1 b (List.of_mem_zip hb).1

theorem fst_mem_of_mem_zip {ks : List Int} {vs : List V} {p : Int × V}
    (h : p ∈ ks.zip vs) : p.1 ∈ ks := (List.of_mem_zip h).1

/-- Sortedness of stored entries together with the interval bounds. -/
theorem entries_ok : ∀ {n : Node V} {lo hi : Option Int}, WFB n lo hi →
    List.Pairwise (fun p q : Int × V => p.1 < q.1) (entriesOf n) ∧
      ∀ p ∈ entriesOf n, lbLe lo p.1 ∧ ubLt p.1 hi := by
  intro n lo hi
  induction n, lo, hi using WFB.induct (motive_2 := fun lo hi ks cs =>
      WFseq lo hi ks cs →
        List.Pairwise (fun p q : Int × V => p.1 < q.1) (entriesL cs) ∧
          ∀ p ∈ entriesL cs, lbLe lo p.1 ∧ ubLt p.1 hi) with
  | case1 ks vs lo hi =>
    intro h
    simp only [WFB] at h
    rw [entriesOf_leaf]
    exact ⟨pairwise_fst_zip h.1,
      fun p hp => h.2.2 p.1 (fst_mem_of_mem_zip hp)⟩
  | case2 ks cs lo hi ih =>
    intro h
    simp only [WFB] at h
    rw [entriesOf_internal]
    exact ih h
  | case3 lo hi c ih =>
    rename_i h
    simp only [WFseq] at h
    rw [entriesL_singleton]
    exact ih h
  | case4 lo hi s ks c cs ihc ihs =>
    rename_i h
    simp only [WFseq] at h
    obtain ⟨hs1, hs2, hc, hseq⟩ := h
    obtain ⟨hc1, hc2⟩ := ihc hc
    obtain ⟨ht1, ht2⟩ := ihs hseq
    rw [entriesL_cons]
    constructor
    · rw [List.pairwise_append]
      refine ⟨hc1, ht1, ?_⟩
      intro p hp q hq
      have h1 : p.1 < s := (hc2 p hp).2
      have h2 : s ≤ q.1 := (ht2 q hq).1
      exact lt_of_lt_of_le h1 h2
    · intro p hp
      rcases List.mem_append.mp hp with hp | hp
      · exact ⟨(hc2 p hp).1, ubLt_of_lt_of_ubLt (hc2 p hp).2 hs2⟩
      · exact ⟨lbLe_trans (lbLe_of_lbLt hs1) (ht2 p hp).1, (ht2 p hp).2⟩
  | case5 t lo hi ks h1 h2 =>
    rename_i h
    exfalso
    match ks, t with
    | [], [] => simp [WFseq] at h
    | [], [c] => exact h1 c rfl rfl
    | [], c :: c' :: cs => simp [WFseq] at h
    | s :: ks, [] => simp [WFseq] at h
    | s :: ks, c :: cs => exact h2 s ks c cs rfl rfl

/-! ## Interval bounds of the `i`-th child of a telescope -/

/-- Lower bound of child `i` of an internal node: the node's own lower bound
for the first child, separator `i - 1` afterwards. -/
def childLo (lo : Option Int) (ks : List Int) : Nat → Option Int
  | 0 => lo
  | i + 1 => ks[i]?

/-- Upper bound of child `i`: separator `i` while one exists, the node's own
upper bound for the last child. -/
def childHi (hi : Option Int) (ks : List Int) (i : Nat) : Option Int :=
  if i < ks.length then ks[i]? else hi

theorem childLo_zero (lo : Option Int) (ks : List Int) : childLo lo ks 0 = lo := rfl

theorem childLo_succ (lo : Option Int) (ks : List Int) (i : Nat) :
    childLo lo ks (i + 1) = ks[i]? := rfl

theorem childHi_of_lt {hi : Option Int} {ks : List Int} {i : Nat}
    (h : i < ks.length) : childHi hi ks i = ks[i]? := by simp [childHi, h]

theorem childHi_of_ge {hi : Option Int} {ks : List Int} {i : Nat}
    (h : ks.length ≤ i) : childHi hi ks i = hi := by
  simp [childHi, Nat.not_lt_of_ge h]

/-- The `i`-th child of a well-formed telescope is well-formed on its
interval. -/
theorem WFseq_read {cs : List (Node V)} :
    ∀ {lo hi : Option Int} {ks : List Int}, WFseq lo hi ks cs →
      ∀ {i : Nat}, i < cs.length → ∀ d,
        WFB (cs.getD i d) (childLo lo ks i) (childHi hi ks i) := by
  induction cs with
  | nil => intro lo hi ks h; exact absurd h WFseq_ne_nil
  | cons c cs ih =>
    intro lo hi ks h i hlen d
    match ks, h with
    | [], h =>
      match cs, h with
      | [], h =>
        simp only [WFseq] at h
        match i, hlen with
        | 0, _ => simpa [childHi] using h
        | i + 1, hlen => simp at hlen
      | c' :: cs', h => simp [WFseq] at h
    | s :: ks', h =>
      match cs, h with
      | [], h => simp [WFseq] at h
      | c' :: cs', h =>
        simp only [WFseq] at h
        obtain ⟨hs1, hs2, hc, hseq⟩ := h
        match i with
        | 0 =>
          have hk : (0 : Nat) < (s :: ks').length := by simp
          simpa [childLo, childHi_of_lt hk] using hc
        | i + 1 =>
          have hres := ih hseq (Nat.lt_of_succ_lt_succ hlen) d
          have hlo : childLo (some s) ks' i = childLo lo (s :: ks') (i + 1) := by
            cases i <;> simp [childLo]
          have hhi : childHi hi ks' i = childHi hi (s :: ks') (i + 1) := by
            by_cases hih : i < ks'.length
            · rw [childHi_of_lt hih, childHi_of_lt (by simpa using Nat.succ_lt_succ hih)]
              simp
            · rw [childHi_of_ge (Nat.le_of_not_lt hih),
                childHi_of_ge (by simpa using Nat.succ_le_succ (Nat.le_of_not_lt hih))]
          rw [← hlo, ← hhi]
          simpa using hres

theorem childLo_cons (lo : Option Int) (s : Int) (ks : List Int) (i : Nat) :
    childLo lo (s :: ks) (i + 1) = childLo (some s) ks i := by
  cases i <;> simp [childLo]

theorem childHi_cons (hi : Option Int) (s : Int) (ks : List Int) (i : Nat) :
    childHi hi (s :: ks) (i + 1) = childHi hi ks i := by
  by_cases hih : i < ks.length
  · rw [childHi_of_lt hih, childHi_of_lt (by simpa using Nat.succ_lt_succ hih)]
    simp
  · rw [childHi_of_ge (Nat.le_of_not_lt hih),
      childHi_of_ge (by simpa using Nat.succ_le_succ (Nat.le_of_not_lt hih))]

theorem WFseq_sep_lb {cs : List (Node V)} :
    ∀ {lo hi : Option Int} {ks : List Int}, WFseq lo hi ks cs →
      ∀ s ∈ ks, lbLt lo s := by
  induction cs with
  | nil => intro lo hi ks h; exact absurd h WFseq_ne_nil
  | cons c cs ih =>
    intro lo hi ks h s hs
    match ks, hs, h with
    | s' :: ks', hs, h =>
      match cs, h with
      | [], h => simp [WFseq] at h
      | c2 :: cs', h =>
        simp only [WFseq] at h
        obtain ⟨h1, h2, hc, hseq⟩ := h
        rcases List.mem_cons.mp hs with rfl | hs'
        · exact h1
        · exact lbLt_trans_le h1 (le_of_lt (ih hseq s hs'))

theorem WFseq_sep_ub {cs : List (Node V)} :
    ∀ {lo hi : Option Int} {ks : List Int}, WFseq lo hi ks cs →
      ∀ s ∈ ks, ubLt s hi := by
  induction cs with
  | nil => intro lo hi ks h; exact absurd h WFseq_ne_nil
  | cons c cs ih =>
    intro lo hi ks h s hs
    match ks, hs, h with
    | s' :: ks', hs, h =>
      match cs, h with
      | [], h => simp [WFseq] at h
      | c2 :: cs', h =>
        simp only [WFseq] at h
        obtain ⟨h1, h2, hc, hseq⟩ := h
        rcases List.mem_cons.mp hs with rfl | hs'
        · exact h2
        · exact ih hseq s hs'

theorem ubLt_hi_of_childHi {cs : List (Node V)} {lo hi : Option Int}
    {ks : List Int} (h : WFseq lo hi ks cs) {i : Nat} {x : Int}
    (hx : ubLt x (childHi hi ks i)) : ubLt x hi := by
  by_cases hik : i < ks.length
  · rw [childHi_of_lt hik] at hx
    have hget : ks[i]? = some ks[i] := List.getElem?_eq_getElem hik
    rw [hget] at hx
    have hmem : ks[i] ∈ ks := List.getElem_mem hik
    exact ubLt_of_lt_of_ubLt (ubLt_some.mp hx) (WFseq_sep_ub h _ hmem)
  · rwa [childHi_of_ge (Nat.le_of_not_lt hik)] at hx

/-- Replace the `i`-th child of a well-formed telescope by a node that is
well-formed on the same interval. -/
theorem WFseq_set {cs : List (Node V)} :
    ∀ {lo hi : Option Int} {ks : List Int}, WFseq lo hi ks cs →
      ∀ {i : Nat}, i < cs.length → ∀ {c' : Node V},
        WFB c' (childLo lo ks i) (childHi hi ks i) →
        WFseq lo hi ks (cs.set i c') := by
  induction cs with
  | nil => intro lo hi ks h; exact absurd h WFseq_ne_nil
  | cons c cs ih =>
    intro lo hi ks h i hlen c' hc'
    match ks, h with
    | [], h =>
      match cs, h with
      | [], h =>
        match i, hlen with
        | 0, _ => simpa [WFseq, childHi] using hc'
      | c2 :: cs', h => simp [WFseq] at h
    | s :: ks', h =>
      match cs, h with
      | [], h => simp [WFseq] at h
      | c2 :: cs', h =>
        simp only [WFseq] at h
        obtain ⟨hs1, hs2, hc, hseq⟩ := h
        match i with
        | 0 =>
          have hk : (0 : Nat) < (s :: ks').length := by simp
          rw [childLo_zero] at hc'
          rw [childHi_of_lt hk] at hc'
          simp only [List.getElem?_cons_zero] at hc'
          exact ⟨hs1, hs2, hc', hseq⟩
        | i + 1 =>
          rw [childLo_cons] at hc'
          rw [childHi_cons] at hc'
          exact ⟨hs1, hs2, hc, ih hseq (Nat.lt_of_succ_lt_succ hlen) hc'⟩

/-- Replacing the first child of a telescope by a node on a tightened lower
bound `s'` relocates the whole telescope to that lower bound (used by the
borrow surgeries, where `s'` is the newly promoted separator). -/
theorem WFseq_replace_head {cs : List (Node V)} {lo hi : Option Int}
    {ks : List Int} (h : WFseq lo hi ks cs) {s' : Int} {cR : Node V}
    (hus : ubLt s' (childHi hi ks 0)) (hR : WFB cR (some s') (childHi hi ks 0)) :
    WFseq (some s') hi ks (cs.set 0 cR) := by
  match ks, cs, h with
  | [], [], h => exact absurd h WFseq_ne_nil
  | s₁ :: ks', [], h => exact absurd h WFseq_ne_nil
  | [], [c], h =>
    rw [childHi_of_ge (by simp)] at hR
    simpa [WFseq] using hR
  | [], c :: c2 :: cs', h => simp [WFseq] at h
  | s₁ :: ks', c :: cs', h =>
    simp only [WFseq] at h
    obtain ⟨h1, h2, hc, hseq⟩ := h
    have hk : (0 : Nat) < (s₁ :: ks').length := by simp
    rw [childHi_of_lt hk] at hus hR
    simp only [List.getElem?_cons_zero] at hus hR
    exact ⟨hus, h2, hR, hseq⟩

/-- Borrow surgery: replace the adjacent children `j` and `j + 1` and the
separator between them. -/
theorem WFseq_update_pair {cs : List (Node V)} :
    ∀ {lo hi : Option Int} {ks : List Int}, WFseq lo hi ks cs →
      ∀ {j : Nat}, j + 1 < cs.length → ∀ {cL cR : Node V} {s' : Int},
        lbLt (childLo lo ks j) s' → ubLt s' (childHi hi ks (j + 1)) →
        WFB cL (childLo lo ks j) (some s') →
        WFB cR (some s') (childHi hi ks (j + 1)) →
        WFseq lo hi (ks.set j s') ((cs.set j cL).set (j + 1) cR) := by
  induction cs with
  | nil => intro lo hi ks h; exact absurd h WFseq_ne_nil
  | cons c cs ih =>
    intro lo hi ks h j hlen cL cR s' hls hus hL hR
    match ks, h with
    | [], h =>
      match cs, h with
      | [], h => exact absurd hlen (by simp)
      | c2 :: cs', h => simp [WFseq] at h
    | s :: ks', h =>
      match cs, h with
      | [], h => simp [WFseq] at h
      | c2 :: cs', h =>
        simp only [WFseq] at h
        obtain ⟨hs1, hs2, hc, hseq⟩ := h
        match j with
        | 0 =>
          rw [childLo_zero] at hls hL
          rw [childHi_cons] at hus hR
          have hus' : ubLt s' hi := ubLt_hi_of_childHi hseq hus
          simp only [List.set_cons_zero, List.set_cons_succ]
          exact ⟨hls, hus', hL, WFseq_replace_head hseq hus hR⟩
        | j + 1 =>
          rw [childLo_cons] at hls hL
          rw [childHi_cons] at hus hR
          simp only [List.set_cons_succ]
          exact ⟨hs1, hs2, hc, ih hseq (Nat.lt_of_succ_lt_succ hlen) hls hus hL hR⟩

/-- Merge surgery: drop the separator at `j`, replace child `j` by the merged
node, and drop child `j + 1`. -/
theorem WFseq_merge_pair {cs : List (Node V)} :
    ∀ {lo hi : Option Int} {ks : List Int}, WFseq lo hi ks cs →
      ∀ {j : Nat}, j + 1 < cs.length → ∀ {c' : Node V},
        WFB c' (childLo lo ks j) (childHi hi ks (j + 1)) →
        WFseq lo hi (ks.eraseIdx j) ((cs.set j c').eraseIdx (j + 1)) := by
  induction cs with
  | nil => intro lo hi ks h; exact absurd h WFseq_ne_nil
  | cons c cs ih =>
    intro lo hi ks h j hlen c' hc'
    match ks, h with
    | [], h =>
      match cs, h with
      | [], h => exact absurd hlen (by simp)
      | c2 :: cs', h => simp [WFseq] at h
    | s :: ks', h =>
      match cs, h with
      | [], h => simp [WFseq] at h
      | c2 :: cs', h =>
        simp only [WFseq] at h
        obtain ⟨hs1, hs2, hc, hseq⟩ := h
        match j with
        | 0 =>
          rw [childLo_zero] at hc'
          rw [childHi_cons] at hc'
          simp only [List.set_cons_zero, List.set_cons_succ, List.eraseIdx_cons_succ,
            List.eraseIdx_cons_zero]
          match ks', hseq with
          | [], hseq =>
            match cs', hseq with
            | [], hseq =>
              rw [childHi_of_ge (by simp)] at hc'
              simpa [WFseq] using hc'
            | c3 :: cs'', hseq => simp [WFseq] at hseq
          | s₁ :: ks'', hseq =>
            simp only [WFseq] at hseq
            obtain ⟨t1, t2, tc, tseq⟩ := hseq
            have hk : (0 : Nat) < (s₁ :: ks'').length := by simp
            rw [childHi_of_lt hk] at hc'
            simp only [List.getElem?_cons_zero] at hc'
            exact ⟨lbLt_trans_le hs1 (le_of_lt t1), t2, hc', tseq⟩
        | j + 1 =>
          rw [childLo_cons] at hc'
          rw [childHi_cons] at hc'
          simp only [List.set_cons_succ, List.eraseIdx_cons_succ]
          exact ⟨hs1, hs2, hc, ih hseq (Nat.lt_of_succ_lt_succ hlen) hc'⟩

/-! ## Entries under the surgeries -/

theorem entriesL_set {cs : List (Node V)} :
    ∀ {i : Nat}, i < cs.length → ∀ (c' : Node V),
      entriesL (cs.set i c') =
        entriesL (cs.take i) ++ entriesOf c' ++ entriesL (cs.drop (i + 1)) := by
  induction cs with
  | nil => intro i h; simp at h
  | cons c cs ih =>
    intro i h c'
    match i with
    | 0 => simp [entriesL_cons, entriesL_nil]
    | i + 1 =>
      simp only [List.set_cons_succ, List.take_succ_cons, List.drop_succ_cons,
        entriesL_cons]
      rw [ih (Nat.lt_of_succ_lt_succ h) c']
      simp [List.append_assoc]

theorem entriesL_getD_decomp {cs : List (Node V)} :
    ∀ {i : Nat}, i < cs.length → ∀ (d : Node V),
      entriesL cs =
        entriesL (cs.take i) ++ entriesOf (cs.getD i d) ++ entriesL (cs.drop (i + 1)) := by
  induction cs with
  | nil => intro i h; simp at h
  | cons c cs ih =>
    intro i h d
    match i with
    | 0 => simp [entriesL_cons, entriesL_nil]
    | i + 1 =>
      simp only [List.take_succ_cons, List.drop_succ_cons, List.getD_cons_succ,
        entriesL_cons]
      rw [ih (Nat.lt_of_succ_lt_succ h) d]
      simp [List.append_assoc]

theorem entriesL_set_set {cs : List (Node V)} :
    ∀ {j : Nat}, j + 1 < cs.length → ∀ (cL cR : Node V),
      entriesL ((cs.set j cL).set (j + 1) cR) =
        entriesL (cs.take j) ++ entriesOf cL ++ entriesOf cR ++
          entriesL (cs.drop (j + 2)) := by
  induction cs with
  | nil => intro j h; simp at h
  | cons c cs ih =>
    intro j h cL cR
    match j with
    | 0 =>
      match cs, h with
      | c2 :: cs', _ => simp [entriesL_cons, entriesL_nil]
    | j + 1 =>
      simp only [List.set_cons_succ, List.take_succ_cons, List.drop_succ_cons,
        entriesL_cons]
      rw [ih (Nat.lt_of_succ_lt_succ h) cL cR]
      simp [List.append_assoc]

theorem entriesL_merge_surgery {cs : List (Node V)} :
    ∀ {j : Nat}, j + 1 < cs.length → ∀ (c' : Node V),
      entriesL ((cs.set j c').eraseIdx (j + 1)) =
        entriesL (cs.take j) ++ entriesOf c' ++ entriesL (cs.drop (j + 2)) := by
  induction cs with
  | nil => intro j h; simp at h
  | cons c cs ih =>
    intro j h c'
    match j with
    | 0 =>
      match cs, h with
      | c2 :: cs', _ =>
        simp [entriesL_cons, entriesL_nil]
    | j + 1 =>
      simp only [List.set_cons_succ, List.eraseIdx_cons_succ, List.take_succ_cons,
        List.drop_succ_cons, entriesL_cons]
      rw [ih (Nat.lt_of_succ_lt_succ h) c']
      simp [List.append_assoc]

theorem entriesL_getD_decomp2 {cs : List (Node V)} :
    ∀ {j : Nat}, j + 1 < cs.length → ∀ (d : Node V),
      entriesL cs =
        entriesL (cs.take j) ++ entriesOf (cs.getD j d) ++
          entriesOf (cs.getD (j + 1) d) ++ entriesL (cs.drop (j + 2)) := by
  induction cs with
  | nil => intro j h; simp at h
  | cons c cs ih =>
    intro j h d
    match j with
    | 0 =>
      match cs, h with
      | c2 :: cs', _ => simp [entriesL_cons, entriesL_nil]
    | j + 1 =>
      simp only [List.take_succ_cons, List.drop_succ_cons, List.getD_cons_succ,
        entriesL_cons]
      rw [ih (Nat.lt_of_succ_lt_succ h) d]
      simp [List.append_assoc]

/-! ## Algebra of the model operations -/

theorem find?_eq_head_filter {α : Type} (p : α → Bool) (l : List α) :
    l.find? p = (l.filter p).head? := by
  induction l with
  | nil => rfl
  | cons a t ih =>
    by_cases h : p a
    · rw [List.find?_cons_of_pos _ h, List.filter_cons, if_pos h]
      rfl
    · rw [List.find?_cons_of_neg _ h, List.filter_cons, if_neg h, ih]

theorem minsert_append_lt {A B : List (Int × V)} {k : Int} (v : V)
    (hA : ∀ p ∈ A, p.1 < k) : minsert (A ++ B) k v = A ++ minsert B k v := by
  simp only [minsert, List.filter_append]
  have h1 : A.filter (fun p => decide (p.1 < k)) = A :=
    List.filter_eq_self.mpr fun p hp => by simpa using hA p hp
  have h2 : A.filter (fun p => decide (k < p.1)) = [] :=
    List.filter_eq_nil_iff.mpr fun p hp => by simpa using le_of_lt (hA p hp)
  rw [h1, h2]
  simp only [List.nil_append, List.append_assoc]

theorem minsert_append_gt {A B : List (Int × V)} {k : Int} (v : V)
    (hB : ∀ p ∈ B, k < p.1) : minsert (A ++ B) k v = minsert A k v ++ B := by
  simp only [minsert, List.filter_append]
  have h1 : B.filter (fun p => decide (p.1 < k)) = [] :=
    List.filter_eq_nil_iff.mpr fun p hp => by simpa using le_of_lt (hB p hp)
  have h2 : B.filter (fun p => decide (k < p.1)) = B :=
    List.filter_eq_self.mpr fun p hp => by simpa using hB p hp
  rw [h1, h2]
  simp only [List.append_nil, List.append_assoc, List.cons_append]

theorem mdelete_append (A B : List (Int × V)) (k : Int) :
    mdelete (A ++ B) k = mdelete A k ++ mdelete B k := by
  simp [mdelete, List.filter_append]

theorem mdelete_of_no_match {A : List (Int × V)} {k : Int}
    (h : ∀ p ∈ A, p.1 ≠ k) : mdelete A k = A :=
  List.filter_eq_self.mpr fun p hp => by simpa using h p hp

theorem mupdate_append (A B : List (Int × V)) (k : Int) (v : V) :
    mupdate (A ++ B) k v = mupdate A k v ++ mupdate B k v := by
  simp [mupdate]

theorem mupdate_of_no_match {A : List (Int × V)} {k : Int} {v : V}
    (h : ∀ p ∈ A, p.1 ≠ k) : mupdate A k v = A := by
  induction A with
  | nil => rfl
  | cons p t ih =>
    have h1 : p.1 ≠ k := h p (List.mem_cons_self _ _)
    have h2 := ih fun q hq => h q (List.mem_cons_of_mem _ hq)
    simp only [mupdate, List.map_cons] at h2 ⊢
    rw [if_neg h1, h2]

theorem mlookup_eq_of_filter_eq {A B : List (Int × V)} {k : Int}
    (h : A.filter (fun q => decide (q.1 = k)) = B.filter (fun q => decide (q.1 = k))) :
    mlookup A k = mlookup B k := by
  simp only [mlookup, find?_eq_head_filter, h]

/-! ## Lookup correctness -/

/-- The leaf-local lookup performed by `search` (and the membership tests of
`update`/`delete`) agrees with association-list lookup on a sorted, aligned
leaf. -/
theorem local_lookup_eq {ks : List Int} {vs : List V}
    (hs : List.Pairwise (· < ·) ks) (hlen : vs.length = ks.length) (k : Int) :
    (if bisectLeft ks k < ks.length ∧ ks.getD (bisectLeft ks k) 0 = k then
      vs[bisectLeft ks k]? else none) = mlookup (ks.zip vs) k := by
  induction ks generalizing vs with
  | nil => simp [bisectLeft_nil, mlookup]
  | cons a l ih =>
    match vs, hlen with
    | v :: vs', hlen =>
      have hal : ∀ b ∈ l, a < b := fun b hb => (List.pairwise_cons.mp hs).1 b hb
      rw [bisectLeft_cons]
      by_cases h : a < k
      · have hak : ¬ a = k := fun he => absurd (he ▸ h) (lt_irrefl _)
        have hlen2 : vs'.length = l.length := by simpa using hlen
        have := ih (List.pairwise_cons.mp hs).2 hlen2
        simp only [if_pos h, List.zip_cons_cons, mlookup, List.find?_cons,
          List.length_cons, Nat.succ_lt_succ_iff, List.getD_cons_succ,
          List.getElem?_cons_succ]
        simp only [mlookup] at this
        simpa [hak] using this
      · simp only [if_neg h]
        by_cases hak : a = k
        · subst hak
          simp [mlookup, List.find?_cons]
        · have hkl : ∀ b ∈ l, ¬ b = k := by
            intro b hb he
            have h1 : a < b := hal b hb
            have h2 : k ≤ a := le_of_not_lt h
            have h3 : k < b := lt_of_le_of_lt h2 h1
            rw [he] at h3
            exact lt_irrefl k h3
          have hnone : (l.zip vs').find? (fun q => decide (q.1 = k)) = none := by
            rw [List.find?_eq_none]
            intro q hq
            simpa using hkl q.1 (fst_mem_of_mem_zip hq)
          simp [mlookup, List.find?_cons, hak, hnone]

/-- Bounds of the entries of a well-formed telescope. -/
theorem entries_ok_seq {cs : List (Node V)} {lo hi : Option Int} {ks : List Int}
    (h : WFseq lo hi ks cs) :
    ∀ p ∈ entriesL cs, lbLe lo p.1 ∧ ubLt p.1 hi := by
  have hw : WFB (Node.internal ks cs) lo hi := by simpa [WFB] using h
  intro p hp
  exact (entries_ok hw).2 p (by simpa [entriesOf_internal] using hp)

/-- `_find_leaf` reaches a sorted, aligned leaf that holds every binding of
`k` present in the subtree. -/
theorem findLeaf_ok {k : Int} :
    ∀ (n : Node V) (lo hi : Option Int), WFB n lo hi → lbLe lo k → ubLt k hi →
      List.Pairwise (· < ·) (findLeaf k n).1 ∧
        (findLeaf k n).2.length = (findLeaf k n).1.length ∧
        (entriesOf n).filter (fun q => decide (q.1 = k)) =
          ((findLeaf k n).1.zip (findLeaf k n).2).filter
            (fun q => decide (q.1 = k)) := by
  intro n
  induction n using findLeaf.induct (k := k) (motive_2 := fun cs i =>
      ∀ (lo hi : Option Int) (ks : List Int), WFseq lo hi ks cs →
        i = bisectRight ks k → lbLe lo k → ubLt k hi →
        List.Pairwise (· < ·) (findLeafAt k cs i).1 ∧
          (findLeafAt k cs i).2.length = (findLeafAt k cs i).1.length ∧
          (entriesL cs).filter (fun q : Int × V => decide (q.1 = k)) =
            ((findLeafAt k cs i).1.zip (findLeafAt k cs i).2).filter
              (fun q : Int × V => decide (q.1 = k))) with
  | case1 ks vs =>
    intro lo hi h hlo hhi
    simp only [WFB] at h
    simp [findLeaf, entriesOf_leaf, h.1, h.2.1]
  | case2 ks cs ih =>
    intro lo hi h hlo hhi
    simp only [WFB] at h
    rw [show findLeaf k (Node.internal ks cs)
        = findLeafAt k cs (bisectRight ks k) from rfl]
    rw [entriesOf_internal]
    exact ih _ _ _ h rfl hlo hhi
  | case3 i =>
    rename_i lo hi ks h hi0 hlo hhi
    exact absurd h WFseq_ne_nil
  | case4 c cs ih =>
    rename_i lo hi ks h hi0 hlo hhi
    match ks, h, hi0 with
    | [], h, _ =>
      match cs, h with
      | [], h =>
        simp only [WFseq] at h
        simp only [findLeafAt, entriesL_cons, entriesL_nil, List.append_nil]
        exact ih _ _ h hlo hhi
      | c2 :: cs', h => simp [WFseq] at h
    | s :: ks', h, hi0 =>
      rw [bisectRight_cons] at hi0
      by_cases hsk : s ≤ k
      · rw [if_pos hsk] at hi0
        exact absurd hi0.symm (Nat.succ_ne_zero _)
      · match cs, h with
        | [], h => simp [WFseq] at h
        | c2 :: cs', h =>
          simp only [WFseq] at h
          obtain ⟨h1, h2, hc, hseq⟩ := h
          have hk : ubLt k (some s) := ubLt_some.mpr (lt_of_not_le hsk)
          obtain ⟨r1, r2, r3⟩ := ih _ _ hc hlo hk
          refine ⟨r1, r2, ?_⟩
          have htail : (entriesL (c2 :: cs')).filter
              (fun q => decide (q.1 = k)) = [] := by
            rw [List.filter_eq_nil_iff]
            intro q hq
            have hsq : s ≤ q.1 := lbLe_some.mp (entries_ok_seq hseq q hq).1
            have hkq : k < q.1 := lt_of_lt_of_le (lt_of_not_le hsk) hsq
            simp only [decide_eq_true_eq]
            exact fun he => absurd (he ▸ hkq) (lt_irrefl _)
          rw [entriesL_cons, List.filter_append, htail, List.append_nil]
          rw [show findLeafAt k (c :: c2 :: cs') 0 = findLeaf k c from rfl]
          exact r3
  | case5 c cs i ih =>
    rename_i lo hi ks h hi0 hlo hhi
    match ks, h, hi0 with
    | [], h, hi0 =>
      match cs, h with
      | [], h =>
        rw [bisectRight_nil] at hi0
        exact absurd hi0 (Nat.succ_ne_zero _)
      | c2 :: cs', h => simp [WFseq] at h
    | s :: ks', h, hi0 =>
      rw [bisectRight_cons] at hi0
      by_cases hsk : s ≤ k
      · rw [if_pos hsk] at hi0
        match cs, h with
        | [], h => simp [WFseq] at h
        | c2 :: cs', h =>
          simp only [WFseq] at h
          obtain ⟨h1, h2, hc, hseq⟩ := h
          have hlo' : lbLe (some s) k := lbLe_some.mpr hsk
          obtain ⟨r1, r2, r3⟩ := ih _ _ _ hseq (Nat.succ_injective hi0) hlo' hhi
          refine ⟨r1, r2, ?_⟩
          have hhead : (entriesOf c).filter (fun q => decide (q.1 = k)) = [] := by
            rw [List.filter_eq_nil_iff]
            intro q hq
            have hqs : q.1 < s := ubLt_some.mp ((entries_ok hc).2 q hq).2
            have hqk : q.1 < k := lt_of_lt_of_le hqs hsk
            simp only [decide_eq_true_eq]
            exact fun he => absurd (he ▸ hqk) (lt_irrefl _)
          rw [entriesL_cons, List.filter_append, hhead, List.nil_append]
          rw [show findLeafAt k (c :: c2 :: cs') (i + 1)
              = findLeafAt k (c2 :: cs') i from rfl]
          exact r3
      · rw [if_neg hsk] at hi0
        exact absurd hi0 (Nat.succ_ne_zero _)

theorem getAll_eq_entries (t : Tree V) : t.getAll = entriesOf t.root := rfl

/-- `search` computes the association-list lookup on the stored entries. -/
theorem search_eq_mlookup {t : Tree V} (h : t.WF) (k : Int) :
    t.search k = mlookup (entriesOf t.root) k := by
  obtain ⟨r1, r2, r3⟩ := findLeaf_ok (k := k) t.root none none h trivial trivial
  have hloc := local_lookup_eq r1 r2 k
  have hsearch : t.search k =
      mlookup ((findLeaf k t.root).1.zip (findLeaf k t.root).2) k := by
    rw [← hloc]
    rfl
  rw [hsearch]
  exact (mlookup_eq_of_filter_eq r3).symm

/-! ## The `_find_leaf` repairs are the identity on well-formed trees -/

theorem setGetD_self {cs : List (Node V)} :
    ∀ {i : Nat} (d : Node V), cs.set i (cs.getD i d) = cs := by
  induction cs with
  | nil => intro i d; rfl
  | cons c cs ih =>
    intro i d
    match i with
    | 0 => simp
    | i + 1 =>
      have h1 := ih (i := i) d
      simp only [List.set_cons_succ, List.getD_cons_succ, h1]

theorem findLeafRepair_id {k : Int} :
    ∀ (n : Node V) (lo hi : Option Int), WFB n lo hi → findLeafRepair k n = n := by
  intro n
  induction n using findLeafRepair.induct (k := k) (motive_2 := fun cs i =>
      ∀ (lo hi : Option Int) (ks : List Int), WFseq lo hi ks cs →
        findLeafRepairAt k cs i = cs.getD i (Node.leaf [] [])) with
  | case1 ks vs =>
    intro lo hi h
    rfl
  | case2 ks cs i0 ih =>
    intro lo hi h
    simp only [WFB] at h
    have hr := repairChildren_of_WFseq h
    have hat := ih lo hi ks h
    show Node.internal ks
        ((Node.repairChildren ks cs).set (bisectRight ks k)
          (findLeafRepairAt k cs (bisectRight ks k))) = Node.internal ks cs
    rw [hr, hat, setGetD_self]
  | case3 i =>
    rename_i lo hi ks h
    exact absurd h WFseq_ne_nil
  | case4 c cs ih =>
    rename_i lo hi ks h
    match ks, h with
    | [], h =>
      match cs, h with
      | [], h =>
        simp only [WFseq] at h
        show findLeafRepair k c = c
        exact ih _ _ h
      | c2 :: cs', h => simp [WFseq] at h
    | s :: ks', h =>
      match cs, h with
      | [], h => simp [WFseq] at h
      | c2 :: cs', h =>
        simp only [WFseq] at h
        show findLeafRepair k c = c
        exact ih _ _ h.2.2.1
  | case5 c cs i ih =>
    rename_i lo hi ks h
    match ks, h with
    | [], h =>
      match cs, h with
      | [], h =>
        show findLeafRepairAt k [] i = Node.leaf [] []
        rfl
      | c2 :: cs', h => simp [WFseq] at h
    | s :: ks', h =>
      match cs, h with
      | [], h => simp [WFseq] at h
      | c2 :: cs', h =>
        simp only [WFseq] at h
        show findLeafRepairAt k (c2 :: cs') i = (c2 :: cs').getD i (Node.leaf [] [])
        exact ih _ _ _ h.2.2.2

/-! ## Update specification -/

theorem exists_zip_pair {ks : List Int} {vs : List V} {k : Int}
    (hlen : vs.length = ks.length) (hk : k ∈ ks) :
    ∃ p ∈ ks.zip vs, p.1 = k := by
  induction ks generalizing vs with
  | nil => simp at hk
  | cons a l ih =>
    match vs, hlen with
    | v :: vs', hlen =>
      rcases List.mem_cons.mp hk with rfl | hk'
      · exact ⟨(k, v), by simp⟩
      · obtain ⟨p, hp1, hp2⟩ := ih (by simpa using hlen) hk'
        exact ⟨p, List.mem_cons_of_mem _ hp1, hp2⟩

/-- Setting the value at the position `bisect_left` finds is exactly the model
update on the zipped entries. -/
theorem zip_set_eq_mupdate {ks : List Int} :
    ∀ {vs : List V}, List.Pairwise (· < ·) ks → vs.length = ks.length →
      ∀ {k : Int} {v : V}, bisectLeft ks k < ks.length →
        ks.getD (bisectLeft ks k) 0 = k →
        ks.zip (vs.set (bisectLeft ks k) v) = mupdate (ks.zip vs) k v := by
  induction ks with
  | nil => intro vs _ _ k v h; simp [bisectLeft_nil] at h
  | cons a l ih =>
    intro vs hs hlen k v hlt hget
    match vs, hlen with
    | v0 :: vs', hlen =>
      have hal : ∀ b ∈ l, a < b := fun b hb => (List.pairwise_cons.mp hs).1 b hb
      rw [bisectLeft_cons] at hlt hget
      by_cases h : a < k
      · rw [if_pos h] at hlt hget
        have hne : a ≠ k := ne_of_lt h
        simp only [List.getD_cons_succ] at hget
        simp only [List.length_cons, Nat.succ_lt_succ_iff] at hlt
        have hlen2 : vs'.length = l.length := by simpa using hlen
        have := ih (List.pairwise_cons.mp hs).2 hlen2 (k := k) (v := v) hlt hget
        simp only [bisectLeft_cons, if_pos h, List.set_cons_succ,
          List.zip_cons_cons, mupdate, List.map_cons]
        rw [if_neg hne]
        simp only [mupdate] at this
        rw [this]
      · rw [if_neg h] at hget
        simp only [List.getD_cons_zero] at hget
        subst hget
        simp only [bisectLeft_cons, if_neg h, List.set_cons_zero,
          List.zip_cons_cons, mupdate, List.map_cons, if_pos rfl]
        have hrest : ∀ p ∈ l.zip vs', p.1 ≠ a := by
          intro p hp
          exact ne_of_gt (hal p.1 (fst_mem_of_mem_zip hp))
        rw [show List.map (fun p => if p.1 = a then (a, v) else p) (l.zip vs')
            = mupdate (l.zip vs') a v from rfl]
        rw [mupdate_of_no_match hrest]
        simp

theorem filter_key_eq_nil {A : List (Int × V)} {k : Int}
    (h : ∀ p ∈ A, p.1 ≠ k) :
    A.filter (fun q : Int × V => decide (q.1 = k)) = [] := by
  rw [List.filter_eq_nil_iff]
  intro q hq
  simp only [decide_eq_true_eq]
  exact h q hq

theorem filter_key_ne_nil {A : List (Int × V)} {k : Int} {p : Int × V}
    (hp : p ∈ A) (hpk : p.1 = k) :
    A.filter (fun q : Int × V => decide (q.1 = k)) ≠ [] := by
  intro hnil
  have : p ∈ A.filter (fun q : Int × V => decide (q.1 = k)) :=
    List.mem_filter.mpr ⟨hp, by simpa using hpk⟩
  rw [hnil] at this
  simp at this

/-- Full specification of `update`: well-formedness is preserved, the entries
are the model update, and the returned flag reports whether the key was
stored. -/
theorem updateNode_ok {k : Int} {v : V} :
    ∀ (n : Node V) (lo hi : Option Int), WFB n lo hi → lbLe lo k → ubLt k hi →
      WFB (updateNode k v n).1 lo hi ∧
        entriesOf (updateNode k v n).1 = mupdate (entriesOf n) k v ∧
        ((updateNode k v n).2 = true ↔
          (entriesOf n).filter (fun q : Int × V => decide (q.1 = k)) ≠ []) := by
  intro n
  induction n using updateNode.induct (k := k) (v := v) (motive_2 := fun cs i =>
      ∀ (lo hi : Option Int) (ks : List Int), WFseq lo hi ks cs →
        i = bisectRight ks k → lbLe lo k → ubLt k hi →
        WFseq lo hi ks (cs.set i (updateNodeAt k v cs i).1) ∧
          entriesL (cs.set i (updateNodeAt k v cs i).1) =
            mupdate (entriesL cs) k v ∧
          ((updateNodeAt k v cs i).2 = true ↔
            (entriesL cs).filter (fun q : Int × V => decide (q.1 = k)) ≠ [])) with
  | case1 ks vs i0 htest =>
    intro lo hi h hlo hhi
    simp only [WFB] at h
    obtain ⟨hsort, hlen, hbnd⟩ := h
    have hres : updateNode k v (Node.leaf ks vs) =
        (Node.leaf ks (vs.set (bisectLeft ks k) v), true) := by
      show (if bisectLeft ks k < ks.length ∧ ks.getD (bisectLeft ks k) 0 = k then
          (Node.leaf ks (vs.set (bisectLeft ks k) v), true)
        else (Node.leaf ks vs, false)) = _
      rw [if_pos htest]
    rw [hres]
    have hkmem : k ∈ ks := (bisectLeft_found_iff hsort k).mp htest
    refine ⟨?_, ?_, ?_⟩
    · simp only [WFB]
      exact ⟨hsort, by simpa using hlen, hbnd⟩
    · rw [entriesOf_leaf, entriesOf_leaf]
      exact zip_set_eq_mupdate hsort hlen htest.1 htest.2
    · simp only [entriesOf_leaf, true_iff]
      obtain ⟨p, hp, hpk⟩ := exists_zip_pair hlen hkmem
      exact filter_key_ne_nil hp hpk
  | case2 ks vs i0 htest =>
    intro lo hi h hlo hhi
    simp only [WFB] at h
    obtain ⟨hsort, hlen, hbnd⟩ := h
    have hres : updateNode k v (Node.leaf ks vs) = (Node.leaf ks vs, false) := by
      show (if bisectLeft ks k < ks.length ∧ ks.getD (bisectLeft ks k) 0 = k then
          (Node.leaf ks (vs.set (bisectLeft ks k) v), true)
        else (Node.leaf ks vs, false)) = _
      rw [if_neg htest]
    rw [hres]
    have hkmem : k ∉ ks := fun hk => htest ((bisectLeft_found_iff hsort k).mpr hk)
    have hnom : ∀ p ∈ ks.zip vs, p.1 ≠ k := by
      intro p hp he
      exact hkmem (he ▸ fst_mem_of_mem_zip hp)
    refine ⟨by simp only [WFB]; exact ⟨hsort, hlen, hbnd⟩, ?_, ?_⟩
    · simp only [entriesOf_leaf]
      exact (mupdate_of_no_match hnom).symm
    · simp only [Bool.false_eq_true, false_iff, ne_eq, not_not, entriesOf_leaf]
      exact filter_key_eq_nil hnom
  | case3 ks cs i0 ih =>
    intro lo hi h hlo hhi
    simp only [WFB] at h
    have hres := ih lo hi ks h rfl hlo hhi
    have hrep := repairChildren_of_WFseq h
    have hunf : updateNode k v (Node.internal ks cs) =
        (Node.internal ks
          ((Node.repairChildren ks cs).set (bisectRight ks k)
            (updateNodeAt k v cs (bisectRight ks k)).1),
          (updateNodeAt k v cs (bisectRight ks k)).2) := rfl
    rw [hunf, hrep]
    refine ⟨?_, ?_, ?_⟩
    · simp only [WFB]
      exact hres.1
    · rw [entriesOf_internal, entriesOf_internal]
      exact hres.2.1
    · rw [entriesOf_internal]
      exact hres.2.2
  | case4 i =>
    rename_i lo hi ks h hi0 hlo hhi
    exact absurd h WFseq_ne_nil
  | case5 c cs ih =>
    rename_i lo hi ks h hi0 hlo hhi
    match ks, h, hi0 with
    | [], h, _ =>
      match cs, h with
      | [], h =>
        simp only [WFseq] at h
        have hres := ih _ _ h hlo hhi
        have hstep : updateNodeAt k v [c] 0 = updateNode k v c := rfl
        rw [hstep]
        refine ⟨?_, ?_, ?_⟩
        · simp only [List.set_cons_zero, WFseq]
          exact hres.1
        · rw [List.set_cons_zero, entriesL_cons, entriesL_cons, entriesL_nil]
          simpa using hres.2.1
        · rw [entriesL_cons, entriesL_nil, List.append_nil]
          exact hres.2.2
      | c2 :: cs', h => simp [WFseq] at h
    | s :: ks', h, hi0 =>
      rw [bisectRight_cons] at hi0
      by_cases hsk : s ≤ k
      · rw [if_pos hsk] at hi0
        exact absurd hi0.symm (Nat.succ_ne_zero _)
      · match cs, h with
        | [], h => simp [WFseq] at h
        | c2 :: cs', h =>
          simp only [WFseq] at h
          obtain ⟨h1, h2, hc, hseq⟩ := h
          have hk : ubLt k (some s) := ubLt_some.mpr (lt_of_not_le hsk)
          have hres := ih _ _ hc hlo hk
          have hstep : updateNodeAt k v (c :: c2 :: cs') 0 = updateNode k v c := rfl
          rw [hstep]
          have htailno : ∀ p ∈ entriesL (c2 :: cs'), p.1 ≠ k := by
            intro q hq he
            have : k < q.1 := lt_of_lt_of_le (lt_of_not_le hsk)
              (lbLe_some.mp (entries_ok_seq hseq q hq).1)
            rw [he] at this
            exact lt_irrefl k this
          refine ⟨⟨h1, h2, hres.1, hseq⟩, ?_, ?_⟩
          · rw [List.set_cons_zero]
            rw [show entriesL (c :: c2 :: cs')
                = entriesOf c ++ entriesL (c2 :: cs') from entriesL_cons _ _]
            rw [show entriesL ((updateNode k v c).1 :: c2 :: cs')
                = entriesOf (updateNode k v c).1 ++ entriesL (c2 :: cs') from
                entriesL_cons _ _]
            rw [hres.2.1, mupdate_append, mupdate_of_no_match htailno]
          · rw [entriesL_cons, List.filter_append, filter_key_eq_nil htailno,
              List.append_nil]
            exact hres.2.2
  | case6 c cs i ih =>
    rename_i lo hi ks h hi0 hlo hhi
    match ks, h, hi0 with
    | [], h, hi0 =>
      match cs, h with
      | [], h =>
        rw [bisectRight_nil] at hi0
        exact absurd hi0 (Nat.succ_ne_zero _)
      | c2 :: cs', h => simp [WFseq] at h
    | s :: ks', h, hi0 =>
      rw [bisectRight_cons] at hi0
      by_cases hsk : s ≤ k
      · rw [if_pos hsk] at hi0
        match cs, h with
        | [], h => simp [WFseq] at h
        | c2 :: cs', h =>
          simp only [WFseq] at h
          obtain ⟨h1, h2, hc, hseq⟩ := h
          have hlo' : lbLe (some s) k := lbLe_some.mpr hsk
          have hres := ih _ _ _ hseq (Nat.succ_injective hi0) hlo' hhi
          have hstep : updateNodeAt k v (c :: c2 :: cs') (i + 1)
              = updateNodeAt k v (c2 :: cs') i := rfl
          rw [hstep]
          have hheadno : ∀ p ∈ entriesOf c, p.1 ≠ k := by
            intro q hq he
            have : q.1 < k :=
              lt_of_lt_of_le (ubLt_some.mp ((entries_ok hc).2 q hq).2) hsk
            rw [he] at this
            exact lt_irrefl k this
          refine ⟨⟨h1, h2, hc, hres.1⟩, ?_, ?_⟩
          · rw [List.set_cons_succ]
            rw [show entriesL (c :: c2 :: cs')
                = entriesOf c ++ entriesL (c2 :: cs') from entriesL_cons _ _]
            rw [show entriesL (c :: (c2 :: cs').set i (updateNodeAt k v (c2 :: cs') i).1)
                = entriesOf c ++ entriesL ((c2 :: cs').set i (updateNodeAt k v (c2 :: cs') i).1)
                from entriesL_cons _ _]
            rw [hres.2.1, mupdate_append, mupdate_of_no_match hheadno]
          · rw [entriesL_cons, List.filter_append, filter_key_eq_nil hheadno,
              List.nil_append]
            exact hres.2.2
      · rw [if_neg hsk] at hi0
        exact absurd hi0 (Nat.succ_ne_zero _)

/-- `update(k, v)` on a well-formed tree that does not hold `k` returns
`False` and leaves every node untouched. -/
theorem updateNode_absent {k : Int} {v : V} :
    ∀ (n : Node V) (lo hi : Option Int), WFB n lo hi →
      (∀ p ∈ entriesOf n, p.1 ≠ k) → updateNode k v n = (n, false) := by
  intro n
  induction n using updateNode.induct (k := k) (v := v) (motive_2 := fun cs i =>
      ∀ (lo hi : Option Int) (ks : List Int), WFseq lo hi ks cs →
        (∀ p ∈ entriesL cs, p.1 ≠ k) →
        updateNodeAt k v cs i = (cs.getD i (Node.leaf [] []), false)) with
  | case1 ks vs i0 htest =>
    intro lo hi h habs
    simp only [WFB] at h
    exfalso
    have hkmem : k ∈ ks := (bisectLeft_found_iff h.1 k).mp htest
    obtain ⟨p, hp, hpk⟩ := exists_zip_pair h.2.1 hkmem
    exact habs p (by simpa [entriesOf_leaf] using hp) hpk
  | case2 ks vs i0 htest =>
    intro lo hi h habs
    show (if bisectLeft ks k < ks.length ∧ ks.getD (bisectLeft ks k) 0 = k then
        (Node.leaf ks (vs.set (bisectLeft ks k) v), true)
      else (Node.leaf ks vs, false)) = _
    rw [if_neg htest]
  | case3 ks cs i0 ih =>
    intro lo hi h habs
    simp only [WFB] at h
    have hrep := repairChildren_of_WFseq h
    have hat := ih lo hi ks h
      (fun p hp => habs p (by simpa [entriesOf_internal] using hp))
    have hunf : updateNode k v (Node.internal ks cs) =
        (Node.internal ks
          ((Node.repairChildren ks cs).set (bisectRight ks k)
            (updateNodeAt k v cs (bisectRight ks k)).1),
          (updateNodeAt k v cs (bisectRight ks k)).2) := rfl
    rw [hunf, hrep, hat]
    show (Node.internal ks
        (cs.set (bisectRight ks k)
          (cs.getD (bisectRight ks k) (Node.leaf [] []))), false)
      = (Node.internal ks cs, false)
    rw [setGetD_self]
  | case4 i =>
    rename_i lo hi ks h habs
    exact absurd h WFseq_ne_nil
  | case5 c cs ih =>
    rename_i lo hi ks h habs
    show updateNode k v c = (c, false)
    have hhead : ∀ p ∈ entriesOf c, p.1 ≠ k :=
      fun p hp => habs p (by rw [entriesL_cons]; exact List.mem_append_left _ hp)
    match ks, h with
    | [], h =>
      match cs, h with
      | [], h =>
        simp only [WFseq] at h
        exact ih _ _ h hhead
      | c2 :: cs', h => simp [WFseq] at h
    | s :: ks', h =>
      match cs, h with
      | [], h => simp [WFseq] at h
      | c2 :: cs', h =>
        simp only [WFseq] at h
        exact ih _ _ h.2.2.1 hhead
  | case6 c cs i ih =>
    rename_i lo hi ks h habs
    show updateNodeAt k v cs i = (cs.getD i (Node.leaf [] []), false)
    have htail : ∀ p ∈ entriesL cs, p.1 ≠ k :=
      fun p hp => habs p (by rw [entriesL_cons]; exact List.mem_append_right _ hp)
    match ks, h with
    | [], h =>
      match cs, h with
      | [], h => rfl
      | c2 :: cs', h => simp [WFseq] at h
    | s :: ks', h =>
      match cs, h with
      | [], h => simp [WFseq] at h
      | c2 :: cs', h =>
        simp only [WFseq] at h
        exact ih _ _ _ h.2.2.2 htail

/-! ## Balance lemmas -/

theorem eqHeight_leaf {ks : List Int} {vs : List V} {h : Nat} :
    EqHeight (Node.leaf ks vs) h ↔ h = 0 := Iff.rfl

theorem eqHeight_leaf0 (ks : List Int) (vs : List V) :
    EqHeight (Node.leaf ks vs) 0 := rfl

theorem eqHeight_internal {ks : List Int} {cs : List (Node V)} {h : Nat} :
    EqHeight (Node.internal ks cs) h ↔
      ∃ h', h = h' + 1 ∧ EqHeightL cs h' := Iff.rfl

theorem EqHeightL_iff_forall {cs : List (Node V)} {h : Nat} :
    EqHeightL cs h ↔ ∀ c ∈ cs, EqHeight c h := by
  induction cs with
  | nil => simp [EqHeightL]
  | cons c cs ih =>
    simp only [EqHeightL, List.mem_cons]
    constructor
    · rintro ⟨h1, h2⟩ x (rfl | hx)
      · exact h1
      · exact ih.mp h2 x hx
    · intro hf
      exact ⟨hf c (Or.inl rfl), ih.mpr fun x hx => hf x (Or.inr hx)⟩

theorem isLeaf_of_eqHeight {c : Node V} {h : Nat} (hc : EqHeight c h) :
    c.isLeaf = decide (h = 0) := by
  cases c with
  | leaf ks vs =>
    have h0 : h = 0 := hc
    subst h0
    rfl
  | internal ks cs =>
    obtain ⟨h', rfl, _⟩ := eqHeight_internal.mp hc
    simp [Node.isLeaf]

theorem mem_set_cases {α : Type} {l : List α} {a b : α} :
    ∀ {n : Nat}, a ∈ l.set n b → a ∈ l ∨ a = b := by
  induction l with
  | nil => intro n h; simp at h
  | cons c l ih =>
    intro n h
    match n with
    | 0 =>
      rw [List.set_cons_zero] at h
      rcases List.mem_cons.mp h with rfl | h'
      · exact Or.inr rfl
      · exact Or.inl (List.mem_cons_of_mem _ h')
    | n + 1 =>
      rw [List.set_cons_succ] at h
      rcases List.mem_cons.mp h with rfl | h'
      · exact Or.inl (List.mem_cons_self _ _)
      · rcases ih h' with h'' | rfl
        · exact Or.inl (List.mem_cons_of_mem _ h'')
        · exact Or.inr rfl

theorem mem_insertIdx_cases {α : Type} {l : List α} {a b : α} :
    ∀ {n : Nat}, a ∈ l.insertIdx n b → a ∈ l ∨ a = b := by
  induction l with
  | nil =>
    intro n h
    match n with
    | 0 => simp [List.insertIdx] at h; exact Or.inr h
    | n + 1 => simp [List.insertIdx] at h
  | cons c l ih =>
    intro n h
    match n with
    | 0 =>
      rw [show (c :: l).insertIdx 0 b = b :: c :: l from rfl] at h
      rcases List.mem_cons.mp h with rfl | h'
      · exact Or.inr rfl
      · exact Or.inl h'
    | n + 1 =>
      rw [show (c :: l).insertIdx (n + 1) b = c :: l.insertIdx n b from rfl] at h
      rcases List.mem_cons.mp h with rfl | h'
      · exact Or.inl (List.mem_cons_self _ _)
      · rcases ih h' with h'' | rfl
        · exact Or.inl (List.mem_cons_of_mem _ h'')
        · exact Or.inr rfl

/-- `update` preserves the depth of every leaf. -/
theorem updateNode_eqHeight {k : Int} {v : V} :
    ∀ (n : Node V) (lo hi : Option Int) (hh : Nat), WFB n lo hi →
      EqHeight n hh → EqHeight (updateNode k v n).1 hh := by
  intro n
  induction n using updateNode.induct (k := k) (v := v) (motive_2 := fun cs i =>
      ∀ (lo hi : Option Int) (ks : List Int) (hh : Nat), WFseq lo hi ks cs →
        i = bisectRight ks k → EqHeightL cs hh →
        EqHeight (updateNodeAt k v cs i).1 hh) with
  | case1 ks vs i0 htest =>
    intro lo hi hh h hu
    have h0 : hh = 0 := hu
    subst h0
    show EqHeight (if bisectLeft ks k < ks.length ∧ ks.getD (bisectLeft ks k) 0 = k
        then (Node.leaf ks (vs.set (bisectLeft ks k) v), true)
        else (Node.leaf ks vs, false)).1 0
    rw [if_pos htest]
    exact eqHeight_leaf0 _ _
  | case2 ks vs i0 htest =>
    intro lo hi hh h hu
    have h0 : hh = 0 := hu
    subst h0
    show EqHeight (if bisectLeft ks k < ks.length ∧ ks.getD (bisectLeft ks k) 0 = k
        then (Node.leaf ks (vs.set (bisectLeft ks k) v), true)
        else (Node.leaf ks vs, false)).1 0
    rw [if_neg htest]
    exact eqHeight_leaf0 _ _
  | case3 ks cs i0 ih =>
    intro lo hi hh h hu
    simp only [WFB] at h
    obtain ⟨h', rfl, hL⟩ := eqHeight_internal.mp hu
    have hat := ih lo hi ks h' h rfl hL
    have hrep := repairChildren_of_WFseq h
    have hunf : updateNode k v (Node.internal ks cs) =
        (Node.internal ks
          ((Node.repairChildren ks cs).set (bisectRight ks k)
            (updateNodeAt k v cs (bisectRight ks k)).1),
          (updateNodeAt k v cs (bisectRight ks k)).2) := rfl
    rw [hunf, hrep]
    refine ⟨h', rfl, EqHeightL_iff_forall.mpr fun x hx => ?_⟩
    rcases mem_set_cases hx with hx' | rfl
    · exact EqHeightL_iff_forall.mp hL x hx'
    · exact hat
  | case4 i =>
    rename_i lo hi ks hh h hi0 hL
    exact absurd h WFseq_ne_nil
  | case5 c cs ih =>
    rename_i lo hi ks hh h hi0 hL
    show EqHeight (updateNode k v c).1 hh
    have hch : EqHeight c hh := EqHeightL_iff_forall.mp hL c (List.mem_cons_self _ _)
    match ks, h with
    | [], h =>
      match cs, h with
      | [], h =>
        simp only [WFseq] at h
        exact ih _ _ _ h hch
      | c2 :: cs', h => simp [WFseq] at h
    | s :: ks', h =>
      match cs, h with
      | [], h => simp [WFseq] at h
      | c2 :: cs', h =>
        simp only [WFseq] at h
        exact ih _ _ _ h.2.2.1 hch
  | case6 c cs i ih =>
    rename_i lo hi ks hh h hi0 hL
    show EqHeight (updateNodeAt k v cs i).1 hh
    have hL' : EqHeightL cs hh := by
      rw [EqHeightL_iff_forall]
      exact fun x hx => EqHeightL_iff_forall.mp hL x (List.mem_cons_of_mem _ hx)
    match ks, h, hi0 with
    | [], h, hi0 =>
      rw [bisectRight_nil] at hi0
      exact absurd hi0 (Nat.succ_ne_zero _)
    | s :: ks', h, hi0 =>
      rw [bisectRight_cons] at hi0
      by_cases hsk : s ≤ k
      · rw [if_pos hsk] at hi0
        match cs, h with
        | [], h => simp [WFseq] at h
        | c2 :: cs', h =>
          simp only [WFseq] at h
          exact ih _ _ _ hh h.2.2.2 (Nat.succ_injective hi0) hL'
      · rw [if_neg hsk] at hi0
        exact absurd hi0 (Nat.succ_ne_zero _)

/-! ## Leaf-level lemmas for insertion -/

theorem sorted_take_lt {l : List Int} :
    ∀ {n : Nat}, List.Pairwise (· < ·) l → n < l.length →
      ∀ x ∈ l.take n, x < l.getD n 0 := by
  induction l with
  | nil => intro n _ hn; simp at hn
  | cons a t ih =>
    intro n hs hn x hx
    match n, hx with
    | n + 1, hx =>
      rcases List.mem_cons.mp (by simpa using hx) with rfl | hx'
      · rw [List.getD_cons_succ]
        have hmem : t.getD n 0 ∈ t := by
          have hn' : n < t.length := by simpa using hn
          rw [List.getD_eq_getElem?_getD, List.getElem?_eq_getElem hn']
          exact List.getElem_mem hn'
        exact (List.pairwise_cons.mp hs).1 _ hmem
      · rw [List.getD_cons_succ]
        exact ih (List.pairwise_cons.mp hs).2 (by simpa using hn) x hx'

theorem sorted_drop_ge {l : List Int} :
    ∀ {n : Nat}, List.Pairwise (· < ·) l → n < l.length →
      ∀ x ∈ l.drop n, l.getD n 0 ≤ x := by
  induction l with
  | nil => intro n _ hn; simp at hn
  | cons a t ih =>
    intro n hs hn x hx
    match n with
    | 0 =>
      simp only [List.drop_zero] at hx
      rcases List.mem_cons.mp hx with rfl | hx'
      · simp
      · simp only [List.getD_cons_zero]
        exact le_of_lt ((List.pairwise_cons.mp hs).1 x hx')
    | n + 1 =>
      rw [List.getD_cons_succ]
      exact ih (List.pairwise_cons.mp hs).2 (by simpa using hn) x
        (by simpa using hx)

theorem zip_take_drop {ks : List Int} :
    ∀ {vs : List V}, vs.length = ks.length → ∀ (n : Nat),
      (ks.take n).zip (vs.take n) ++ (ks.drop n).zip (vs.drop n) = ks.zip vs := by
  induction ks with
  | nil =>
    intro vs hlen n
    match vs, hlen with
    | [], _ => simp
  | cons a t ih =>
    intro vs hlen n
    match vs, hlen with
    | v :: vs', hlen =>
      match n with
      | 0 => simp
      | n + 1 =>
        simp only [List.take_succ_cons, List.drop_succ_cons, List.zip_cons_cons,
          List.cons_append]
        rw [ih (by simpa using hlen) n]

/-- Upserting at the position found by `bisect_left` is the model insert when
the key is already present. -/
theorem zip_set_eq_minsert {ks : List Int} :
    ∀ {vs : List V}, List.Pairwise (· < ·) ks → vs.length = ks.length →
      ∀ {k : Int} {v : V}, bisectLeft ks k < ks.length →
        ks.getD (bisectLeft ks k) 0 = k →
        ks.zip (vs.set (bisectLeft ks k) v) = minsert (ks.zip vs) k v := by
  induction ks with
  | nil => intro vs _ _ k v h; simp [bisectLeft_nil] at h
  | cons a l ih =>
    intro vs hs hlen k v hlt hget
    match vs, hlen with
    | v0 :: vs', hlen =>
      have hal : ∀ b ∈ l, a < b := fun b hb => (List.pairwise_cons.mp hs).1 b hb
      rw [bisectLeft_cons] at hlt hget
      by_cases h : a < k
      · rw [if_pos h] at hlt hget
        simp only [List.getD_cons_succ] at hget
        simp only [List.length_cons, Nat.succ_lt_succ_iff] at hlt
        have hlen2 : vs'.length = l.length := by simpa using hlen
        have hrec := ih (List.pairwise_cons.mp hs).2 hlen2 (k := k) (v := v) hlt hget
        simp only [bisectLeft_cons, if_pos h, List.set_cons_succ,
          List.zip_cons_cons]
        rw [hrec]
        simp [minsert, List.filter_cons, h, not_lt.mpr (le_of_lt h)]
      · rw [if_neg h] at hget
        simp only [List.getD_cons_zero] at hget
        subst hget
        simp only [bisectLeft_cons, if_neg h, List.set_cons_zero,
          List.zip_cons_cons]
        have h3 : (l.zip vs').filter (fun p => decide (p.1 < a)) = [] :=
          List.filter_eq_nil_iff.mpr fun p hp => by
            simpa using le_of_lt (hal p.1 (fst_mem_of_mem_zip hp))
        have h4 : (l.zip vs').filter (fun p => decide (a < p.1)) = l.zip vs' :=
          List.filter_eq_self.mpr fun p hp => by
            simpa using hal p.1 (fst_mem_of_mem_zip hp)
        simp [minsert, List.filter_cons, h3, h4]

/-- Inserting a fresh key at the position found by `bisect_left` keeps the
leaf sorted and aligned, realizes the model insert, and introduces no key
other than `k`. -/
theorem leaf_fresh_insert {ks : List Int} :
    ∀ {vs : List V}, List.Pairwise (· < ·) ks → vs.length = ks.length →
      ∀ {k : Int} {v : V}, k ∉ ks →
        List.Pairwise (· < ·) (ks.insertIdx (bisectLeft ks k) k) ∧
          (vs.insertIdx (bisectLeft ks k) v).length =
            (ks.insertIdx (bisectLeft ks k) k).length ∧
          (ks.insertIdx (bisectLeft ks k) k).zip
              (vs.insertIdx (bisectLeft ks k) v) = minsert (ks.zip vs) k v ∧
          ∀ x ∈ ks.insertIdx (bisectLeft ks k) k, x ∈ ks ∨ x = k := by
  induction ks with
  | nil =>
    intro vs hs hlen k v hk
    match vs, hlen with
    | [], _ => simp [bisectLeft_nil, minsert]
  | cons a l ih =>
    intro vs hs hlen k v hk
    match vs, hlen with
    | v0 :: vs', hlen =>
      have hal : ∀ b ∈ l, a < b := fun b hb => (List.pairwise_cons.mp hs).1 b hb
      have hak : a ≠ k := fun he => hk (he ▸ List.mem_cons_self _ _)
      by_cases h : a < k
      · have hlen2 : vs'.length = l.length := by simpa using hlen
        have hrec := ih (List.pairwise_cons.mp hs).2 hlen2 (k := k) (v := v)
          (fun hmem => hk (List.mem_cons_of_mem _ hmem))
        obtain ⟨p1, p2, p3, p4⟩ := hrec
        simp only [bisectLeft_cons, if_pos h, List.insertIdx_succ_cons,
          List.zip_cons_cons]
        refine ⟨?_, by simpa using p2, ?_, ?_⟩
        · rw [List.pairwise_cons]
          refine ⟨?_, p1⟩
          intro b hb
          rcases p4 b hb with hb' | rfl
          · exact hal b hb'
          · exact h
        · rw [p3]
          simp [minsert, List.filter_cons, h, not_lt.mpr (le_of_lt h)]
        · intro x hx
          rcases List.mem_cons.mp hx with rfl | hx'
          · exact Or.inl (List.mem_cons_self _ _)
          · rcases p4 x hx' with hx'' | rfl
            · exact Or.inl (List.mem_cons_of_mem _ hx'')
            · exact Or.inr rfl
      · have hka : k < a := lt_of_le_of_ne (le_of_not_lt h) (fun he => hak he.symm)
        simp only [bisectLeft_cons, if_neg h, List.insertIdx_zero,
          List.zip_cons_cons]
        have hbig : ∀ b ∈ a :: l, k < b := by
          intro b hb
          rcases List.mem_cons.mp hb with rfl | hb'
          · exact hka
          · exact lt_trans hka (hal b hb')
        refine ⟨?_, by simpa using hlen, ?_, ?_⟩
        · rw [List.pairwise_cons]
          exact ⟨hbig, hs⟩
        · simp only [minsert]
          have h3 : ((a, v0) :: l.zip vs').filter (fun p => decide (p.1 < k)) = [] :=
            List.filter_eq_nil_iff.mpr fun p hp => by
              rcases List.mem_cons.mp hp with rfl | hp'
              · simpa using le_of_lt hka
              · simpa using
                  le_of_lt (lt_trans hka (hal p.1 (fst_mem_of_mem_zip hp')))
          have h4 : ((a, v0) :: l.zip vs').filter (fun p => decide (k < p.1))
              = (a, v0) :: l.zip vs' :=
            List.filter_eq_self.mpr fun p hp => by
              rcases List.mem_cons.mp hp with rfl | hp'
              · simpa using hka
              · simpa using lt_trans hka (hal p.1 (fst_mem_of_mem_zip hp'))
          simp [h3, h4]
        · intro x hx
          rcases List.mem_cons.mp hx with rfl | hx'
          · exact Or.inr rfl
          · exact Or.inl hx'

theorem getD_mem_of_lt {l : List Int} {n : Nat} (h : n < l.length) :
    l.getD n 0 ∈ l := by
  rw [List.getD_eq_getElem?_getD, List.getElem?_eq_getElem h]
  exact List.getElem_mem h

theorem lbLt_getD_of_pos {l : List Int} (hs : List.Pairwise (· < ·) l) {n : Nat}
    (h1 : 0 < n) (h2 : n < l.length) {lo : Option Int}
    (hall : ∀ x ∈ l, lbLe lo x) : lbLt lo (l.getD n 0) := by
  match l, h2 with
  | x0 :: rest, h2 =>
    match n, h1 with
    | n + 1, _ =>
      rw [List.getD_cons_succ]
      have hn : n < rest.length := by simpa using h2
      have hmem : rest.getD n 0 ∈ rest := getD_mem_of_lt hn
      have hx0 : x0 < rest.getD n 0 := (List.pairwise_cons.mp hs).1 _ hmem
      have hle : lbLe lo x0 := hall x0 (List.mem_cons_self _ _)
      cases lo with
      | none => trivial
      | some a => exact lt_of_le_of_lt hle hx0

theorem entriesL_take_drop (cs : List (Node V)) (n : Nat) :
    entriesL cs = entriesL (cs.take n) ++ entriesL (cs.drop n) := by
  induction cs generalizing n with
  | nil => simp [entriesL_nil]
  | cons c cs ih =>
    match n with
    | 0 => simp [entriesL_nil]
    | n + 1 =>
      simp only [List.take_succ_cons, List.drop_succ_cons, entriesL_cons]
      rw [ih n]
      simp [List.append_assoc]

/-- Splitting a well-formed telescope at separator index `j`: both halves are
well-formed on the separator-bounded intervals and the separator respects the
node's own bounds. -/
theorem WFseq_split_telescope {cs : List (Node V)} :
    ∀ {lo hi : Option Int} {ks : List Int}, WFseq lo hi ks cs →
      ∀ {j : Nat}, j < ks.length →
        WFseq lo (some (ks.getD j 0)) (ks.take j) (cs.take (j + 1)) ∧
        WFseq (some (ks.getD j 0)) hi (ks.drop (j + 1)) (cs.drop (j + 1)) ∧
        lbLt lo (ks.getD j 0) ∧ ubLt (ks.getD j 0) hi := by
  induction cs with
  | nil => intro lo hi ks h; exact absurd h WFseq_ne_nil
  | cons c cs ih =>
    intro lo hi ks h j hj
    match ks, h with
    | [], h => simp at hj
    | s :: ks', h =>
      match cs, h with
      | [], h => simp [WFseq] at h
      | c2 :: cs', h =>
        simp only [WFseq] at h
        obtain ⟨h1, h2, hc, hseq⟩ := h
        match j with
        | 0 =>
          simp only [List.getD_cons_zero, List.take_zero, List.take_succ_cons,
            List.drop_succ_cons, List.drop_zero]
          refine ⟨?_, hseq, h1, h2⟩
          show WFseq lo (some s) [] [c]
          simpa [WFseq] using hc
        | j + 1 =>
          have hj' : j < ks'.length := by simpa using hj
          obtain ⟨ihl, ihr, ihlb, ihub⟩ := ih hseq hj'
          simp only [List.getD_cons_succ, List.take_succ_cons,
            List.drop_succ_cons]
          refine ⟨?_, ihr, lbLt_trans_le h1 (le_of_lt ihlb), ihub⟩
          show WFseq lo (some (ks'.getD j 0)) (s :: ks'.take j)
            (c :: (c2 :: cs').take (j + 1))
          exact ⟨h1, ihlb, hc, ihl⟩

/-! ## Insert specification -/

theorem leafInsert_unfold (m : Nat) (k : Int) (v : V) (ks : List Int)
    (vs : List V) :
    leafInsert m k v ks vs =
      if bisectLeft ks k < ks.length ∧ ks.getD (bisectLeft ks k) 0 = k then
        InsRes.one (Node.leaf ks (vs.set (bisectLeft ks k) v))
      else if m - 1 ≤ (ks.insertIdx (bisectLeft ks k) k).length then
        InsRes.split
          (Node.leaf ((ks.insertIdx (bisectLeft ks k) k).take (m / 2))
            ((vs.insertIdx (bisectLeft ks k) v).take (m / 2)))
          ((ks.insertIdx (bisectLeft ks k) k).getD (m / 2) 0)
          (Node.leaf ((ks.insertIdx (bisectLeft ks k) k).drop (m / 2))
            ((vs.insertIdx (bisectLeft ks k) v).drop (m / 2)))
      else InsRes.one (Node.leaf (ks.insertIdx (bisectLeft ks k) k)
        (vs.insertIdx (bisectLeft ks k) v)) := rfl

theorem insertNode_internal_unfold (m : Nat) (k : Int) (v : V) (ks : List Int)
    (cs : List (Node V)) :
    insertNode m k v (Node.internal ks cs) =
      (match insertNodeAt m k v cs (bisectRight ks k) with
       | InsRes.one c' =>
          InsRes.one (Node.internal ks
            ((Node.repairChildren ks cs).set (bisectRight ks k) c'))
       | InsRes.split l sep r =>
          if m - 1 ≤ (ks.insertIdx (bisectLeft ks sep) sep).length then
            splitInternal m (ks.insertIdx (bisectLeft ks sep) sep)
              (Node.repairChildren (ks.insertIdx (bisectLeft ks sep) sep)
                (((Node.repairChildren ks cs).set (bisectRight ks k) l).insertIdx
                  (bisectRight ks k + 1) r))
          else InsRes.one (Node.internal (ks.insertIdx (bisectLeft ks sep) sep)
            (Node.repairChildren (ks.insertIdx (bisectLeft ks sep) sep)
              (((Node.repairChildren ks cs).set (bisectRight ks k) l).insertIdx
                (bisectRight ks k + 1) r)))) := rfl

theorem splitInternal_unfold (m : Nat) (ks : List Int) (cs : List (Node V)) :
    splitInternal m ks cs =
      InsRes.split (Node.ensureValid (.internal (ks.take (m / 2)) (cs.take (m / 2 + 1))))
        (ks.getD (m / 2) 0)
        (Node.ensureValid (.internal (ks.drop (m / 2 + 1)) (cs.drop (m / 2 + 1)))) := rfl

theorem insertNode_internal_split (m : Nat) (k : Int) (v : V) (ks : List Int)
    (cs : List (Node V)) (l : Node V) (sep : Int) (r : Node V)
    (heq : insertNodeAt m k v cs (bisectRight ks k) = InsRes.split l sep r) :
    insertNode m k v (Node.internal ks cs) =
      if m - 1 ≤ (ks.insertIdx (bisectLeft ks sep) sep).length then
        splitInternal m (ks.insertIdx (bisectLeft ks sep) sep)
          (Node.repairChildren (ks.insertIdx (bisectLeft ks sep) sep)
            (((Node.repairChildren ks cs).set (bisectRight ks k) l).insertIdx
              (bisectRight ks k + 1) r))
      else InsRes.one (Node.internal (ks.insertIdx (bisectLeft ks sep) sep)
        (Node.repairChildren (ks.insertIdx (bisectLeft ks sep) sep)
          (((Node.repairChildren ks cs).set (bisectRight ks k) l).insertIdx
            (bisectRight ks k + 1) r))) := by
  rw [insertNode_internal_unfold, heq]

/-- Full specification of insertion: on a well-formed, balanced subtree the
result is well-formed and has the same leaf depth (with a properly bounded
promoted separator in the split case), and the stored entries become the
model upsert. -/
theorem insertNode_ok {m : Nat} {k : Int} {v : V} (hm : 3 ≤ m) :
    ∀ (n : Node V) (lo hi : Option Int) (hh : Nat), WFB n lo hi →
      EqHeight n hh → lbLe lo k → ubLt k hi →
      match insertNode m k v n with
      | .one n' => WFB n' lo hi ∧ EqHeight n' hh ∧
          entriesOf n' = minsert (entriesOf n) k v
      | .split l sep r =>
          WFB l lo (some sep) ∧ WFB r (some sep) hi ∧
            EqHeight l hh ∧ EqHeight r hh ∧ lbLt lo sep ∧ ubLt sep hi ∧
            entriesOf l ++ entriesOf r = minsert (entriesOf n) k v := by
  intro n
  induction n using insertNode.induct (m := m) (k := k) (v := v)
    (motive_2 := fun cs i =>
      ∀ (lo hi : Option Int) (ks : List Int) (hh : Nat), WFseq lo hi ks cs →
        i = bisectRight ks k → EqHeightL cs hh →
        lbLe lo k → ubLt k hi →
        match insertNodeAt m k v cs i with
        | .one c' =>
            WFseq lo hi ks (cs.set i c') ∧ EqHeight c' hh ∧
              entriesL (cs.set i c') = minsert (entriesL cs) k v
        | .split l sep r =>
            bisectLeft ks sep = i ∧ lbLt lo sep ∧
              EqHeight l hh ∧ EqHeight r hh ∧
              WFseq lo hi (ks.insertIdx i sep) ((cs.set i l).insertIdx (i + 1) r) ∧
              entriesL ((cs.set i l).insertIdx (i + 1) r) =
                minsert (entriesL cs) k v) with
  | case1 ks vs =>
    intro lo hi hh h hu hlo hhi
    have h0 : hh = 0 := hu
    subst h0
    simp only [WFB] at h
    obtain ⟨hsort, hlen, hbnd⟩ := h
    rw [show insertNode m k v (Node.leaf ks vs) = leafInsert m k v ks vs from rfl]
    rw [leafInsert_unfold]
    by_cases htest : bisectLeft ks k < ks.length ∧ ks.getD (bisectLeft ks k) 0 = k
    · rw [if_pos htest]
      refine ⟨?_, eqHeight_leaf0 _ _, ?_⟩
      · simp only [WFB]
        exact ⟨hsort, by simpa using hlen, hbnd⟩
      · rw [entriesOf_leaf, entriesOf_leaf]
        exact zip_set_eq_minsert hsort hlen htest.1 htest.2
    · rw [if_neg htest]
      have hfresh : k ∉ ks := fun hk => htest ((bisectLeft_found_iff hsort k).mpr hk)
      obtain ⟨p1, p2, p3, p4⟩ := leaf_fresh_insert hsort hlen (k := k) (v := v) hfresh
      have hall : ∀ x ∈ ks.insertIdx (bisectLeft ks k) k, lbLe lo x ∧ ubLt x hi := by
        intro x hx
        rcases p4 x hx with hx' | rfl
        · exact hbnd x hx'
        · exact ⟨hlo, hhi⟩
      by_cases hfull : m - 1 ≤ (ks.insertIdx (bisectLeft ks k) k).length
      · rw [if_pos hfull]
        have hmid2 : m / 2 < (ks.insertIdx (bisectLeft ks k) k).length := by omega
        have hmid1 : 0 < m / 2 := by omega
        refine ⟨?_, ?_, eqHeight_leaf0 _ _, eqHeight_leaf0 _ _, ?_, ?_, ?_⟩
        · simp only [WFB]
          refine ⟨p1.sublist (List.take_sublist _ _), ?_, ?_⟩
          · simp [p2]
          · intro x hx
            exact ⟨(hall x (List.mem_of_mem_take hx)).1,
              ubLt_some.mpr (sorted_take_lt p1 hmid2 x hx)⟩
        · simp only [WFB]
          refine ⟨p1.sublist (List.drop_sublist _ _), ?_, ?_⟩
          · simp [p2]
          · intro x hx
            exact ⟨lbLe_some.mpr (sorted_drop_ge p1 hmid2 x hx),
              (hall x (List.mem_of_mem_drop hx)).2⟩
        · exact lbLt_getD_of_pos p1 hmid1 hmid2 fun x hx => (hall x hx).1
        · exact (hall _ (getD_mem_of_lt hmid2)).2
        · rw [entriesOf_leaf, entriesOf_leaf, entriesOf_leaf]
          rw [zip_take_drop p2 (m / 2)]
          exact p3
      · rw [if_neg hfull]
        refine ⟨?_, eqHeight_leaf0 _ _, ?_⟩
        · simp only [WFB]
          exact ⟨p1, p2, hall⟩
        · rw [entriesOf_leaf, entriesOf_leaf]
          exact p3
  | case2 ks cs i0 c' heq ih =>
    intro lo hi hh h hu hlo hhi
    simp only [WFB] at h
    obtain ⟨h', rfl, hL⟩ := eqHeight_internal.mp hu
    have hres := ih lo hi ks h' h rfl hL hlo hhi
    rw [heq] at hres
    obtain ⟨hwf, hec, hent⟩ := hres
    rw [insertNode_internal_unfold, heq]
    refine ⟨?_, ?_, ?_⟩
    · show WFseq lo hi ks ((Node.repairChildren ks cs).set (bisectRight ks k) c')
      rw [repairChildren_of_WFseq h]
      exact hwf
    · show EqHeight (Node.internal ks
        ((Node.repairChildren ks cs).set (bisectRight ks k) c')) (h' + 1)
      rw [repairChildren_of_WFseq h]
      refine ⟨h', rfl, EqHeightL_iff_forall.mpr fun x hx => ?_⟩
      rcases mem_set_cases hx with hx' | rfl
      · exact EqHeightL_iff_forall.mp hL x hx'
      · exact hec
    · rw [entriesOf_internal, entriesOf_internal, repairChildren_of_WFseq h]
      exact hent
  | case3 ks cs i0 l sep r heq ks2 hfull ih =>
    intro lo hi hh h hu hlo hhi
    simp only [WFB] at h
    obtain ⟨h', rfl, hL⟩ := eqHeight_internal.mp hu
    have hres := ih lo hi ks h' h rfl hL hlo hhi
    rw [heq] at hres
    obtain ⟨hpos, hlb, hel, her, hwf, hent⟩ := hres
    have hpos2 : bisectLeft ks sep = bisectRight ks k := hpos
    have hwf2 : WFseq lo hi (ks.insertIdx (bisectRight ks k) sep)
        ((cs.set (bisectRight ks k) l).insertIdx (bisectRight ks k + 1) r) := hwf
    have hent2 : entriesL ((cs.set (bisectRight ks k) l).insertIdx
        (bisectRight ks k + 1) r) = minsert (entriesL cs) k v := hent
    have hmemE : ∀ x ∈ (cs.set (bisectRight ks k) l).insertIdx
        (bisectRight ks k + 1) r, EqHeight x h' := by
      intro x hx
      rcases mem_insertIdx_cases hx with hx' | rfl
      · rcases mem_set_cases hx' with hx'' | rfl
        · exact EqHeightL_iff_forall.mp hL x hx''
        · exact hel
      · exact her
    have hrep := repairChildren_of_WFseq h
    have hfull2 : m - 1 ≤ (ks.insertIdx (bisectLeft ks sep) sep).length := hfull
    rw [insertNode_internal_split m k v ks cs l sep r heq]
    rw [if_pos hfull2]
    rw [splitInternal_unfold]
    rw [hpos2, hrep]
    have hcs3 := repairChildren_of_WFseq hwf2
    rw [hcs3]
    have hmid2 : m / 2 < (ks.insertIdx (bisectRight ks k) sep).length := by
      have hfull3 := hfull2
      rw [hpos2] at hfull3
      omega
    obtain ⟨hleft, hright, hslb, hsub⟩ := WFseq_split_telescope hwf2 hmid2
    have hWl : WFB (Node.internal
        ((ks.insertIdx (bisectRight ks k) sep).take (m / 2))
        (((cs.set (bisectRight ks k) l).insertIdx (bisectRight ks k + 1) r).take
          (m / 2 + 1))) lo
        (some ((ks.insertIdx (bisectRight ks k) sep).getD (m / 2) 0)) := by
      simpa only [WFB] using hleft
    have hWr : WFB (Node.internal
        ((ks.insertIdx (bisectRight ks k) sep).drop (m / 2 + 1))
        (((cs.set (bisectRight ks k) l).insertIdx (bisectRight ks k + 1) r).drop
          (m / 2 + 1)))
        (some ((ks.insertIdx (bisectRight ks k) sep).getD (m / 2) 0)) hi := by
      simpa only [WFB] using hright
    refine ⟨?_, ?_, ?_, ?_, hslb, hsub, ?_⟩
    · rw [ensureValid_of_WFB hWl]
      exact hWl
    · rw [ensureValid_of_WFB hWr]
      exact hWr
    · rw [ensureValid_of_WFB hWl]
      refine ⟨h', rfl, EqHeightL_iff_forall.mpr fun x hx =>
        hmemE x (List.mem_of_mem_take hx)⟩
    · rw [ensureValid_of_WFB hWr]
      refine ⟨h', rfl, EqHeightL_iff_forall.mpr fun x hx =>
        hmemE x (List.mem_of_mem_drop hx)⟩
    · rw [ensureValid_of_WFB hWl, ensureValid_of_WFB hWr]
      rw [entriesOf_internal, entriesOf_internal, entriesOf_internal]
      rw [← entriesL_take_drop]
      exact hent2
  | case4 ks cs i0 l sep r heq ks2 hfull ih =>
    intro lo hi hh h hu hlo hhi
    simp only [WFB] at h
    obtain ⟨h', rfl, hL⟩ := eqHeight_internal.mp hu
    have hres := ih lo hi ks h' h rfl hL hlo hhi
    rw [heq] at hres
    obtain ⟨hpos, hlb, hel, her, hwf, hent⟩ := hres
    have hpos2 : bisectLeft ks sep = bisectRight ks k := hpos
    have hwf2 : WFseq lo hi (ks.insertIdx (bisectRight ks k) sep)
        ((cs.set (bisectRight ks k) l).insertIdx (bisectRight ks k + 1) r) := hwf
    have hent2 : entriesL ((cs.set (bisectRight ks k) l).insertIdx
        (bisectRight ks k + 1) r) = minsert (entriesL cs) k v := hent
    have hmemE : ∀ x ∈ (cs.set (bisectRight ks k) l).insertIdx
        (bisectRight ks k + 1) r, EqHeight x h' := by
      intro x hx
      rcases mem_insertIdx_cases hx with hx' | rfl
      · rcases mem_set_cases hx' with hx'' | rfl
        · exact EqHeightL_iff_forall.mp hL x hx''
        · exact hel
      · exact her
    have hrep := repairChildren_of_WFseq h
    have hfull2 : ¬ m - 1 ≤ (ks.insertIdx (bisectLeft ks sep) sep).length := hfull
    rw [insertNode_internal_split m k v ks cs l sep r heq]
    rw [if_neg hfull2]
    rw [hpos2, hrep]
    have hcs3 := repairChildren_of_WFseq hwf2
    rw [hcs3]
    refine ⟨?_, ?_, ?_⟩
    · simp only [WFB]
      exact hwf2
    · exact ⟨h', rfl, EqHeightL_iff_forall.mpr hmemE⟩
    · rw [entriesOf_internal, entriesOf_internal]
      exact hent2
  | case5 i =>
    rename_i lo hi ks hh h hi0 hL hlo hhi
    exact absurd h WFseq_ne_nil
  | case6 c cs ih =>
    rename_i lo hi ks hh h hi0 hL hlo hhi
    have hch : EqHeight c hh := EqHeightL_iff_forall.mp hL c (List.mem_cons_self _ _)
    rw [show insertNodeAt m k v (c :: cs) 0 = insertNode m k v c from rfl]
    match ks, h, hi0 with
    | [], h, _ =>
      match cs, h with
      | [], h =>
        simp only [WFseq] at h
        have hres := ih _ _ _ h hch hlo hhi
        cases hc0 : insertNode m k v c with
        | one n' =>
          rw [hc0] at hres
          obtain ⟨hwf, hen, hent⟩ := hres
          refine ⟨?_, hen, ?_⟩
          · show WFseq lo hi [] [n']
            simpa [WFseq] using hwf
          · rw [List.set_cons_zero, entriesL_singleton, entriesL_singleton]
            exact hent
        | split l sep r =>
          rw [hc0] at hres
          obtain ⟨hLw, hRw, hel, her, hlb, hub, hent⟩ := hres
          refine ⟨by rw [bisectLeft_nil], hlb, hel, her, ?_, ?_⟩
          · show WFseq lo hi [sep] [l, r]
            exact ⟨hlb, hub, hLw, by simpa [WFseq] using hRw⟩
          · rw [show (([c].set 0 l).insertIdx 1 r) = [l, r] from rfl]
            rw [entriesL_singleton, entriesL_cons, entriesL_singleton]
            exact hent
      | c2 :: cs', h => simp [WFseq] at h
    | s :: ks', h, hi0 =>
      rw [bisectRight_cons] at hi0
      by_cases hsk : s ≤ k
      · rw [if_pos hsk] at hi0
        exact absurd hi0.symm (Nat.succ_ne_zero _)
      · match cs, h with
        | [], h => simp [WFseq] at h
        | c2 :: cs', h =>
          simp only [WFseq] at h
          obtain ⟨h1, h2, hc, hseq⟩ := h
          have hk : ubLt k (some s) := ubLt_some.mpr (lt_of_not_le hsk)
          have hres := ih _ _ _ hc hch hlo hk
          have htailgt : ∀ p ∈ entriesL (c2 :: cs'), k < p.1 := by
            intro q hq
            exact lt_of_lt_of_le (lt_of_not_le hsk)
              (lbLe_some.mp (entries_ok_seq hseq q hq).1)
          cases hc0 : insertNode m k v c with
          | one n' =>
            rw [hc0] at hres
            obtain ⟨hwf, hen, hent⟩ := hres
            refine ⟨⟨h1, h2, hwf, hseq⟩, hen, ?_⟩
            rw [List.set_cons_zero, entriesL_cons, entriesL_cons]
            rw [show entriesL (c :: c2 :: cs')
                = entriesOf c ++ entriesL (c2 :: cs') from entriesL_cons _ _]
            rw [minsert_append_gt v htailgt, hent, entriesL_cons]
          | split l sep r =>
            rw [hc0] at hres
            obtain ⟨hLw, hRw, hel, her, hlb, hub, hent⟩ := hres
            have hseps : sep < s := ubLt_some.mp hub
            refine ⟨?_, hlb, hel, her, ?_, ?_⟩
            · rw [bisectLeft_cons, if_neg (not_lt.mpr (le_of_lt hseps))]
            · show WFseq lo hi (sep :: s :: ks') (l :: r :: c2 :: cs')
              exact ⟨hlb, ubLt_of_lt_of_ubLt hseps h2, hLw,
                ⟨lbLt_some.mpr hseps, h2, hRw, hseq⟩⟩
            · rw [show (((c :: c2 :: cs').set 0 l).insertIdx 1 r)
                  = l :: r :: c2 :: cs' from rfl]
              rw [entriesL_cons, entriesL_cons, entriesL_cons]
              rw [show entriesL (c :: c2 :: cs')
                  = entriesOf c ++ entriesL (c2 :: cs') from entriesL_cons _ _]
              rw [minsert_append_gt v htailgt, ← hent]
              simp [List.append_assoc, entriesL_cons]
  | case7 c cs i ih =>
    rename_i lo hi ks hh h hi0 hL hlo hhi
    have hL' : EqHeightL cs hh := by
      rw [EqHeightL_iff_forall]
      exact fun x hx => EqHeightL_iff_forall.mp hL x (List.mem_cons_of_mem _ hx)
    rw [show insertNodeAt m k v (c :: cs) (i + 1) = insertNodeAt m k v cs i from rfl]
    match ks, h, hi0 with
    | [], h, hi0 =>
      match cs, h with
      | [], h =>
        rw [bisectRight_nil] at hi0
        exact absurd hi0 (Nat.succ_ne_zero _)
      | c2 :: cs', h => simp [WFseq] at h
    | s :: ks', h, hi0 =>
      rw [bisectRight_cons] at hi0
      by_cases hsk : s ≤ k
      · rw [if_pos hsk] at hi0
        match cs, h with
        | [], h => simp [WFseq] at h
        | c2 :: cs', h =>
          simp only [WFseq] at h
          obtain ⟨h1, h2, hc, hseq⟩ := h
          have hlo' : lbLe (some s) k := lbLe_some.mpr hsk
          have hres := ih _ _ _ hh hseq (Nat.succ_injective hi0) hL' hlo' hhi
          have hheadlt : ∀ p ∈ entriesOf c, p.1 < k := by
            intro q hq
            exact lt_of_lt_of_le (ubLt_some.mp ((entries_ok hc).2 q hq).2) hsk
          cases hc0 : insertNodeAt m k v (c2 :: cs') i with
          | one c' =>
            rw [hc0] at hres
            obtain ⟨hwf, hen, hent⟩ := hres
            refine ⟨⟨h1, h2, hc, hwf⟩, hen, ?_⟩
            rw [List.set_cons_succ, entriesL_cons]
            rw [show entriesL (c :: c2 :: cs')
                = entriesOf c ++ entriesL (c2 :: cs') from entriesL_cons _ _]
            rw [minsert_append_lt v hheadlt, hent]
          | split l sep r =>
            rw [hc0] at hres
            obtain ⟨hpos, hlb, hel, her, hwf, hent⟩ := hres
            have hssep : s < sep := lbLt_some.mp hlb
            refine ⟨?_, ?_, hel, her, ?_, ?_⟩
            · rw [bisectLeft_cons, if_pos hssep, hpos]
            · exact lbLt_trans_le h1 (le_of_lt hssep)
            · rw [show (s :: ks').insertIdx (i + 1) sep
                  = s :: ks'.insertIdx i sep from rfl]
              rw [show ((c :: c2 :: cs').set (i + 1) l).insertIdx (i + 2) r
                  = c :: ((c2 :: cs').set i l).insertIdx (i + 1) r from rfl]
              exact ⟨h1, h2, hc, hwf⟩
            · rw [show ((c :: c2 :: cs').set (i + 1) l).insertIdx (i + 2) r
                  = c :: ((c2 :: cs').set i l).insertIdx (i + 1) r from rfl]
              rw [entriesL_cons]
              rw [show entriesL (c :: c2 :: cs')
                  = entriesOf c ++ entriesL (c2 :: cs') from entriesL_cons _ _]
              rw [minsert_append_lt v hheadlt, hent]
      · rw [if_neg hsk] at hi0
        exact absurd hi0 (Nat.succ_ne_zero _)

/-- Tree-level insertion: well-formedness and balance are preserved, the
order is unchanged, and the stored entries become the model upsert. -/
theorem Tree.insert_ok {t : Tree V} (h : t.WF) (hb : t.Bal)
    (hm : 3 ≤ t.order) (k : Int) (v : V) :
    (t.insert k v).WF ∧ (t.insert k v).Bal ∧
      (t.insert k v).order = t.order ∧
      entriesOf (t.insert k v).root = minsert (entriesOf t.root) k v := by
  obtain ⟨root, m⟩ := t
  obtain ⟨hh, hu⟩ := hb
  match root, h, hu with
  | .leaf [] vs, h, hu =>
    have hvs : vs = [] := by
      have h2 := h.2.1
      simpa using h2
    subst hvs
    refine ⟨?_, ⟨0, eqHeight_leaf0 _ _⟩, rfl, ?_⟩
    · show WFB (Node.leaf [k] ([] ++ [v])) none none
      exact ⟨by simp, rfl, fun a _ => ⟨lbLe_none a, ubLt_none a⟩⟩
    · show entriesOf (Node.leaf [k] ([] ++ [v]))
        = minsert (entriesOf (Node.leaf [] [])) k v
      rw [entriesOf_leaf, entriesOf_leaf]
      simp [minsert]
  | .leaf (k0 :: ks') vs, h, hu =>
    have hins : Tree.insert ⟨Node.leaf (k0 :: ks') vs, m⟩ k v
        = (match insertNode m k v (Node.leaf (k0 :: ks') vs) with
           | .one n => (⟨n, m⟩ : Tree V)
           | .split l sep rr => ⟨.internal [sep] [l, rr], m⟩) := rfl
    rw [hins]
    have hres := insertNode_ok (v := v) hm (Node.leaf (k0 :: ks') vs) none none hh h
      hu (lbLe_none k) (ubLt_none k)
    cases hc : insertNode m k v (Node.leaf (k0 :: ks') vs) with
    | one n =>
      rw [hc] at hres
      exact ⟨hres.1, ⟨hh, hres.2.1⟩, rfl, hres.2.2⟩
    | split l sep rr =>
      rw [hc] at hres
      obtain ⟨hL, hR, hel, her, _, _, hent⟩ := hres
      refine ⟨?_, ⟨hh + 1, hh, rfl, hel, her, trivial⟩, rfl, ?_⟩
      · show WFseq none none [sep] [l, rr]
        exact ⟨lbLt_none sep, ubLt_none sep, hL, hR⟩
      · show entriesOf (Node.internal [sep] [l, rr]) = _
        rw [entriesOf_internal]
        rw [show entriesL [l, rr] = entriesOf l ++ entriesOf rr by
          rw [entriesL_cons, entriesL_singleton]]
        exact hent
  | .internal ks cs, h, hu =>
    have hins : Tree.insert ⟨Node.internal ks cs, m⟩ k v
        = (match insertNode m k v (Node.internal ks cs) with
           | .one n => (⟨n, m⟩ : Tree V)
           | .split l sep rr => ⟨.internal [sep] [l, rr], m⟩) := rfl
    rw [hins]
    have hres := insertNode_ok (v := v) hm (Node.internal ks cs) none none hh h
      hu (lbLe_none k) (ubLt_none k)
    cases hc : insertNode m k v (Node.internal ks cs) with
    | one n =>
      rw [hc] at hres
      exact ⟨hres.1, ⟨hh, hres.2.1⟩, rfl, hres.2.2⟩
    | split l sep rr =>
      rw [hc] at hres
      obtain ⟨hL, hR, hel, her, _, _, hent⟩ := hres
      refine ⟨?_, ⟨hh + 1, hh, rfl, hel, her, trivial⟩, rfl, ?_⟩
      · show WFseq none none [sep] [l, rr]
        exact ⟨lbLt_none sep, ubLt_none sep, hL, hR⟩
      · show entriesOf (Node.internal [sep] [l, rr]) = _
        rw [entriesOf_internal]
        rw [show entriesL [l, rr] = entriesOf l ++ entriesOf rr by
          rw [entriesL_cons, entriesL_singleton]]
        exact hent

/-! ## Telescope surgery helpers for the delete path -/

theorem lbLt_of_lbLe_lt {lo : Option Int} {a b : Int} (h : lbLe lo a)
    (hab : a < b) : lbLt lo b := by
  cases lo with
  | none => trivial
  | some x => exact lt_of_le_of_lt h hab

theorem unsnoc_of_getLast {α : Type} {l : List α} {a : α}
    (h : l.getLast? = some a) : l = l.dropLast ++ [a] := by
  induction l with
  | nil => simp at h
  | cons c l ih =>
    match l, h with
    | [], h =>
      simp only [List.getLast?_singleton, Option.some.injEq] at h
      subst h
      rfl
    | d :: l', h =>
      rw [List.getLast?_cons_cons] at h
      have h2 := ih h
      rw [show (c :: d :: l').dropLast = c :: (d :: l').dropLast from rfl,
        List.cons_append, ← h2]

theorem sorted_dropLast_lt {l : List Int} (hs : List.Pairwise (· < ·) l)
    {mk : Int} (h : l.getLast? = some mk) : ∀ x ∈ l.dropLast, x < mk := by
  intro x hx
  have he := unsnoc_of_getLast h
  rw [he] at hs
  exact (List.pairwise_append.mp hs).2.2 x hx mk (List.mem_singleton.mpr rfl)

theorem getLast_exists {α : Type} {l : List α} (h : 0 < l.length) :
    ∃ a, l.getLast? = some a := by
  match l, h with
  | c :: l', _ =>
    exact ⟨(c :: l').getLast (by simp), List.getLast?_eq_getLast _ (by simp)⟩

theorem WFseq_sep_lt_childHi {cs : List (Node V)} :
    ∀ {lo hi : Option Int} {ks : List Int}, WFseq lo hi ks cs →
      ∀ {j : Nat}, j < ks.length → ubLt (ks.getD j 0) (childHi hi ks (j + 1)) := by
  induction cs with
  | nil => intro lo hi ks h; exact absurd h WFseq_ne_nil
  | cons c cs ih =>
    intro lo hi ks h j hj
    match ks, h with
    | s :: ks', h =>
      match cs, h with
      | [], h => simp [WFseq] at h
      | c2 :: cs', h =>
        simp only [WFseq] at h
        obtain ⟨h1, h2, hc, hseq⟩ := h
        match j with
        | 0 =>
          rw [List.getD_cons_zero, childHi_cons]
          match ks', hseq with
          | [], hseq =>
            rw [childHi_of_ge (by simp)]
            exact h2
          | s1 :: ks'', hseq =>
            match cs', hseq with
            | [], hseq => simp [WFseq] at hseq
            | c3 :: cs'', hseq =>
              simp only [WFseq] at hseq
              have hk : (0 : Nat) < (s1 :: ks'').length := by simp
              rw [childHi_of_lt hk]
              simp only [List.getElem?_cons_zero]
              exact ubLt_some.mpr (lbLt_some.mp hseq.1)
        | j + 1 =>
          rw [List.getD_cons_succ, childHi_cons]
          exact ih hseq (by simpa using hj)

theorem WFseq_childLo_lt_sep {cs : List (Node V)} :
    ∀ {lo hi : Option Int} {ks : List Int}, WFseq lo hi ks cs →
      ∀ {j : Nat}, j < ks.length → lbLt (childLo lo ks j) (ks.getD j 0) := by
  induction cs with
  | nil => intro lo hi ks h; exact absurd h WFseq_ne_nil
  | cons c cs ih =>
    intro lo hi ks h j hj
    match ks, h with
    | s :: ks', h =>
      match cs, h with
      | [], h => simp [WFseq] at h
      | c2 :: cs', h =>
        simp only [WFseq] at h
        obtain ⟨h1, h2, hc, hseq⟩ := h
        match j with
        | 0 => exact h1
        | j + 1 =>
          rw [List.getD_cons_succ, childLo_cons]
          exact ih hseq (by simpa using hj)

theorem WFseq_unsnoc {cs : List (Node V)} :
    ∀ {lo hi : Option Int} {ks : List Int}, WFseq lo hi ks cs →
      ∀ {mk : Int} {mc : Node V}, ks.getLast? = some mk →
        cs.getLast? = some mc →
        WFseq lo (some mk) ks.dropLast cs.dropLast ∧ WFB mc (some mk) hi ∧
          lbLt lo mk ∧ ubLt mk hi := by
  induction cs with
  | nil => intro lo hi ks h; exact absurd h WFseq_ne_nil
  | cons c cs ih =>
    intro lo hi ks h mk mc hmk hmc
    match ks, h with
    | [], h => simp at hmk
    | s :: ks', h =>
      match cs, h with
      | [], h => simp [WFseq] at h
      | c2 :: cs', h =>
        simp only [WFseq] at h
        obtain ⟨h1, h2, hc, hseq⟩ := h
        match ks', cs', hseq, hmk, hmc with
        | [], [], hseq, hmk, hmc =>
          simp only [List.getLast?_singleton, Option.some.injEq] at hmk
          rw [List.getLast?_cons_cons, List.getLast?_singleton,
            Option.some.injEq] at hmc
          subst hmk
          subst hmc
          refine ⟨?_, by simpa [WFseq] using hseq, h1, h2⟩
          show WFseq lo (some s) [] [c]
          simpa [WFseq] using hc
        | s1 :: ks'', [], hseq, hmk, hmc =>
          exact absurd hseq.2.2.2 WFseq_ne_nil
        | s1 :: ks'', c3 :: cs'', hseq, hmk, hmc =>
          rw [List.getLast?_cons_cons] at hmk hmc
          have hres := ih hseq hmk hmc
          have hsmk : s < mk := lbLt_some.mp hres.2.2.1
          refine ⟨?_, hres.2.1, lbLt_trans_le h1 (le_of_lt hsmk), hres.2.2.2⟩
          show WFseq lo (some mk) (s :: (s1 :: ks'').dropLast)
            (c :: (c2 :: c3 :: cs'').dropLast)
          exact ⟨h1, ubLt_some.mpr hsmk, hc, hres.1⟩

theorem WFseq_snoc {cs : List (Node V)} :
    ∀ {lo : Option Int} {s : Int} {ks : List Int}, WFseq lo (some s) ks cs →
      ∀ {hi' : Option Int} {c : Node V}, lbLt lo s → ubLt s hi' →
        WFB c (some s) hi' → WFseq lo hi' (ks ++ [s]) (cs ++ [c]) := by
  induction cs with
  | nil => intro lo s ks h; exact absurd h WFseq_ne_nil
  | cons c0 cs ih =>
    intro lo s ks h hi' c hls hus hc
    match ks, h with
    | [], h =>
      match cs, h with
      | [], h =>
        show WFseq lo hi' [s] [c0, c]
        exact ⟨hls, hus, by simpa [WFseq] using h, hc⟩
      | c2 :: cs', h => simp [WFseq] at h
    | s1 :: ks', h =>
      match cs, h with
      | [], h => simp [WFseq] at h
      | c2 :: cs', h =>
        simp only [WFseq] at h
        obtain ⟨h1, h2, hc0, hseq⟩ := h
        show WFseq lo hi' (s1 :: (ks' ++ [s])) (c0 :: ((c2 :: cs') ++ [c]))
        have hs1s : s1 < s := ubLt_some.mp h2
        exact ⟨h1, ubLt_trans_le (le_of_lt hs1s) hus, hc0,
          ih hseq (lbLt_some.mpr hs1s) hus hc⟩

theorem WFseq_append_sep {lcs : List (Node V)} :
    ∀ {lo : Option Int} {sep : Int} {lks : List Int},
      WFseq lo (some sep) lks lcs →
      ∀ {hi : Option Int} {rks : List Int} {rcs : List (Node V)},
        WFseq (some sep) hi rks rcs → lbLt lo sep → ubLt sep hi →
        WFseq lo hi (lks ++ sep :: rks) (lcs ++ rcs) := by
  induction lcs with
  | nil => intro lo sep lks h; exact absurd h WFseq_ne_nil
  | cons c0 cs ih =>
    intro lo sep lks h hi rks rcs hr hls hus
    match lks, h with
    | [], h =>
      match cs, h with
      | [], h =>
        show WFseq lo hi (sep :: rks) (c0 :: rcs)
        match rks, rcs, hr with
        | [], [rc], hr =>
          exact ⟨hls, hus, by simpa [WFseq] using h, hr⟩
        | rk :: rks', rc :: rcs', hr =>
          exact ⟨hls, hus, by simpa [WFseq] using h, hr⟩
        | [], [], hr => exact absurd hr WFseq_ne_nil
        | [], rc :: rc2 :: rcs', hr => simp [WFseq] at hr
        | rk :: rks', [], hr => simp [WFseq] at hr
      | c2 :: cs', h => simp [WFseq] at h
    | s1 :: lks', h =>
      match cs, h with
      | [], h => simp [WFseq] at h
      | c2 :: cs', h =>
        simp only [WFseq] at h
        obtain ⟨h1, h2, hc0, hseq⟩ := h
        show WFseq lo hi (s1 :: (lks' ++ sep :: rks)) (c0 :: ((c2 :: cs') ++ rcs))
        have hs1 : s1 < sep := ubLt_some.mp h2
        exact ⟨h1, ubLt_trans_le (le_of_lt hs1) hus, hc0,
          ih hseq hr (lbLt_some.mpr hs1) hus⟩

/-! ## Shape reductions of the rebalancing helpers -/

theorem borrowFromPrev_leaf_eq {ks : List Int} {cs : List (Node V)} {i : Nat}
    {cks lks : List Int} {cvs lvs : List V} {mk : Int} {mv : V}
    (hc : cs[i]? = some (Node.leaf cks cvs))
    (hp : cs[i - 1]? = some (Node.leaf lks lvs))
    (hmk : lks.getLast? = some mk) (hmv : lvs.getLast? = some mv) :
    borrowFromPrev ks cs i = (ks.set (i - 1) mk,
      (cs.set i (.leaf (mk :: cks) (mv :: cvs))).set (i - 1)
        (.leaf lks.dropLast lvs.dropLast)) := by
  simp only [borrowFromPrev, hc, hp, hmk, hmv]

theorem borrowFromPrev_internal_eq {ks : List Int} {cs : List (Node V)} {i : Nat}
    {cks lks : List Int} {ccs lcs : List (Node V)} {mk : Int} {mc : Node V}
    (hc : cs[i]? = some (Node.internal cks ccs))
    (hp : cs[i - 1]? = some (Node.internal lks lcs))
    (hmk : lks.getLast? = some mk) (hmc : lcs.getLast? = some mc) :
    borrowFromPrev ks cs i = (ks.set (i - 1) mk,
      (cs.set i (.internal (ks.getD (i - 1) 0 :: cks) (mc :: ccs))).set (i - 1)
        (.internal lks.dropLast lcs.dropLast)) := by
  simp only [borrowFromPrev, hc, hp, hmk, hmc]

theorem borrowFromNext_leaf_eq {ks : List Int} {cs : List (Node V)} {i : Nat}
    {cks rkRest : List Int} {cvs rvRest : List V} {rk : Int} {rv : V}
    (hc : cs[i]? = some (Node.leaf cks cvs))
    (hn : cs[i + 1]? = some (Node.leaf (rk :: rkRest) (rv :: rvRest))) :
    borrowFromNext ks cs i = (ks.set i (rkRest.headD 0),
      (cs.set i (.leaf (cks ++ [rk]) (cvs ++ [rv]))).set (i + 1)
        (.leaf rkRest rvRest)) := by
  simp only [borrowFromNext, hc, hn]

theorem borrowFromNext_internal_eq {ks : List Int} {cs : List (Node V)} {i : Nat}
    {cks rkRest : List Int} {ccs rcsRest : List (Node V)} {rk : Int}
    {rc0 : Node V}
    (hc : cs[i]? = some (Node.internal cks ccs))
    (hn : cs[i + 1]? = some (Node.internal (rk :: rkRest) (rc0 :: rcsRest))) :
    borrowFromNext ks cs i = (ks.set i rk,
      (cs.set i (.internal (cks ++ [ks.getD i 0]) (ccs ++ [rc0]))).set (i + 1)
        (.internal rkRest rcsRest)) := by
  simp only [borrowFromNext, hc, hn, List.isEmpty_cons, List.headD_cons,
    List.tail_cons]
  simp

theorem mergeAt_leaf_eq {ks : List Int} {cs : List (Node V)} {j : Nat}
    {lks rks : List Int} {lvs rvs : List V}
    (hl : cs[j]? = some (Node.leaf lks lvs))
    (hr : cs[j + 1]? = some (Node.leaf rks rvs)) :
    mergeAt ks cs j = (ks.eraseIdx j,
      (cs.set j (.leaf (lks ++ rks) (lvs ++ rvs))).eraseIdx (j + 1)) := by
  simp only [mergeAt, hl, hr]

theorem mergeAt_internal_eq {ks : List Int} {cs : List (Node V)} {j : Nat}
    {lks rks : List Int} {lcs rcs : List (Node V)}
    (hl : cs[j]? = some (Node.internal lks lcs))
    (hr : cs[j + 1]? = some (Node.internal rks rcs)) :
    mergeAt ks cs j = (ks.eraseIdx j,
      (cs.set j (.internal (lks ++ ks.getD j 0 :: rks) (lcs ++ rcs))).eraseIdx
        (j + 1)) := by
  simp only [mergeAt, hl, hr]

theorem borrowFromPrev_mixed_eq1 {ks : List Int} {cs : List (Node V)} {i : Nat}
    {cks : List Int} {cvs : List V} {lks : List Int} {lcs : List (Node V)}
    (hc : cs[i]? = some (Node.leaf cks cvs))
    (hp : cs[i - 1]? = some (Node.internal lks lcs)) :
    borrowFromPrev ks cs i = (ks, cs) := by
  simp only [borrowFromPrev, hc, hp]

theorem borrowFromPrev_mixed_eq2 {ks : List Int} {cs : List (Node V)} {i : Nat}
    {cks : List Int} {ccs : List (Node V)} {lks : List Int} {lvs : List V}
    (hc : cs[i]? = some (Node.internal cks ccs))
    (hp : cs[i - 1]? = some (Node.leaf lks lvs)) :
    borrowFromPrev ks cs i = (ks, cs) := by
  simp only [borrowFromPrev, hc, hp]

theorem getD_elem_eq {α : Type} {l : List α} {j : Nat} (h : j < l.length)
    (d : α) : l[j]? = some (l.getD j d) := by
  rw [List.getElem?_eq_getElem h, List.getD_eq_getElem?_getD,
    List.getElem?_eq_getElem h]
  rfl

theorem getD_mem {α : Type} {l : List α} {j : Nat} (h : j < l.length) (d : α) :
    l.getD j d ∈ l := by
  rw [List.getD_eq_getElem?_getD, List.getElem?_eq_getElem h]
  exact List.getElem_mem h

theorem zip_snoc {A : List Int} {B : List V} :
    ∀ {mk : Int} {mv : V}, B.length = A.length →
      (A ++ [mk]).zip (B ++ [mv]) = A.zip B ++ [(mk, mv)] := by
  induction A generalizing B with
  | nil =>
    intro mk mv h
    match B, h with
    | [], _ => rfl
  | cons a A ih =>
    intro mk mv h
    match B, h with
    | b :: B, h =>
      simp only [List.cons_append, List.zip_cons_cons, List.cons.injEq]
      exact ⟨trivial, ih (by simpa using h)⟩

/-- `_borrow_from_prev` on a well-formed balanced telescope, with a donor
holding at least two keys: the parent stays a well-formed telescope on the
same interval, the stored entries and the leaf depth are unchanged. -/
theorem borrowFromPrev_ok {lo hi : Option Int} {ks : List Int}
    {cs : List (Node V)} (h : WFseq lo hi ks cs) {j : Nat}
    (hlen : j + 1 < cs.length) {hh : Nat} (hE : EqHeightL cs hh)
    (hd : 2 ≤ ((cs.getD j (Node.leaf [] [])).keysOf).length) :
    WFseq lo hi (borrowFromPrev ks cs (j + 1)).1
        (borrowFromPrev ks cs (j + 1)).2 ∧
      entriesL (borrowFromPrev ks cs (j + 1)).2 = entriesL cs ∧
      EqHeightL (borrowFromPrev ks cs (j + 1)).2 hh := by
  have hj : j < cs.length := Nat.lt_of_succ_lt hlen
  have hkslen : cs.length = ks.length + 1 := WFseq_length h
  have hjk : j < ks.length := by omega
  have hDj : cs[j]? = some (cs.getD j (Node.leaf [] [])) :=
    getD_elem_eq hj _
  have hCj : cs[(j + 1)]? = some (cs.getD (j + 1) (Node.leaf [] [])) :=
    getD_elem_eq hlen _
  have hdon := WFseq_read h hj (Node.leaf [] [])
  have hchild := WFseq_read h hlen (Node.leaf [] [])
  have hsepq : ks[j]? = some (ks.getD j 0) := getD_elem_eq hjk _
  have hHij : childHi hi ks j = some (ks.getD j 0) := by
    rw [childHi_of_lt hjk, hsepq]
  have hLoj1 : childLo lo ks (j + 1) = some (ks.getD j 0) := by
    rw [childLo_succ, hsepq]
  rw [hHij] at hdon
  rw [hLoj1] at hchild
  have hED := EqHeightL_iff_forall.mp hE _ (getD_mem hj (Node.leaf [] []))
  have hEC := EqHeightL_iff_forall.mp hE _ (getD_mem hlen (Node.leaf [] []))
  have hsepub := WFseq_sep_lt_childHi h hjk
  rcases hD : cs.getD j (Node.leaf [] []) with ⟨lks, lvs⟩ | ⟨lks, lcs⟩ <;>
    rcases hC : cs.getD (j + 1) (Node.leaf [] []) with ⟨cks, cvs⟩ | ⟨cks, ccs⟩
  · -- donor leaf, child leaf
    rw [hD] at hdon hDj hED hd
    rw [hC] at hchild hCj hEC
    have hh0 : hh = 0 := hED
    subst hh0
    simp only [WFB] at hdon hchild
    obtain ⟨hso, hlv, hbd⟩ := hdon
    obtain ⟨hcso, hclv, hcbd⟩ := hchild
    have hd2 : 2 ≤ lks.length := hd
    obtain ⟨mk, hmk⟩ := getLast_exists (l := lks) (by omega)
    obtain ⟨mv, hmv⟩ := getLast_exists (l := lvs) (by omega)
    rw [borrowFromPrev_leaf_eq hCj hDj hmk hmv]
    simp only [Nat.add_sub_cancel]
    have hmkmem : mk ∈ lks := by
      rw [unsnoc_of_getLast hmk]
      exact List.mem_append_right _ (List.mem_singleton.mpr rfl)
    have hmksep : mk < ks.getD j 0 := ubLt_some.mp (hbd mk hmkmem).2
    have hls : lbLt (childLo lo ks j) mk := by
      match lks, hd2, hmk, hso, hbd with
      | a :: b :: lks', _, hmk, hso, hbd =>
        have hamem : a ∈ (a :: b :: lks').dropLast := List.mem_cons_self _ _
        exact lbLt_of_lbLe_lt (hbd a (List.mem_cons_self _ _)).1
          (sorted_dropLast_lt hso hmk a hamem)
    have hus : ubLt mk (childHi hi ks (j + 1)) :=
      ubLt_of_lt_of_ubLt hmksep hsepub
    have hL : WFB (Node.leaf lks.dropLast lvs.dropLast)
        (childLo lo ks j) (some mk) := by
      refine ⟨hso.sublist (List.dropLast_sublist _), by simp [hlv], ?_⟩
      intro x hx
      exact ⟨(hbd x ((List.dropLast_sublist _).subset hx)).1,
        ubLt_some.mpr (sorted_dropLast_lt hso hmk x hx)⟩
    have hR : WFB (Node.leaf (mk :: cks) (mv :: cvs)) (some mk)
        (childHi hi ks (j + 1)) := by
      refine ⟨List.pairwise_cons.mpr ⟨fun x hx =>
        lt_of_lt_of_le hmksep (lbLe_some.mp (hcbd x hx).1), hcso⟩,
        by simp [hclv], ?_⟩
      intro x hx
      rcases List.mem_cons.mp hx with rfl | hx'
      · exact ⟨le_refl _, hus⟩
      · exact ⟨le_of_lt (lt_of_lt_of_le hmksep (lbLe_some.mp (hcbd x hx').1)),
          (hcbd x hx').2⟩
    have hcomm : ((cs.set (j + 1) (Node.leaf (mk :: cks) (mv :: cvs))).set j
          (Node.leaf lks.dropLast lvs.dropLast))
        = ((cs.set j (Node.leaf lks.dropLast lvs.dropLast)).set (j + 1)
          (Node.leaf (mk :: cks) (mv :: cvs))) :=
      List.set_comm _ _ _ (by omega)
    have hz : lks.zip lvs = lks.dropLast.zip lvs.dropLast ++ [(mk, mv)] := by
      conv_lhs => rw [unsnoc_of_getLast hmk, unsnoc_of_getLast hmv]
      exact zip_snoc (by simp [hlv])
    refine ⟨?_, ?_, ?_⟩
    · rw [hcomm]
      exact WFseq_update_pair h hlen hls hus hL hR
    · rw [hcomm, entriesL_set_set hlen]
      conv_rhs => rw [entriesL_getD_decomp2 hlen (Node.leaf [] [])]
      rw [hD, hC, entriesOf_leaf, entriesOf_leaf, entriesOf_leaf,
        entriesOf_leaf, hz]
      simp [List.append_assoc]
    · rw [EqHeightL_iff_forall]
      intro x hx
      rcases mem_set_cases hx with hx' | rfl
      · rcases mem_set_cases hx' with hx'' | rfl
        · exact EqHeightL_iff_forall.mp hE x hx''
        · exact eqHeight_leaf0 _ _
      · exact eqHeight_leaf0 _ _
  · -- donor leaf, child internal: impossible at one height
    rw [hD] at hED
    rw [hC] at hEC
    have hh0 : hh = 0 := hED
    obtain ⟨h', hh1, _⟩ := eqHeight_internal.mp hEC
    omega
  · -- donor internal, child leaf: impossible at one height
    rw [hD] at hED
    rw [hC] at hEC
    have hh0 : hh = 0 := hEC
    obtain ⟨h', hh1, _⟩ := eqHeight_internal.mp hED
    omega
  · -- donor internal, child internal
    rw [hD] at hdon hDj hED hd
    rw [hC] at hchild hCj hEC
    obtain ⟨h', rfl, hEdon⟩ := eqHeight_internal.mp hED
    obtain ⟨h'', hh2, hEchild⟩ := eqHeight_internal.mp hEC
    have hh2' : h' = h'' := by omega
    subst hh2'
    simp only [WFB] at hdon hchild
    have hd2 : 2 ≤ lks.length := hd
    have hlcs : lcs.length = lks.length + 1 := WFseq_length hdon
    obtain ⟨mk, hmk⟩ := getLast_exists (l := lks) (by omega)
    obtain ⟨mc, hmc⟩ := getLast_exists (l := lcs) (by omega)
    rw [borrowFromPrev_internal_eq hCj hDj hmk hmc]
    simp only [Nat.add_sub_cancel]
    obtain ⟨hdrop, hmcWF, hmklb, hmkub⟩ := WFseq_unsnoc hdon hmk hmc
    have hmksep : mk < ks.getD j 0 := ubLt_some.mp hmkub
    have hls : lbLt (childLo lo ks j) mk := hmklb
    have hus : ubLt mk (childHi hi ks (j + 1)) :=
      ubLt_of_lt_of_ubLt hmksep hsepub
    have hL : WFB (Node.internal lks.dropLast lcs.dropLast)
        (childLo lo ks j) (some mk) := by
      simp only [WFB]
      exact hdrop
    have hR : WFB (Node.internal (ks.getD j 0 :: cks) (mc :: ccs)) (some mk)
        (childHi hi ks (j + 1)) := by
      simp only [WFB]
      show WFseq (some mk) (childHi hi ks (j + 1)) (ks.getD j 0 :: cks)
        (mc :: ccs)
      exact ⟨lbLt_some.mpr hmksep, hsepub, hmcWF, hchild⟩
    have hcomm : ((cs.set (j + 1)
          (Node.internal (ks.getD j 0 :: cks) (mc :: ccs))).set j
          (Node.internal lks.dropLast lcs.dropLast))
        = ((cs.set j (Node.internal lks.dropLast lcs.dropLast)).set (j + 1)
          (Node.internal (ks.getD j 0 :: cks) (mc :: ccs))) :=
      List.set_comm _ _ _ (by omega)
    have hlcsplit : entriesL lcs = entriesL lcs.dropLast ++ entriesOf mc := by
      conv_lhs => rw [unsnoc_of_getLast hmc]
      rw [entriesL_append, entriesL_singleton]
    refine ⟨?_, ?_, ?_⟩
    · rw [hcomm]
      exact WFseq_update_pair h hlen hls hus hL hR
    · rw [hcomm, entriesL_set_set hlen]
      conv_rhs => rw [entriesL_getD_decomp2 hlen (Node.leaf [] [])]
      rw [hD, hC, entriesOf_internal, entriesOf_internal, entriesOf_internal,
        entriesOf_internal, entriesL_cons, hlcsplit]
      simp [List.append_assoc]
    · rw [EqHeightL_iff_forall]
      intro x hx
      have hmcE : EqHeight mc h' :=
        EqHeightL_iff_forall.mp hEdon mc (by
          rw [unsnoc_of_getLast hmc]
          exact List.mem_append_right _ (List.mem_singleton.mpr rfl))
      rcases mem_set_cases hx with hx' | rfl
      · rcases mem_set_cases hx' with hx'' | rfl
        · exact EqHeightL_iff_forall.mp hE x hx''
        · exact ⟨h', rfl, EqHeightL_iff_forall.mpr fun y hy => by
            rcases List.mem_cons.mp hy with rfl | hy'
            · exact hmcE
            · exact EqHeightL_iff_forall.mp hEchild y hy'⟩
      · exact ⟨h', rfl, EqHeightL_iff_forall.mpr fun y hy =>
          EqHeightL_iff_forall.mp hEdon y ((List.dropLast_sublist _).subset hy)⟩

theorem exists_two {α : Type} {l : List α} (h : 2 ≤ l.length) :
    ∃ a b t, l = a :: b :: t := by
  match l with
  | [] => simp at h
  | [a] => simp at h
  | a :: b :: t => exact ⟨a, b, t, rfl⟩

theorem exists_cons {α : Type} {l : List α} (h : 0 < l.length) :
    ∃ a t, l = a :: t := by
  match l with
  | [] => simp at h
  | a :: t => exact ⟨a, t, rfl⟩

/-- `_borrow_from_next` on a well-formed balanced telescope, with a donor
holding at least two keys: the parent stays a well-formed telescope on the
same interval, the stored entries and the leaf depth are unchanged. -/
theorem borrowFromNext_ok {lo hi : Option Int} {ks : List Int}
    {cs : List (Node V)} (h : WFseq lo hi ks cs) {j : Nat}
    (hlen : j + 1 < cs.length) {hh : Nat} (hE : EqHeightL cs hh)
    (hd : 2 ≤ ((cs.getD (j + 1) (Node.leaf [] [])).keysOf).length) :
    WFseq lo hi (borrowFromNext ks cs j).1 (borrowFromNext ks cs j).2 ∧
      entriesL (borrowFromNext ks cs j).2 = entriesL cs ∧
      EqHeightL (borrowFromNext ks cs j).2 hh := by
  have hj : j < cs.length := Nat.lt_of_succ_lt hlen
  have hkslen : cs.length = ks.length + 1 := WFseq_length h
  have hjk : j < ks.length := by omega
  have hCj : cs[j]? = some (cs.getD j (Node.leaf [] [])) := getD_elem_eq hj _
  have hDj : cs[(j + 1)]? = some (cs.getD (j + 1) (Node.leaf [] [])) :=
    getD_elem_eq hlen _
  have hchild := WFseq_read h hj (Node.leaf [] [])
  have hdon := WFseq_read h hlen (Node.leaf [] [])
  have hsepq : ks[j]? = some (ks.getD j 0) := getD_elem_eq hjk _
  have hHij : childHi hi ks j = some (ks.getD j 0) := by
    rw [childHi_of_lt hjk, hsepq]
  have hLoj1 : childLo lo ks (j + 1) = some (ks.getD j 0) := by
    rw [childLo_succ, hsepq]
  rw [hHij] at hchild
  rw [hLoj1] at hdon
  have hEC := EqHeightL_iff_forall.mp hE _ (getD_mem hj (Node.leaf [] []))
  have hED := EqHeightL_iff_forall.mp hE _ (getD_mem hlen (Node.leaf [] []))
  have hclosep : lbLt (childLo lo ks j) (ks.getD j 0) :=
    WFseq_childLo_lt_sep h hjk
  rcases hC : cs.getD j (Node.leaf [] []) with ⟨cks, cvs⟩ | ⟨cks, ccs⟩ <;>
    rcases hD : cs.getD (j + 1) (Node.leaf [] []) with ⟨rks, rvs⟩ | ⟨rks, rcs⟩
  · -- child leaf, donor leaf
    rw [hC] at hchild hCj hEC
    rw [hD] at hdon hDj hED hd
    have hh0 : hh = 0 := hED
    subst hh0
    simp only [WFB] at hdon hchild
    obtain ⟨hso, hlv, hbd⟩ := hdon
    obtain ⟨hcso, hclv, hcbd⟩ := hchild
    have hd2 : 2 ≤ rks.length := hd
    obtain ⟨rk, rk2, rkR, rfl⟩ := exists_two hd2
    obtain ⟨rv, rv2, rvR, rfl⟩ := exists_two (l := rvs) (by rw [hlv]; simp)
    rw [borrowFromNext_leaf_eq hCj hDj]
    rw [show (rk2 :: rkR).headD 0 = rk2 from rfl]
    have hseprk : ks.getD j 0 ≤ rk :=
      lbLe_some.mp (hbd rk (List.mem_cons_self _ _)).1
    have hrkrk2 : rk < rk2 :=
      (List.pairwise_cons.mp hso).1 rk2 (List.mem_cons_self _ _)
    have hls : lbLt (childLo lo ks j) rk2 :=
      lbLt_trans_le hclosep (le_trans hseprk (le_of_lt hrkrk2))
    have hus : ubLt rk2 (childHi hi ks (j + 1)) :=
      (hbd rk2 (List.mem_cons_of_mem _ (List.mem_cons_self _ _))).2
    have hL : WFB (Node.leaf (cks ++ [rk]) (cvs ++ [rv]))
        (childLo lo ks j) (some rk2) := by
      refine ⟨?_, by simp [hclv], ?_⟩
      · rw [List.pairwise_append]
        refine ⟨hcso, List.pairwise_singleton _ _, ?_⟩
        intro x hx y hy
        rw [List.mem_singleton.mp hy]
        exact lt_of_lt_of_le (ubLt_some.mp (hcbd x hx).2) hseprk
      · intro x hx
        rcases List.mem_append.mp hx with hx' | hx'
        · exact ⟨(hcbd x hx').1, ubLt_some.mpr (lt_trans
            (lt_of_lt_of_le (ubLt_some.mp (hcbd x hx').2) hseprk) hrkrk2)⟩
        · rw [List.mem_singleton.mp hx']
          exact ⟨lbLe_of_lbLt (lbLt_trans_le hclosep hseprk),
            ubLt_some.mpr hrkrk2⟩
    have hR : WFB (Node.leaf (rk2 :: rkR) (rv2 :: rvR)) (some rk2)
        (childHi hi ks (j + 1)) := by
      refine ⟨(List.pairwise_cons.mp hso).2, by simpa using hlv, ?_⟩
      intro x hx
      rcases List.mem_cons.mp hx with rfl | hx'
      · exact ⟨le_refl _, hus⟩
      · refine ⟨le_of_lt ((List.pairwise_cons.mp
          (List.pairwise_cons.mp hso).2).1 x hx'), (hbd x
          (List.mem_cons_of_mem _ (List.mem_cons_of_mem _ hx'))).2⟩
    refine ⟨WFseq_update_pair h hlen hls hus hL hR, ?_, ?_⟩
    · rw [entriesL_set_set hlen]
      conv_rhs => rw [entriesL_getD_decomp2 hlen (Node.leaf [] [])]
      rw [hC, hD, entriesOf_leaf, entriesOf_leaf, entriesOf_leaf,
        entriesOf_leaf, zip_snoc hclv]
      simp [List.append_assoc, List.zip_cons_cons]
    · rw [EqHeightL_iff_forall]
      intro x hx
      rcases mem_set_cases hx with hx' | rfl
      · rcases mem_set_cases hx' with hx'' | rfl
        · exact EqHeightL_iff_forall.mp hE x hx''
        · exact eqHeight_leaf0 _ _
      · exact eqHeight_leaf0 _ _
  · -- child leaf, donor internal: impossible at one height
    rw [hC] at hEC
    rw [hD] at hED
    have hh0 : hh = 0 := hEC
    obtain ⟨h', hh1, _⟩ := eqHeight_internal.mp hED
    omega
  · -- child internal, donor leaf: impossible at one height
    rw [hC] at hEC
    rw [hD] at hED
    have hh0 : hh = 0 := hED
    obtain ⟨h', hh1, _⟩ := eqHeight_internal.mp hEC
    omega
  · -- child internal, donor internal
    rw [hC] at hchild hCj hEC
    rw [hD] at hdon hDj hED hd
    obtain ⟨h', rfl, hEchild⟩ := eqHeight_internal.mp hEC
    obtain ⟨h'', hh2, hEdon⟩ := eqHeight_internal.mp hED
    have hh2' : h' = h'' := by omega
    subst hh2'
    simp only [WFB] at hdon hchild
    have hd2 : 2 ≤ rks.length := hd
    have hrcs : rcs.length = rks.length + 1 := WFseq_length hdon
    obtain ⟨rk, rkR, rfl⟩ := exists_cons (l := rks) (by omega)
    obtain ⟨rc0, rcsR, rfl⟩ := exists_cons (l := rcs) (by omega)
    rw [borrowFromNext_internal_eq hCj hDj]
    simp only [WFseq] at hdon
    obtain ⟨hdlb, hdub, hdc0, hdtail⟩ := hdon
    have hseprk : ks.getD j 0 < rk := lbLt_some.mp hdlb
    have hls : lbLt (childLo lo ks j) rk :=
      lbLt_trans_le hclosep (le_of_lt hseprk)
    have hL : WFB (Node.internal (cks ++ [ks.getD j 0]) (ccs ++ [rc0]))
        (childLo lo ks j) (some rk) := by
      simp only [WFB]
      exact WFseq_snoc hchild hclosep (ubLt_some.mpr hseprk) hdc0
    have hR : WFB (Node.internal rkR rcsR) (some rk)
        (childHi hi ks (j + 1)) := by
      simp only [WFB]
      exact hdtail
    refine ⟨WFseq_update_pair h hlen hls hdub hL hR, ?_, ?_⟩
    · rw [entriesL_set_set hlen]
      conv_rhs => rw [entriesL_getD_decomp2 hlen (Node.leaf [] [])]
      rw [hC, hD, entriesOf_internal, entriesOf_internal, entriesOf_internal,
        entriesOf_internal, entriesL_append, entriesL_singleton, entriesL_cons]
      simp [List.append_assoc]
    · rw [EqHeightL_iff_forall]
      intro x hx
      have hrc0E : EqHeight rc0 h' :=
        EqHeightL_iff_forall.mp hEdon rc0 (List.mem_cons_self _ _)
      rcases mem_set_cases hx with hx' | rfl
      · rcases mem_set_cases hx' with hx'' | rfl
        · exact EqHeightL_iff_forall.mp hE x hx''
        · refine ⟨h', rfl, EqHeightL_iff_forall.mpr fun y hy => ?_⟩
          rcases List.mem_append.mp hy with hy' | hy'
          · exact EqHeightL_iff_forall.mp hEchild y hy'
          · rw [List.mem_singleton.mp hy']
            exact hrc0E
      · exact ⟨h', rfl, EqHeightL_iff_forall.mpr fun y hy =>
          EqHeightL_iff_forall.mp hEdon y (List.mem_cons_of_mem _ hy)⟩

theorem zip_append_eq {A : List Int} {B : List V} {C : List Int} {D : List V} :
    B.length = A.length → (A ++ C).zip (B ++ D) = A.zip B ++ C.zip D := by
  induction A generalizing B with
  | nil =>
    intro h
    match B, h with
    | [], _ => rfl
  | cons a A ih =>
    intro h
    match B, h with
    | b :: B, h =>
      simp only [List.cons_append, List.zip_cons_cons, List.cons.injEq]
      exact ⟨trivial, ih (by simpa using h)⟩

theorem mem_eraseIdx_cases {α : Type} {l : List α} {a : α} :
    ∀ {n : Nat}, a ∈ l.eraseIdx n → a ∈ l := by
  induction l with
  | nil => intro n h; simp at h
  | cons c l ih =>
    intro n h
    match n with
    | 0 =>
      rw [List.eraseIdx_cons_zero] at h
      exact List.mem_cons_of_mem _ h
    | n + 1 =>
      rw [List.eraseIdx_cons_succ] at h
      rcases List.mem_cons.mp h with rfl | h'
      · exact List.mem_cons_self _ _
      · exact List.mem_cons_of_mem _ (ih h')

/-- `_merge` of the adjacent children `j` and `j + 1` on a well-formed
balanced telescope: the parent stays a well-formed telescope on the same
interval, the stored entries and the leaf depth are unchanged. -/
theorem mergeAt_ok {lo hi : Option Int} {ks : List Int}
    {cs : List (Node V)} (h : WFseq lo hi ks cs) {j : Nat}
    (hlen : j + 1 < cs.length) {hh : Nat} (hE : EqHeightL cs hh) :
    WFseq lo hi (mergeAt ks cs j).1 (mergeAt ks cs j).2 ∧
      entriesL (mergeAt ks cs j).2 = entriesL cs ∧
      EqHeightL (mergeAt ks cs j).2 hh := by
  have hj : j < cs.length := Nat.lt_of_succ_lt hlen
  have hkslen : cs.length = ks.length + 1 := WFseq_length h
  have hjk : j < ks.length := by omega
  have hCj : cs[j]? = some (cs.getD j (Node.leaf [] [])) := getD_elem_eq hj _
  have hDj : cs[(j + 1)]? = some (cs.getD (j + 1) (Node.leaf [] [])) :=
    getD_elem_eq hlen _
  have hleft := WFseq_read h hj (Node.leaf [] [])
  have hright := WFseq_read h hlen (Node.leaf [] [])
  have hsepq : ks[j]? = some (ks.getD j 0) := getD_elem_eq hjk _
  have hHij : childHi hi ks j = some (ks.getD j 0) := by
    rw [childHi_of_lt hjk, hsepq]
  have hLoj1 : childLo lo ks (j + 1) = some (ks.getD j 0) := by
    rw [childLo_succ, hsepq]
  rw [hHij] at hleft
  rw [hLoj1] at hright
  have hEC := EqHeightL_iff_forall.mp hE _ (getD_mem hj (Node.leaf [] []))
  have hED := EqHeightL_iff_forall.mp hE _ (getD_mem hlen (Node.leaf [] []))
  have hclosep : lbLt (childLo lo ks j) (ks.getD j 0) :=
    WFseq_childLo_lt_sep h hjk
  have hsepub := WFseq_sep_lt_childHi h hjk
  rcases hC : cs.getD j (Node.leaf [] []) with ⟨lks, lvs⟩ | ⟨lks, lcs⟩ <;>
    rcases hD : cs.getD (j + 1) (Node.leaf [] []) with ⟨rks, rvs⟩ | ⟨rks, rcs⟩
  · -- both leaves
    rw [hC] at hleft hCj hEC
    rw [hD] at hright hDj hED
    have hh0 : hh = 0 := hEC
    subst hh0
    simp only [WFB] at hleft hright
    obtain ⟨hlso, hllv, hlbd⟩ := hleft
    obtain ⟨hrso, hrlv, hrbd⟩ := hright
    rw [mergeAt_leaf_eq hCj hDj]
    have hc' : WFB (Node.leaf (lks ++ rks) (lvs ++ rvs))
        (childLo lo ks j) (childHi hi ks (j + 1)) := by
      refine ⟨?_, by simp [hllv, hrlv], ?_⟩
      · rw [List.pairwise_append]
        refine ⟨hlso, hrso, fun x hx y hy =>
          lt_of_lt_of_le (ubLt_some.mp (hlbd x hx).2)
            (lbLe_some.mp (hrbd y hy).1)⟩
      · intro x hx
        rcases List.mem_append.mp hx with hx' | hx'
        · exact ⟨(hlbd x hx').1,
            ubLt_of_lt_of_ubLt (ubLt_some.mp (hlbd x hx').2) hsepub⟩
        · exact ⟨lbLe_of_lbLt (lbLt_trans_le hclosep
            (lbLe_some.mp (hrbd x hx').1)), (hrbd x hx').2⟩
    refine ⟨WFseq_merge_pair h hlen hc', ?_, ?_⟩
    · rw [entriesL_merge_surgery hlen]
      conv_rhs => rw [entriesL_getD_decomp2 hlen (Node.leaf [] [])]
      rw [hC, hD, entriesOf_leaf, entriesOf_leaf, entriesOf_leaf,
        zip_append_eq hllv]
      simp [List.append_assoc]
    · rw [EqHeightL_iff_forall]
      intro x hx
      rcases mem_set_cases (mem_eraseIdx_cases hx) with hx' | rfl
      · exact EqHeightL_iff_forall.mp hE x hx'
      · exact eqHeight_leaf0 _ _
  · -- mixed: impossible at one height
    rw [hC] at hEC
    rw [hD] at hED
    have hh0 : hh = 0 := hEC
    obtain ⟨h', hh1, _⟩ := eqHeight_internal.mp hED
    omega
  · -- mixed: impossible at one height
    rw [hC] at hEC
    rw [hD] at hED
    have hh0 : hh = 0 := hED
    obtain ⟨h', hh1, _⟩ := eqHeight_internal.mp hEC
    omega
  · -- both internal
    rw [hC] at hleft hCj hEC
    rw [hD] at hright hDj hED
    obtain ⟨h', rfl, hEl⟩ := eqHeight_internal.mp hEC
    obtain ⟨h'', hh2, hEr⟩ := eqHeight_internal.mp hED
    have hh2' : h' = h'' := by omega
    subst hh2'
    simp only [WFB] at hleft hright
    rw [mergeAt_internal_eq hCj hDj]
    have hc' : WFB (Node.internal (lks ++ ks.getD j 0 :: rks) (lcs ++ rcs))
        (childLo lo ks j) (childHi hi ks (j + 1)) := by
      simp only [WFB]
      exact WFseq_append_sep hleft hright hclosep hsepub
    refine ⟨WFseq_merge_pair h hlen hc', ?_, ?_⟩
    · rw [entriesL_merge_surgery hlen]
      conv_rhs => rw [entriesL_getD_decomp2 hlen (Node.leaf [] [])]
      rw [hC, hD, entriesOf_internal, entriesOf_internal, entriesOf_internal,
        entriesL_append]
      simp [List.append_assoc]
    · rw [EqHeightL_iff_forall]
      intro x hx
      rcases mem_set_cases (mem_eraseIdx_cases hx) with hx' | rfl
      · exact EqHeightL_iff_forall.mp hE x hx'
      · refine ⟨h', rfl, EqHeightL_iff_forall.mpr fun y hy => ?_⟩
        rcases List.mem_append.mp hy with hy' | hy'
        · exact EqHeightL_iff_forall.mp hEl y hy'
        · exact EqHeightL_iff_forall.mp hEr y hy'

theorem mergeAt_none_eq {ks : List Int} {cs : List (Node V)} {j : Nat}
    (h : cs[j + 1]? = none) : mergeAt ks cs j = (ks, cs) := by
  rcases hfirst : cs[j]? with _ | lc
  · simp only [mergeAt, hfirst, h]
  · simp only [mergeAt, hfirst, h]

/-- Under well-formedness the sibling repairs inside `_fill_child` are
no-ops, so `_fill_child` is the borrow/merge decision cascade itself. -/
theorem fillChild_eq_of_WF {m : Nat} {lo hi : Option Int} {ks : List Int}
    {cs : List (Node V)} (h : WFseq lo hi ks cs) (i : Nat) :
    fillChild m ks cs i =
      if i < cs.length then
        if 0 < i ∧ Node.internalMin m <
            ((cs.getD (i - 1) (Node.leaf [] [])).keysOf).length then
          ((borrowFromPrev ks cs i).1, (borrowFromPrev ks cs i).2, false)
        else if i + 1 < cs.length ∧ Node.internalMin m <
            ((cs.getD (i + 1) (Node.leaf [] [])).keysOf).length then
          ((borrowFromNext ks cs i).1, (borrowFromNext ks cs i).2, false)
        else
          ((mergeAt ks cs (if i = cs.length - 1 then i - 1 else i)).1,
            Node.repairChildren
              (mergeAt ks cs (if i = cs.length - 1 then i - 1 else i)).1
              (mergeAt ks cs (if i = cs.length - 1 then i - 1 else i)).2,
            true)
      else (ks, cs, false) := by
  have hrep := repairChildren_of_WFseq h
  have hcs1 : (if 0 < i then cs.set (i - 1)
      (Node.ensureValid (cs.getD (i - 1) (Node.leaf [] []))) else cs) = cs := by
    by_cases hi0 : 0 < i
    · by_cases hibound : i - 1 < cs.length
      · rw [if_pos hi0, ensureValid_of_WFB (WFseq_read h hibound _), setGetD_self]
      · rw [if_pos hi0,
          List.set_eq_of_length_le (by omega) (l := cs)]
    · rw [if_neg hi0]
  have hcs2 : (if i + 1 < cs.length then cs.set (i + 1)
      (Node.ensureValid (cs.getD (i + 1) (Node.leaf [] []))) else cs) = cs := by
    by_cases hib : i + 1 < cs.length
    · rw [if_pos hib, ensureValid_of_WFB (WFseq_read h hib _), setGetD_self]
    · rw [if_neg hib]
  simp only [fillChild]
  rw [hrep, hcs1, hcs2]

/-- `_fill_child` on a well-formed balanced telescope of a tree of order at
least 3: the parent stays a well-formed telescope on the same interval, the
stored entries and the leaf depth are unchanged. -/
theorem fillChild_ok {m : Nat} (hm : 3 ≤ m) {lo hi : Option Int}
    {ks : List Int} {cs : List (Node V)} (h : WFseq lo hi ks cs) {hh : Nat}
    (hE : EqHeightL cs hh) (i : Nat) :
    WFseq lo hi (fillChild m ks cs i).1 (fillChild m ks cs i).2.1 ∧
      entriesL (fillChild m ks cs i).2.1 = entriesL cs ∧
      EqHeightL (fillChild m ks cs i).2.1 hh := by
  have hmin1 : 1 ≤ Node.internalMin m := by
    simp only [Node.internalMin, ceilHalf]
    omega
  rw [fillChild_eq_of_WF h i]
  by_cases hilen : i < cs.length
  · rw [if_pos hilen]
    by_cases hbp : 0 < i ∧ Node.internalMin m <
        ((cs.getD (i - 1) (Node.leaf [] [])).keysOf).length
    · rw [if_pos hbp]
      obtain ⟨j, rfl⟩ : ∃ j, i = j + 1 := ⟨i - 1, by omega⟩
      have hd : 2 ≤ ((cs.getD j (Node.leaf [] [])).keysOf).length := by
        have h2 := hbp.2
        simp only [Nat.add_sub_cancel] at h2
        omega
      have hres := borrowFromPrev_ok h hilen hE hd
      exact ⟨hres.1, hres.2.1, hres.2.2⟩
    · rw [if_neg hbp]
      by_cases hbn : i + 1 < cs.length ∧ Node.internalMin m <
          ((cs.getD (i + 1) (Node.leaf [] [])).keysOf).length
      · rw [if_pos hbn]
        have hd : 2 ≤ ((cs.getD (i + 1) (Node.leaf [] [])).keysOf).length := by
          have h2 := hbn.2
          omega
        have hres := borrowFromNext_ok h hbn.1 hE hd
        exact ⟨hres.1, hres.2.1, hres.2.2⟩
      · rw [if_neg hbn]
        by_cases hil : i = cs.length - 1
        · rw [if_pos hil]
          by_cases hi0 : 0 < i
          · have hml : (i - 1) + 1 < cs.length := by omega
            have hres := mergeAt_ok h hml hE
            have hrep2 := repairChildren_of_WFseq hres.1
            rw [hrep2]
            exact ⟨hres.1, hres.2.1, hres.2.2⟩
          · have hi0' : i = 0 := by omega
            subst hi0'
            have hlen1 : cs.length = 1 := by omega
            have hnone : cs[(0 : Nat) - 1 + 1]? = none := by
              rw [List.getElem?_eq_none_iff]
              omega
            rw [mergeAt_none_eq hnone]
            rw [repairChildren_of_WFseq h]
            exact ⟨h, rfl, hE⟩
        · rw [if_neg hil]
          have hml : i + 1 < cs.length := by omega
          have hres := mergeAt_ok h hml hE
          have hrep2 := repairChildren_of_WFseq hres.1
          rw [hrep2]
          exact ⟨hres.1, hres.2.1, hres.2.2⟩
  · rw [if_neg hilen]
    exact ⟨h, rfl, hE⟩

theorem zip_eraseIdx_eq_mdelete {ks : List Int} :
    ∀ {vs : List V}, List.Pairwise (· < ·) ks → vs.length = ks.length →
      ∀ {k : Int}, bisectLeft ks k < ks.length →
        ks.getD (bisectLeft ks k) 0 = k →
        (ks.eraseIdx (bisectLeft ks k)).zip (vs.eraseIdx (bisectLeft ks k)) =
          mdelete (ks.zip vs) k := by
  induction ks with
  | nil => intro vs _ _ k h; simp [bisectLeft_nil] at h
  | cons a l ih =>
    intro vs hs hlen k hlt hget
    match vs, hlen with
    | v0 :: vs', hlen =>
      have hal : ∀ b ∈ l, a < b := fun b hb => (List.pairwise_cons.mp hs).1 b hb
      rw [bisectLeft_cons] at hlt hget
      by_cases h : a < k
      · rw [if_pos h] at hlt hget
        have hne : a ≠ k := ne_of_lt h
        simp only [List.getD_cons_succ] at hget
        simp only [List.length_cons, Nat.succ_lt_succ_iff] at hlt
        have hlen2 : vs'.length = l.length := by simpa using hlen
        have hrec := ih (List.pairwise_cons.mp hs).2 hlen2 (k := k) hlt hget
        simp only [bisectLeft_cons, if_pos h, List.eraseIdx_cons_succ,
          List.zip_cons_cons, mdelete, List.filter_cons]
        rw [show (!decide (((a, v0) : Int × V).1 = k)) = true by simp [hne]]
        simp only [mdelete] at hrec
        rw [hrec, if_pos rfl]
      · rw [if_neg h] at hget
        simp only [List.getD_cons_zero] at hget
        subst hget
        simp only [bisectLeft_cons, if_neg h, List.eraseIdx_cons_zero,
          List.zip_cons_cons, mdelete, List.filter_cons]
        simp only [decide_True, Bool.not_true]
        rw [if_neg (by simp)]
        have hrest : ∀ p ∈ l.zip vs', p.1 ≠ a :=
          fun p hp => ne_of_gt (hal p.1 (fst_mem_of_mem_zip hp))
        rw [show (l.zip vs').filter (fun p : Int × V => !decide (p.1 = a))
            = mdelete (l.zip vs') a from rfl]
        rw [mdelete_of_no_match hrest]

theorem deleteNode_leaf_unfold (m : Nat) (k : Int) (ks : List Int)
    (vs : List V) :
    deleteNode m k (Node.leaf ks vs) =
      if bisectLeft ks k < ks.length ∧ ks.getD (bisectLeft ks k) 0 = k then
        (Node.leaf (ks.eraseIdx (bisectLeft ks k))
          (vs.eraseIdx (bisectLeft ks k)), true, false)
      else (Node.leaf ks vs, false, false) := rfl

theorem deleteNode_internal_unfold (m : Nat) (k : Int) (ks : List Int)
    (cs : List (Node V)) :
    deleteNode m k (Node.internal ks cs) =
      (if (deleteNodeAt m k cs (bisectRight ks k)).2.1 = true ∧
          ((deleteNodeAt m k cs (bisectRight ks k)).1.isLeaf = true ∨
            (deleteNodeAt m k cs (bisectRight ks k)).2.2 = true) ∧
          Node.isUnderflow m (deleteNodeAt m k cs (bisectRight ks k)).1 = true
        then
        (Node.internal
          (fillChild m ks ((Node.repairChildren ks cs).set (bisectRight ks k)
            (deleteNodeAt m k cs (bisectRight ks k)).1) (bisectRight ks k)).1
          (fillChild m ks ((Node.repairChildren ks cs).set (bisectRight ks k)
            (deleteNodeAt m k cs (bisectRight ks k)).1) (bisectRight ks k)).2.1,
          true,
          (fillChild m ks ((Node.repairChildren ks cs).set (bisectRight ks k)
            (deleteNodeAt m k cs (bisectRight ks k)).1) (bisectRight ks k)).2.2)
      else (Node.internal ks ((Node.repairChildren ks cs).set (bisectRight ks k)
          (deleteNodeAt m k cs (bisectRight ks k)).1),
        (deleteNodeAt m k cs (bisectRight ks k)).2.1, false)) := rfl

/-- Full specification of `delete` on a subtree: well-formedness and leaf
depth are preserved, the stored entries become the model deletion, and the
returned flag reports whether the key was stored. -/
theorem deleteNode_ok {m : Nat} {k : Int} (hm : 3 ≤ m) :
    ∀ (n : Node V) (lo hi : Option Int) (hh : Nat), WFB n lo hi →
      EqHeight n hh → lbLe lo k → ubLt k hi →
      WFB (deleteNode m k n).1 lo hi ∧ EqHeight (deleteNode m k n).1 hh ∧
        entriesOf (deleteNode m k n).1 = mdelete (entriesOf n) k ∧
        ((deleteNode m k n).2.1 = true ↔
          (entriesOf n).filter (fun p => decide (p.1 = k)) ≠ []) := by
  intro n
  induction n using deleteNode.induct (m := m) (k := k)
    (motive_2 := fun cs i =>
      ∀ (lo hi : Option Int) (ks : List Int) (hh : Nat), WFseq lo hi ks cs →
        i = bisectRight ks k → EqHeightL cs hh → lbLe lo k → ubLt k hi →
        WFseq lo hi ks (cs.set i (deleteNodeAt m k cs i).1) ∧
          EqHeight (deleteNodeAt m k cs i).1 hh ∧
          entriesL (cs.set i (deleteNodeAt m k cs i).1) =
            mdelete (entriesL cs) k ∧
          ((deleteNodeAt m k cs i).2.1 = true ↔
            (entriesL cs).filter (fun p : Int × V => decide (p.1 = k)) ≠ [])) with
  | case1 ks vs i0 htest =>
    intro lo hi hh h hu hlo hhi
    have hh0 : hh = 0 := hu
    subst hh0
    simp only [WFB] at h
    obtain ⟨hsort, hlen, hbnd⟩ := h
    rw [deleteNode_leaf_unfold, if_pos htest]
    have hkvlen : i0 < vs.length := by
      rw [hlen]
      exact htest.1
    refine ⟨?_, eqHeight_leaf0 _ _, ?_, ?_⟩
    · refine ⟨hsort.sublist (List.eraseIdx_sublist _ _), ?_, ?_⟩
      · simp [List.length_eraseIdx, htest.1, hkvlen, hlen]
      · intro x hx
        exact hbnd x (mem_eraseIdx_cases hx)
    · rw [entriesOf_leaf, entriesOf_leaf]
      exact zip_eraseIdx_eq_mdelete hsort hlen htest.1 htest.2
    · rw [entriesOf_leaf]
      have hkmem : k ∈ ks := (bisectLeft_found_iff hsort k).mp htest
      obtain ⟨p, hp, hpk⟩ := exists_zip_pair hlen hkmem
      exact iff_of_true rfl (filter_key_ne_nil hp hpk)
  | case2 ks vs i0 htest =>
    intro lo hi hh h hu hlo hhi
    simp only [WFB] at h
    obtain ⟨hsort, hlen, hbnd⟩ := h
    rw [deleteNode_leaf_unfold, if_neg htest]
    have hnomem : k ∉ ks := fun hk => htest ((bisectLeft_found_iff hsort k).mpr hk)
    have habs : ∀ p ∈ ks.zip vs, p.1 ≠ k := by
      intro p hp he
      exact hnomem (he ▸ fst_mem_of_mem_zip hp)
    refine ⟨⟨hsort, hlen, hbnd⟩, hu, ?_, ?_⟩
    · rw [entriesOf_leaf, mdelete_of_no_match habs]
    · rw [entriesOf_leaf]
      exact iff_of_false (by simp) (not_not_intro (filter_key_eq_nil habs))
  | case3 ks cs i0 r0 c0 htrig ih =>
    intro lo hi hh h hu hlo hhi
    simp only [WFB] at h
    obtain ⟨h', rfl, hL⟩ := eqHeight_internal.mp hu
    have hres := ih lo hi ks h' h rfl hL hlo hhi
    have htrig2 : (deleteNodeAt m k cs (bisectRight ks k)).2.1 = true ∧
        ((deleteNodeAt m k cs (bisectRight ks k)).1.isLeaf = true ∨
          (deleteNodeAt m k cs (bisectRight ks k)).2.2 = true) ∧
        Node.isUnderflow m (deleteNodeAt m k cs (bisectRight ks k)).1 = true :=
      htrig
    rw [deleteNode_internal_unfold, if_pos htrig2]
    rw [repairChildren_of_WFseq h]
    have hE2 : EqHeightL (cs.set (bisectRight ks k)
        (deleteNodeAt m k cs (bisectRight ks k)).1) h' := by
      rw [EqHeightL_iff_forall]
      intro x hx
      rcases mem_set_cases hx with hx' | rfl
      · exact EqHeightL_iff_forall.mp hL x hx'
      · exact hres.2.1
    have hfres := fillChild_ok hm hres.1 hE2 (bisectRight ks k)
    refine ⟨?_, ⟨h', rfl, hfres.2.2⟩, ?_, ?_⟩
    · simp only [WFB]
      exact hfres.1
    · rw [entriesOf_internal, entriesOf_internal, hfres.2.1, hres.2.2.1]
    · exact iff_of_true rfl (hres.2.2.2.mp htrig2.1)
  | case4 ks cs i0 r0 c0 htrig =>
    rename_i ih
    intro lo hi hh h hu hlo hhi
    simp only [WFB] at h
    obtain ⟨h', rfl, hL⟩ := eqHeight_internal.mp hu
    have hres := ih lo hi ks h' h rfl hL hlo hhi
    have htrig2 : ¬((deleteNodeAt m k cs (bisectRight ks k)).2.1 = true ∧
        ((deleteNodeAt m k cs (bisectRight ks k)).1.isLeaf = true ∨
          (deleteNodeAt m k cs (bisectRight ks k)).2.2 = true) ∧
        Node.isUnderflow m (deleteNodeAt m k cs (bisectRight ks k)).1 = true) :=
      htrig
    rw [deleteNode_internal_unfold, if_neg htrig2]
    rw [repairChildren_of_WFseq h]
    have hE2 : EqHeightL (cs.set (bisectRight ks k)
        (deleteNodeAt m k cs (bisectRight ks k)).1) h' := by
      rw [EqHeightL_iff_forall]
      intro x hx
      rcases mem_set_cases hx with hx' | rfl
      · exact EqHeightL_iff_forall.mp hL x hx'
      · exact hres.2.1
    refine ⟨?_, ⟨h', rfl, hE2⟩, ?_, hres.2.2.2⟩
    · simp only [WFB]
      exact hres.1
    · rw [entriesOf_internal, entriesOf_internal, hres.2.2.1]
  | case5 i =>
    rename_i lo hi ks hh h hi0 hE hlo hhi
    exact absurd h WFseq_ne_nil
  | case6 c cs ih =>
    rename_i lo hi ks hh h hi0 hE hlo hhi
    have hch : EqHeight c hh := EqHeightL_iff_forall.mp hE c (List.mem_cons_self _ _)
    rw [show deleteNodeAt m k (c :: cs) 0 = deleteNode m k c from rfl]
    match ks, h, hi0 with
    | [], h, _ =>
      match cs, h with
      | [], h =>
        simp only [WFseq] at h
        have hres := ih _ _ _ h hch hlo hhi
        refine ⟨?_, hres.2.1, ?_, ?_⟩
        · show WFseq lo hi [] [(deleteNode m k c).1]
          simpa [WFseq] using hres.1
        · rw [show ([c].set 0 (deleteNode m k c).1)
              = [(deleteNode m k c).1] from rfl,
            entriesL_singleton, entriesL_singleton]
          exact hres.2.2.1
        · rw [entriesL_singleton]
          exact hres.2.2.2
      | c2 :: cs', h => simp [WFseq] at h
    | s :: ks', h, hi0 =>
      rw [bisectRight_cons] at hi0
      by_cases hsk : s ≤ k
      · rw [if_pos hsk] at hi0
        exact absurd hi0.symm (Nat.succ_ne_zero _)
      · match cs, h with
        | [], h => simp [WFseq] at h
        | c2 :: cs', h =>
          simp only [WFseq] at h
          obtain ⟨h1, h2, hc, hseq⟩ := h
          have hk : ubLt k (some s) := ubLt_some.mpr (lt_of_not_le hsk)
          have hres := ih _ _ _ hc hch hlo hk
          have htailne : ∀ p ∈ entriesL (c2 :: cs'), p.1 ≠ k := by
            intro q hq he
            have hlt2 : k < q.1 := lt_of_lt_of_le (lt_of_not_le hsk)
              (lbLe_some.mp (entries_ok_seq hseq q hq).1)
            rw [he] at hlt2
            exact lt_irrefl k hlt2
          refine ⟨⟨h1, h2, hres.1, hseq⟩, hres.2.1, ?_, ?_⟩
          · rw [List.set_cons_zero, entriesL_cons]
            rw [show entriesL (c :: c2 :: cs')
                = entriesOf c ++ entriesL (c2 :: cs') from entriesL_cons _ _]
            rw [mdelete_append, mdelete_of_no_match htailne, hres.2.2.1]
          · rw [show entriesL (c :: c2 :: cs')
                = entriesOf c ++ entriesL (c2 :: cs') from entriesL_cons _ _]
            rw [List.filter_append, filter_key_eq_nil htailne, List.append_nil]
            exact hres.2.2.2
  | case7 c cs i ih =>
    rename_i lo hi ks hh h hi0 hE hlo hhi
    have hE' : EqHeightL cs hh := by
      rw [EqHeightL_iff_forall]
      exact fun x hx => EqHeightL_iff_forall.mp hE x (List.mem_cons_of_mem _ hx)
    rw [show deleteNodeAt m k (c :: cs) (i + 1) = deleteNodeAt m k cs i from rfl]
    match ks, h, hi0 with
    | [], h, hi0 =>
      rw [bisectRight_nil] at hi0
      exact absurd hi0 (Nat.succ_ne_zero _)
    | s :: ks', h, hi0 =>
      rw [bisectRight_cons] at hi0
      by_cases hsk : s ≤ k
      · rw [if_pos hsk] at hi0
        match cs, h with
        | [], h => simp [WFseq] at h
        | c2 :: cs', h =>
          simp only [WFseq] at h
          obtain ⟨h1, h2, hc, hseq⟩ := h
          have hlo' : lbLe (some s) k := lbLe_some.mpr hsk
          have hres := ih _ _ _ hh hseq (Nat.succ_injective hi0) hE' hlo' hhi
          have hheadne : ∀ p ∈ entriesOf c, p.1 ≠ k := by
            intro q hq he
            have hlt2 : q.1 < k :=
              lt_of_lt_of_le (ubLt_some.mp ((entries_ok hc).2 q hq).2) hsk
            rw [he] at hlt2
            exact lt_irrefl k hlt2
          refine ⟨?_, hres.2.1, ?_, ?_⟩
          · rw [List.set_cons_succ]
            exact ⟨h1, h2, hc, hres.1⟩
          · rw [List.set_cons_succ, entriesL_cons]
            rw [show entriesL (c :: c2 :: cs')
                = entriesOf c ++ entriesL (c2 :: cs') from entriesL_cons _ _]
            rw [mdelete_append, mdelete_of_no_match hheadne, hres.2.2.1]
          · rw [show entriesL (c :: c2 :: cs')
                = entriesOf c ++ entriesL (c2 :: cs') from entriesL_cons _ _]
            rw [List.filter_append, filter_key_eq_nil hheadne, List.nil_append]
            exact hres.2.2.2
      · rw [if_neg hsk] at hi0
        exact absurd hi0 (Nat.succ_ne_zero _)

/-- Tree-level deletion: well-formedness and balance are preserved (the root
may collapse one level), the order is unchanged, the stored entries become
the model deletion, and the returned flag reports whether the key was
stored. -/
theorem Tree.delete_ok {t : Tree V} (h : t.WF) (hb : t.Bal)
    (hm : 3 ≤ t.order) (k : Int) :
    (t.delete k).1.WF ∧ (t.delete k).1.Bal ∧
      (t.delete k).1.order = t.order ∧
      entriesOf (t.delete k).1.root = mdelete (entriesOf t.root) k ∧
      ((t.delete k).2 = true ↔
        (entriesOf t.root).filter (fun p : Int × V => decide (p.1 = k)) ≠ []) := by
  obtain ⟨root, m⟩ := t
  obtain ⟨hh, hu⟩ := hb
  have hres := deleteNode_ok (k := k) hm root none none hh h hu
    (lbLe_none k) (ubLt_none k)
  have hunf : Tree.delete ⟨root, m⟩ k
      = (match (deleteNode m k root).1, (deleteNode m k root).2.2 with
         | .internal [] (c :: _), true =>
            ((⟨c, m⟩ : Tree V), (deleteNode m k root).2.1)
         | n, _ => (⟨n, m⟩, (deleteNode m k root).2.1)) := rfl
  rcases hdel : deleteNode m k root with ⟨n, fnd, mrg⟩
  rw [hdel] at hres hunf
  rw [hunf]
  match n, mrg, hres with
  | .leaf ks2 vs2, mrg, hres =>
    exact ⟨hres.1, ⟨hh, hres.2.1⟩, rfl, hres.2.2.1, hres.2.2.2⟩
  | .internal [] [], mrg, hres =>
    exact absurd hres.1 WFseq_ne_nil
  | .internal [] (c :: cs2), false, hres =>
    exact ⟨hres.1, ⟨hh, hres.2.1⟩, rfl, hres.2.2.1, hres.2.2.2⟩
  | .internal (s :: ks2) cs2, mrg, hres =>
    exact ⟨hres.1, ⟨hh, hres.2.1⟩, rfl, hres.2.2.1, hres.2.2.2⟩
  | .internal [] (c :: cs2), true, hres =>
    match cs2, hres with
    | [], hres =>
      obtain ⟨hwf, hE, hent, hflag⟩ := hres
      have hwf' : WFB c none none := by
        simpa [WFseq] using hwf
      obtain ⟨h2, hh2, hcE⟩ := eqHeight_internal.mp hE
      refine ⟨hwf', ⟨h2, hcE.1⟩, rfl, ?_, hflag⟩
      rw [show entriesOf (Node.internal [] [c]) = entriesOf c by
        rw [entriesOf_internal, entriesL_singleton]] at hent
      exact hent
    | c2 :: cs3, hres =>
      have hbad : WFseq (V := V) none none [] (c :: c2 :: cs3) := hres.1
      simp [WFseq] at hbad

/-- Tree-level update: well-formedness and balance are preserved, the order
is unchanged, the stored entries become the model update, and the returned
flag reports whether the key was stored. -/
theorem Tree.update_ok {t : Tree V} (h : t.WF) (hb : t.Bal) (k : Int)
    (v : V) :
    (t.update k v).1.WF ∧ (t.update k v).1.Bal ∧
      (t.update k v).1.order = t.order ∧
      entriesOf (t.update k v).1.root = mupdate (entriesOf t.root) k v ∧
      ((t.update k v).2 = true ↔
        (entriesOf t.root).filter (fun p : Int × V => decide (p.1 = k)) ≠ []) := by
  obtain ⟨hh, hu⟩ := hb
  have hres := updateNode_ok (v := v) t.root none none h
    (lbLe_none k) (ubLt_none k)
  have hE := updateNode_eqHeight (k := k) (v := v) t.root none none hh h hu
  exact ⟨hres.1, ⟨hh, hE⟩, rfl, hres.2.1, hres.2.2⟩

/-- One public operation preserves well-formedness, balance and the order,
and acts on the stored entries as the model operation. -/
theorem applyOp_ok {t : Tree V} (h : t.WF) (hb : t.Bal) (hm : 3 ≤ t.order)
    (op : Op V) :
    (applyOp t op).WF ∧ (applyOp t op).Bal ∧ (applyOp t op).order = t.order ∧
      entriesOf (applyOp t op).root = mapplyOp (entriesOf t.root) op := by
  cases op with
  | ins k v =>
    have hres := Tree.insert_ok h hb hm k v
    exact ⟨hres.1, hres.2.1, hres.2.2.1, hres.2.2.2⟩
  | del k =>
    have hres := Tree.delete_ok h hb hm k
    exact ⟨hres.1, hres.2.1, hres.2.2.1, hres.2.2.2.1⟩
  | upd k v =>
    have hres := Tree.update_ok h hb k v
    exact ⟨hres.1, hres.2.1, hres.2.2.1, hres.2.2.2.1⟩

theorem foldl_ops_ok {m : Nat} (hm : 3 ≤ m) :
    ∀ (ops : List (Op V)) (t : Tree V), t.WF → t.Bal → t.order = m →
      (ops.foldl applyOp t).WF ∧ (ops.foldl applyOp t).Bal ∧
        (ops.foldl applyOp t).order = m ∧
        entriesOf (ops.foldl applyOp t).root =
          ops.foldl mapplyOp (entriesOf t.root) := by
  intro ops
  induction ops with
  | nil =>
    intro t h hb ho
    exact ⟨h, hb, ho, rfl⟩
  | cons op ops ih =>
    intro t h hb ho
    have hstep := applyOp_ok h hb (by rw [ho]; exact hm) op
    have hres := ih (applyOp t op) hstep.1 hstep.2.1 (by rw [hstep.2.2.1, ho])
    refine ⟨hres.1, hres.2.1, hres.2.2.1, ?_⟩
    rw [List.foldl_cons, List.foldl_cons, hres.2.2.2, hstep.2.2.2]

/-- Every tree reachable from a fresh tree of order `m ≥ 3` by public
operations is well-formed and balanced, keeps order `m`, and stores exactly
the entries of the association-list model. -/
theorem runOps_ok {m : Nat} (hm : 3 ≤ m) (ops : List (Op V)) :
    (runOps m ops).WF ∧ (runOps m ops).Bal ∧ (runOps m ops).order = m ∧
      entriesOf (runOps m ops).root = mrunOps ops := by
  have hres := foldl_ops_ok hm ops ⟨Node.leaf [] [], m⟩
    ⟨by simp, rfl, fun x hx => absurd hx (List.not_mem_nil x)⟩
    ⟨0, eqHeight_leaf0 _ _⟩ rfl
  exact ⟨hres.1, hres.2.1, hres.2.2.1, hres.2.2.2⟩

/-! ## Range-query correctness -/

theorem entriesLV_nil : entriesLV (V := V) [] = [] := rfl

theorem entriesLV_cons (p : List Int × List V) (ls : List (List Int × List V)) :
    entriesLV (V := V) (p :: ls) = p.1.zip p.2 ++ entriesLV ls := by
  simp [entriesLV]

theorem entriesLV_append (l1 l2 : List (List Int × List V)) :
    entriesLV (V := V) (l1 ++ l2) = entriesLV l1 ++ entriesLV l2 := by
  simp [entriesLV]

theorem entriesOf_eq_entriesLV (n : Node V) :
    entriesOf n = entriesLV (leavesOf n) := rfl

/-- The inner loop of `range_query` over one sorted leaf: it emits exactly
the in-range pairs, and raises the early-exit flag exactly when some key
exceeds `hi`. -/
theorem scanLeaf_spec (lo hi : Int) :
    ∀ {A : List (Int × V)},
      List.Pairwise (fun p q : Int × V => p.1 < q.1) A →
      (scanLeaf lo hi A).1 =
        A.filter (fun p : Int × V => decide (lo ≤ p.1 ∧ p.1 ≤ hi)) ∧
      ((scanLeaf lo hi A).2 = true ↔ ∃ p ∈ A, hi < p.1) := by
  intro A
  induction A with
  | nil =>
    intro _
    refine ⟨rfl, ?_⟩
    simp [scanLeaf]
  | cons p rest ih =>
    intro hs
    obtain ⟨key, v⟩ := p
    have htail : ∀ q ∈ rest, key < q.1 := fun q hq =>
      (List.pairwise_cons.mp hs).1 q hq
    obtain ⟨ih1, ih2⟩ := ih (List.pairwise_cons.mp hs).2
    rw [show scanLeaf lo hi ((key, v) :: rest)
        = (if lo ≤ key ∧ key ≤ hi then
            ((key, v) :: (scanLeaf lo hi rest).1, (scanLeaf lo hi rest).2)
          else if hi < key then ([], true)
          else scanLeaf lo hi rest) from rfl]
    by_cases h1 : lo ≤ key ∧ key ≤ hi
    · rw [if_pos h1]
      refine ⟨?_, ?_⟩
      · rw [List.filter_cons, if_pos (by simpa using h1), ih1]
      · constructor
        · intro hf
          obtain ⟨q, hq, hqk⟩ := ih2.mp hf
          exact ⟨q, List.mem_cons_of_mem _ hq, hqk⟩
        · rintro ⟨q, hq, hqk⟩
          rcases List.mem_cons.mp hq with rfl | hq'
          · exact absurd h1.2 (not_le.mpr hqk)
          · exact ih2.mpr ⟨q, hq', hqk⟩
    · rw [if_neg h1]
      by_cases h2 : hi < key
      · rw [if_pos h2]
        refine ⟨?_, ?_⟩
        · rw [List.filter_cons, if_neg (by simpa using h1)]
          rw [List.filter_eq_nil_iff.mpr]
          intro q hq
          simp only [decide_eq_true_eq, not_and, not_le]
          intro _
          exact lt_trans h2 (htail q hq)
        · exact iff_of_true rfl ⟨(key, v), List.mem_cons_self _ _, h2⟩
      · rw [if_neg h2]
        have hklo : key < lo := by
          rcases not_and_or.mp h1 with hx | hx
          · exact lt_of_not_le hx
          · exact absurd (le_of_not_lt h2) hx
        refine ⟨?_, ?_⟩
        · rw [List.filter_cons, if_neg (by
            simp only [decide_eq_true_eq, not_and, not_le]
            intro hc
            exact absurd hc (not_le.mpr hklo)), ih1]
        · constructor
          · intro hf
            obtain ⟨q, hq, hqk⟩ := ih2.mp hf
            exact ⟨q, List.mem_cons_of_mem _ hq, hqk⟩
          · rintro ⟨q, hq, hqk⟩
            rcases List.mem_cons.mp hq with rfl | hq'
            · exact absurd (le_of_not_lt h2) (not_le.mpr hqk)
            · exact ih2.mpr ⟨q, hq', hqk⟩

/-- In a well-formed subtree every stored leaf has aligned keys and
values. -/
theorem leaves_aligned : ∀ {n : Node V} {lo hi : Option Int}, WFB n lo hi →
    ∀ p ∈ leavesOf n, p.2.length = p.1.length := by
  intro n lo hi
  induction n, lo, hi using WFB.induct (motive_2 := fun lo hi ks cs =>
      WFseq lo hi ks cs → ∀ p ∈ leavesList cs, p.2.length = p.1.length) with
  | case1 ks vs lo hi =>
    intro h p hp
    simp only [WFB] at h
    rw [show leavesOf (Node.leaf ks vs) = [(ks, vs)] from rfl] at hp
    rw [List.mem_singleton.mp hp]
    exact h.2.1
  | case2 ks cs lo hi ih =>
    intro h
    simp only [WFB] at h
    exact ih h
  | case3 lo hi c ih =>
    rename_i h p hp
    simp only [WFseq] at h
    rw [show leavesList [c] = leavesOf c ++ [] from rfl,
      List.append_nil] at hp
    exact ih h p hp
  | case4 lo hi s ks c cs ihc ihs =>
    rename_i h p hp
    simp only [WFseq] at h
    obtain ⟨hs1, hs2, hc, hseq⟩ := h
    rw [show leavesList (c :: cs) = leavesOf c ++ leavesList cs from rfl] at hp
    rcases List.mem_append.mp hp with hp' | hp'
    · exact ihc hc p hp'
    · exact ihs hseq p hp'
  | case5 t lo hi ks h1 h2 =>
    rename_i h p hp
    exfalso
    match ks, t with
    | [], [] => simp [WFseq] at h
    | [], [c] => exact h1 c rfl rfl
    | [], c :: c' :: cs => simp [WFseq] at h
    | s :: ks, [] => simp [WFseq] at h
    | s :: ks, c :: cs => exact h2 s ks c cs rfl rfl

theorem leavesList_take_drop (cs : List (Node V)) (n : Nat) :
    leavesList cs = leavesList (cs.take n) ++ leavesList (cs.drop n) := by
  conv_lhs => rw [← List.take_append_drop n cs]
  rw [leavesList_append]

/-- The chain suffix reached by descending towards `k`: the leaves of the
subtree split as a prefix (all of whose stored keys are below `k`) followed
by exactly the walked suffix. -/
theorem leafSuffix_decomp {k : Int} :
    ∀ (n : Node V) (lo hi : Option Int), WFB n lo hi →
      ∃ pre, leavesOf n = pre ++ leafSuffix k n ∧
        ∀ p ∈ entriesLV pre, p.1 < k := by
  intro n
  induction n using leafSuffix.induct (k := k) (motive_2 := fun cs i =>
      ∀ (lo hi : Option Int) (ks : List Int), WFseq lo hi ks cs →
        i = bisectRight ks k →
        ∃ pre, leavesList (cs.take (i + 1)) = pre ++ leafSuffixAt k cs i ∧
          ∀ p ∈ entriesLV pre, p.1 < k) with
  | case1 ks vs =>
    intro lo hi h
    exact ⟨[], rfl, by simp [entriesLV_nil]⟩
  | case2 ks cs i0 ih =>
    intro lo hi h
    simp only [WFB] at h
    obtain ⟨pre, hpre, hlt⟩ := ih lo hi ks h rfl
    refine ⟨pre, ?_, hlt⟩
    rw [show leavesOf (Node.internal ks cs) = leavesList cs from rfl]
    rw [show leafSuffix k (Node.internal ks cs)
        = leafSuffixAt k cs (bisectRight ks k)
          ++ leavesList (cs.drop (bisectRight ks k + 1)) from rfl]
    rw [leavesList_take_drop cs (bisectRight ks k + 1), hpre,
      List.append_assoc]
  | case3 i =>
    rename_i lo hi ks h hi0
    exact absurd h WFseq_ne_nil
  | case4 c cs ih =>
    rename_i lo hi ks h hi0
    rw [show leafSuffixAt k (c :: cs) 0 = leafSuffix k c from rfl]
    rw [show (c :: cs).take 1 = [c] from rfl]
    rw [show leavesList [c] = leavesOf c ++ [] from rfl, List.append_nil]
    match ks, h with
    | [], h =>
      match cs, h with
      | [], h =>
        simp only [WFseq] at h
        exact ih lo hi h
      | c2 :: cs', h => simp [WFseq] at h
    | s :: ks', h =>
      match cs, h with
      | [], h => simp [WFseq] at h
      | c2 :: cs', h =>
        simp only [WFseq] at h
        exact ih lo (some s) h.2.2.1
  | case5 c cs i ih =>
    rename_i lo hi ks h hi0
    rw [show leafSuffixAt k (c :: cs) (i + 1) = leafSuffixAt k cs i from rfl]
    rw [show (c :: cs).take (i + 1 + 1) = c :: cs.take (i + 1) from rfl]
    rw [show leavesList (c :: cs.take (i + 1))
        = leavesOf c ++ leavesList (cs.take (i + 1)) from rfl]
    match ks, h, hi0 with
    | [], h, hi0 =>
      rw [bisectRight_nil] at hi0
      exact absurd hi0 (Nat.succ_ne_zero _)
    | s :: ks', h, hi0 =>
      rw [bisectRight_cons] at hi0
      by_cases hsk : s ≤ k
      · rw [if_pos hsk] at hi0
        match cs, h with
        | [], h => simp [WFseq] at h
        | c2 :: cs', h =>
          simp only [WFseq] at h
          obtain ⟨h1, h2, hc, hseq⟩ := h
          obtain ⟨pre, hpre, hlt⟩ := ih (some s) hi ks' hseq
            (Nat.succ_injective hi0)
          refine ⟨leavesOf c ++ pre, ?_, ?_⟩
          · rw [hpre, List.append_assoc]
          · intro p hp
            rw [entriesLV_append] at hp
            rcases List.mem_append.mp hp with hp' | hp'
            · rw [← entriesOf_eq_entriesLV] at hp'
              exact lt_of_lt_of_le
                (ubLt_some.mp ((entries_ok hc).2 p hp').2) hsk
            · exact hlt p hp'
      · rw [if_neg hsk] at hi0
        exact absurd hi0 (Nat.succ_ne_zero _)

/-- The leaf-chain walk of `range_query` over a globally sorted, aligned
chain segment computes exactly the in-range filter of the segment's
entries. -/
theorem rangeWalk_eq_filter {lo hi : Int} :
    ∀ (ls : List (List Int × List V)),
      List.Pairwise (fun p q : Int × V => p.1 < q.1) (entriesLV ls) →
      (∀ p ∈ ls, p.2.length = p.1.length) →
      rangeWalk lo hi ls =
        (entriesLV ls).filter
          (fun p : Int × V => decide (lo ≤ p.1 ∧ p.1 ≤ hi)) := by
  intro ls
  induction ls with
  | nil => intro _ _; rfl
  | cons p rest ih =>
    intro hs hal
    obtain ⟨ks, vs⟩ := p
    rw [entriesLV_cons] at hs
    rw [List.pairwise_append] at hs
    obtain ⟨hA, hrest, hcross⟩ := hs
    obtain ⟨hscan1, hscan2⟩ := scanLeaf_spec lo hi hA
    rw [entriesLV_cons, List.filter_append]
    match rest, ih, hrest, hcross, hal with
    | [], ih, hrest, hcross, hal =>
      rw [show rangeWalk lo hi [(ks, vs)]
          = (if (scanLeaf lo hi (ks.zip vs)).2 = true
            then (scanLeaf lo hi (ks.zip vs)).1
            else (scanLeaf lo hi (ks.zip vs)).1) from rfl]
      rw [ite_self, hscan1, entriesLV_nil]
      simp
    | (ks2, vs2) :: rest', ih, hrest, hcross, hal =>
      rw [show rangeWalk lo hi ((ks, vs) :: (ks2, vs2) :: rest')
          = (if (scanLeaf lo hi (ks.zip vs)).2 = true
            then (scanLeaf lo hi (ks.zip vs)).1
            else if ks2 ≠ [] ∧ hi < ks2.headD 0
              then (scanLeaf lo hi (ks.zip vs)).1
              else (scanLeaf lo hi (ks.zip vs)).1
                ++ rangeWalk lo hi ((ks2, vs2) :: rest')) from rfl]
      by_cases hflag : (scanLeaf lo hi (ks.zip vs)).2 = true
      · rw [if_pos hflag, hscan1]
        obtain ⟨q, hq, hqk⟩ := hscan2.mp hflag
        have hnil : (entriesLV ((ks2, vs2) :: rest')).filter
            (fun p : Int × V => decide (lo ≤ p.1 ∧ p.1 ≤ hi)) = [] := by
          rw [List.filter_eq_nil_iff]
          intro r hr
          simp only [decide_eq_true_eq, not_and, not_le]
          intro _
          exact lt_trans hqk (hcross q hq r hr)
        rw [hnil, List.append_nil]
      · rw [if_neg hflag]
        have hal2 : vs2.length = ks2.length :=
          hal (ks2, vs2) (List.mem_cons_of_mem _ (List.mem_cons_self _ _))
        by_cases hstop : ks2 ≠ [] ∧ hi < ks2.headD 0
        · rw [if_pos hstop, hscan1]
          have hallgt : ∀ r ∈ entriesLV ((ks2, vs2) :: rest'), hi < r.1 := by
            have hrest2 := hrest
            rw [entriesLV_cons] at hrest2
            obtain ⟨hz2, hr2, hcr2⟩ := List.pairwise_append.mp hrest2
            match ks2, vs2, hal2, hstop, hz2, hcr2 with
            | k0 :: kr, v0 :: vr, hal2, hstop, hz2, hcr2 =>
              have hhd : hi < k0 := by simpa using hstop.2
              intro r hr
              rw [entriesLV_cons, List.zip_cons_cons] at hr
              rcases List.mem_append.mp hr with hr' | hr'
              · rcases List.mem_cons.mp hr' with rfl | hr''
                · exact hhd
                · exact lt_trans hhd ((List.pairwise_cons.mp hz2).1 r hr'')
              · exact lt_trans hhd
                  (hcr2 (k0, v0) (List.mem_cons_self _ _) r hr')
          have hnil : (entriesLV ((ks2, vs2) :: rest')).filter
              (fun p : Int × V => decide (lo ≤ p.1 ∧ p.1 ≤ hi)) = [] := by
            rw [List.filter_eq_nil_iff]
            intro r hr
            simp only [decide_eq_true_eq, not_and, not_le]
            intro _
            exact hallgt r hr
          rw [hnil, List.append_nil]
        · rw [if_neg hstop, hscan1]
          rw [ih hrest (fun q hq => hal q (List.mem_cons_of_mem _ hq))]

/-- `range_query` on a well-formed tree returns exactly the stored pairs
with keys in `[lo, hi]`, in storage (ascending-key) order. -/
theorem rangeQuery_eq_filter {t : Tree V} (h : t.WF) (lo hi : Int) :
    t.rangeQuery lo hi =
      (entriesOf t.root).filter
        (fun p : Int × V => decide (lo ≤ p.1 ∧ p.1 ≤ hi)) := by
  rw [show t.rangeQuery lo hi
      = (if hi < lo then [] else rangeWalk lo hi (leafSuffix lo t.root))
      from rfl]
  by_cases hord : hi < lo
  · rw [if_pos hord]
    rw [List.filter_eq_nil_iff.mpr]
    intro q hq
    simp only [decide_eq_true_eq, not_and, not_le]
    intro hc
    omega
  · rw [if_neg hord]
    obtain ⟨pre, hdec, hpre⟩ := leafSuffix_decomp (k := lo) t.root none none h
    have hsplit : entriesOf t.root
        = entriesLV pre ++ entriesLV (leafSuffix lo t.root) := by
      rw [entriesOf_eq_entriesLV, hdec, entriesLV_append]
    have hsorted := (entries_ok h).1
    rw [hsplit] at hsorted
    obtain ⟨hps, hss, hcr⟩ := List.pairwise_append.mp hsorted
    have halg : ∀ p ∈ leafSuffix lo t.root, p.2.length = p.1.length := by
      intro p hp
      refine leaves_aligned h p ?_
      rw [hdec]
      exact List.mem_append_right _ hp
    have hnil : (entriesLV pre).filter
        (fun p : Int × V => decide (lo ≤ p.1 ∧ p.1 ≤ hi)) = [] := by
      rw [List.filter_eq_nil_iff]
      intro q hq
      simp only [decide_eq_true_eq, not_and, not_le]
      intro hc
      exact absurd hc (not_le.mpr (hpre q hq))
    rw [rangeWalk_eq_filter _ hss halg, hsplit, List.filter_append, hnil,
      List.nil_append]

/-- `delete(k)` on a well-formed tree that does not hold `k` reports
`False` and leaves every node untouched. -/
theorem deleteNode_absent {m : Nat} {k : Int} :
    ∀ (n : Node V) (lo hi : Option Int), WFB n lo hi →
      (∀ p ∈ entriesOf n, p.1 ≠ k) →
      deleteNode m k n = (n, false, false) := by
  intro n
  induction n using deleteNode.induct (m := m) (k := k)
    (motive_2 := fun cs i =>
      ∀ (lo hi : Option Int) (ks : List Int), WFseq lo hi ks cs →
        (∀ p ∈ entriesL cs, p.1 ≠ k) →
        deleteNodeAt m k cs i = (cs.getD i (Node.leaf [] []), false, false)) with
  | case1 ks vs i0 htest =>
    intro lo hi h habs
    simp only [WFB] at h
    exfalso
    have hkmem : k ∈ ks := (bisectLeft_found_iff h.1 k).mp htest
    obtain ⟨p, hp, hpk⟩ := exists_zip_pair h.2.1 hkmem
    exact habs p (by simpa [entriesOf_leaf] using hp) hpk
  | case2 ks vs i0 htest =>
    intro lo hi h habs
    rw [deleteNode_leaf_unfold, if_neg htest]
  | case3 ks cs i0 r0 c0 htrig ih =>
    intro lo hi h habs
    simp only [WFB] at h
    have hat := ih lo hi ks h
      (fun p hp => habs p (by simpa [entriesOf_internal] using hp))
    exfalso
    have hat2 : deleteNodeAt m k cs (bisectRight ks k)
        = (cs.getD (bisectRight ks k) (Node.leaf [] []), false, false) := hat
    have htrig3 : (deleteNodeAt m k cs (bisectRight ks k)).2.1 = true := htrig.1
    rw [hat2] at htrig3
    simp at htrig3
  | case4 ks cs i0 r0 c0 htrig =>
    rename_i ih
    intro lo hi h habs
    simp only [WFB] at h
    have hat := ih lo hi ks h
      (fun p hp => habs p (by simpa [entriesOf_internal] using hp))
    have htrig2 : ¬((deleteNodeAt m k cs (bisectRight ks k)).2.1 = true ∧
        ((deleteNodeAt m k cs (bisectRight ks k)).1.isLeaf = true ∨
          (deleteNodeAt m k cs (bisectRight ks k)).2.2 = true) ∧
        Node.isUnderflow m (deleteNodeAt m k cs (bisectRight ks k)).1 = true) :=
      htrig
    have hat2 : deleteNodeAt m k cs (bisectRight ks k)
        = (cs.getD (bisectRight ks k) (Node.leaf [] []), false, false) := hat
    rw [deleteNode_internal_unfold, if_neg htrig2, hat2]
    rw [repairChildren_of_WFseq h, setGetD_self]
  | case5 i =>
    rename_i lo hi ks h habs
    exact absurd h WFseq_ne_nil
  | case6 c cs ih =>
    rename_i lo hi ks h habs
    show deleteNode m k c = (c, false, false)
    have hhead : ∀ p ∈ entriesOf c, p.1 ≠ k :=
      fun p hp => habs p (by rw [entriesL_cons]; exact List.mem_append_left _ hp)
    match ks, h with
    | [], h =>
      match cs, h with
      | [], h =>
        simp only [WFseq] at h
        exact ih _ _ h hhead
      | c2 :: cs', h => simp [WFseq] at h
    | s :: ks', h =>
      match cs, h with
      | [], h => simp [WFseq] at h
      | c2 :: cs', h =>
        simp only [WFseq] at h
        exact ih _ _ h.2.2.1 hhead
  | case7 c cs i ih =>
    rename_i lo hi ks h habs
    show deleteNodeAt m k cs i = (cs.getD i (Node.leaf [] []), false, false)
    have htail : ∀ p ∈ entriesL cs, p.1 ≠ k :=
      fun p hp => habs p (by rw [entriesL_cons]; exact List.mem_append_right _ hp)
    match ks, h with
    | [], h =>
      match cs, h with
      | [], h => rfl
      | c2 :: cs', h => simp [WFseq] at h
    | s :: ks', h =>
      match cs, h with
      | [], h => simp [WFseq] at h
      | c2 :: cs', h =>
        simp only [WFseq] at h
        exact ih _ _ _ h.2.2.2 htail

/-- Tree-level `delete` of an absent key: `False` is returned and the tree
value is structurally unchanged. -/
theorem Tree.delete_absent {t : Tree V} (h : t.WF) {k : Int}
    (habs : ∀ p ∈ entriesOf t.root, p.1 ≠ k) :
    t.delete k = (t, false) := by
  obtain ⟨root, m⟩ := t
  have hd := deleteNode_absent (m := m) root none none h habs
  have hunf : Tree.delete ⟨root, m⟩ k
      = (match (deleteNode m k root).1, (deleteNode m k root).2.2 with
         | .internal [] (c :: _), true =>
            ((⟨c, m⟩ : Tree V), (deleteNode m k root).2.1)
         | n, _ => (⟨n, m⟩, (deleteNode m k root).2.1)) := rfl
  rw [hunf, hd]
  match root, h with
  | .leaf ks vs, h => rfl
  | .internal [] [], h => rfl
  | .internal [] (c :: cs'), h => rfl
  | .internal (s :: ks) cs, h => rfl

/-- Tree-level `update` of an absent key: `False` is returned and the tree
value is structurally unchanged. -/
theorem Tree.update_absent {t : Tree V} (h : t.WF) {k : Int} (v : V)
    (habs : ∀ p ∈ entriesOf t.root, p.1 ≠ k) :
    t.update k v = (t, false) := by
  obtain ⟨root, m⟩ := t
  have hu := updateNode_absent (v := v) root none none h habs
  show (⟨(updateNode k v root).1, m⟩, (updateNode k v root).2)
      = ((⟨root, m⟩ : Tree V), false)
  rw [hu]

/-! ## Membership and cardinality algebra of the model -/

theorem filter_key_minsert_self (l : List (Int × V)) (k : Int) (v : V) :
    (minsert l k v).filter (fun p => decide (p.1 = k)) = [(k, v)] := by
  have hA : (l.filter (fun p => decide (p.1 < k))).filter
      (fun p => decide (p.1 = k)) = [] := by
    rw [List.filter_eq_nil_iff]
    intro p hp
    have h1 : p.1 < k := by simpa using (List.mem_filter.mp hp).2
    simp only [decide_eq_true_eq]
    omega
  have hB : (l.filter (fun p => decide (k < p.1))).filter
      (fun p => decide (p.1 = k)) = [] := by
    rw [List.filter_eq_nil_iff]
    intro p hp
    have h1 : k < p.1 := by simpa using (List.mem_filter.mp hp).2
    simp only [decide_eq_true_eq]
    omega
  simp only [minsert, List.filter_append, List.filter_cons, hA, hB]
  simp

theorem mlookup_minsert_self (l : List (Int × V)) (k : Int) (v : V) :
    mlookup (minsert l k v) k = some v := by
  rw [mlookup, find?_eq_head_filter, filter_key_minsert_self]
  rfl

theorem filter_key_minsert_ne {k k' : Int} (l : List (Int × V)) (v : V)
    (h : k ≠ k') :
    (minsert l k v).filter (fun p => decide (p.1 = k')) =
      l.filter (fun p => decide (p.1 = k')) := by
  have hmid : (decide ((k, v).1 = k')) = false := by simpa using h
  rw [minsert, List.filter_append, List.filter_cons, hmid, if_neg (by simp)]
  rcases lt_or_gt_of_ne h with hlt | hgt
  · have hA : (l.filter (fun p => decide (p.1 < k))).filter
        (fun p => decide (p.1 = k')) = [] := by
      rw [List.filter_eq_nil_iff]
      intro p hp
      have h1 : p.1 < k := by simpa using (List.mem_filter.mp hp).2
      simp only [decide_eq_true_eq]
      omega
    have hB : (l.filter (fun p => decide (k < p.1))).filter
        (fun p => decide (p.1 = k')) = l.filter (fun p => decide (p.1 = k')) := by
      rw [List.filter_filter]
      refine List.filter_congr fun p _ => ?_
      by_cases hk : p.1 = k'
      · simp [hk, hlt]
      · simp [hk]
    rw [hA, hB, List.nil_append]
  · have hA : (l.filter (fun p => decide (p.1 < k))).filter
        (fun p => decide (p.1 = k')) = l.filter (fun p => decide (p.1 = k')) := by
      rw [List.filter_filter]
      refine List.filter_congr fun p _ => ?_
      by_cases hk : p.1 = k'
      · simp [hk, hgt]
      · simp [hk]
    have hB : (l.filter (fun p => decide (k < p.1))).filter
        (fun p => decide (p.1 = k')) = [] := by
      rw [List.filter_eq_nil_iff]
      intro p hp
      have h1 : k < p.1 := by simpa using (List.mem_filter.mp hp).2
      simp only [decide_eq_true_eq]
      omega
    rw [hA, hB, List.append_nil]

theorem mlookup_minsert_ne {k k' : Int} (l : List (Int × V)) (v : V)
    (h : k ≠ k') : mlookup (minsert l k v) k' = mlookup l k' :=
  mlookup_eq_of_filter_eq (filter_key_minsert_ne l v h)

theorem mlookup_mdelete_self (l : List (Int × V)) (k : Int) :
    mlookup (mdelete l k) k = none := by
  have h : (mdelete l k).find? (fun p => decide (p.1 = k)) = none := by
    rw [List.find?_eq_none]
    intro p hp
    have h1 : (!decide (p.1 = k)) = true := (List.mem_filter.mp hp).2
    simp only [Bool.not_eq_true', decide_eq_false_iff_not] at h1
    simpa using h1
  rw [mlookup, h]
  rfl

theorem mlookup_mdelete_ne {kd k : Int} (l : List (Int × V)) (h : kd ≠ k) :
    mlookup (mdelete l kd) k = mlookup l k := by
  refine mlookup_eq_of_filter_eq ?_
  rw [mdelete, List.filter_filter]
  refine List.filter_congr fun p _ => ?_
  by_cases hk : p.1 = k
  · simp [hk, Ne.symm h]
  · simp [hk]

theorem find?_mupdate_isSome (l : List (Int × V)) (k k' : Int) (v : V) :
    ((mupdate l k v).find? (fun p => decide (p.1 = k'))).isSome =
      (l.find? (fun p => decide (p.1 = k'))).isSome := by
  induction l with
  | nil => rfl
  | cons a t ih =>
    rw [mupdate, List.map_cons]
    by_cases h1 : a.1 = k
    · rw [if_pos h1]
      by_cases h2 : a.1 = k'
      · have hk : (k : Int) = k' := h1 ▸ h2
        rw [List.find?_cons_of_pos _ (by simpa using hk),
          List.find?_cons_of_pos _ (by simpa using h2)]
        rfl
      · have hk : ¬ ((k, v).1 = k') := fun he => h2 (h1.trans he)
        rw [List.find?_cons_of_neg _ (by simpa using hk),
          List.find?_cons_of_neg _ (by simpa using h2)]
        simpa [mupdate] using ih
    · rw [if_neg h1]
      by_cases h2 : a.1 = k'
      · rw [List.find?_cons_of_pos _ (by simpa using h2),
          List.find?_cons_of_pos _ (by simpa using h2)]
      · rw [List.find?_cons_of_neg _ (by simpa using h2),
          List.find?_cons_of_neg _ (by simpa using h2)]
        simpa [mupdate] using ih

theorem mlookup_mupdate_isSome (l : List (Int × V)) (k k' : Int) (v : V) :
    (mlookup (mupdate l k v) k').isSome = (mlookup l k').isSome := by
  simp only [mlookup, Option.isSome_map']
  exact find?_mupdate_isSome l k k' v

theorem lookup_isSome_foldl (k : Int) :
    ∀ (ops : List (Op V)) (l : List (Int × V)),
      (mlookup (ops.foldl mapplyOp l) k).isSome =
        ops.foldl
          (fun b op =>
            match op with
            | .ins k' _ => b || decide (k' = k)
            | .del k' => b && !decide (k' = k)
            | .upd _ _ => b)
          ((mlookup l k).isSome) := by
  intro ops
  induction ops with
  | nil => intro l; rfl
  | cons op t ih =>
    intro l
    rw [List.foldl_cons, List.foldl_cons, ih]
    congr 1
    match op with
    | .ins k' v =>
      show (mlookup (minsert l k' v) k).isSome
          = ((mlookup l k).isSome || decide (k' = k))
      by_cases h : k' = k
      · subst h
        rw [mlookup_minsert_self]
        simp
      · rw [mlookup_minsert_ne l v h]
        simp [h]
    | .del k' =>
      show (mlookup (mdelete l k') k).isSome
          = ((mlookup l k).isSome && !decide (k' = k))
      by_cases h : k' = k
      · subst h
        rw [mlookup_mdelete_self]
        simp
      · rw [mlookup_mdelete_ne l h]
        simp [h]
    | .upd k' v =>
      show (mlookup (mupdate l k' v) k).isSome = (mlookup l k).isSome
      exact mlookup_mupdate_isSome l k' k v

theorem lookup_isSome_eq_insMinusDel (ops : List (Op V)) (k : Int) :
    (mlookup (mrunOps ops) k).isSome = insMinusDel ops k :=
  lookup_isSome_foldl k ops []

theorem exists_key_iff_isSome (l : List (Int × V)) (k : Int) :
    (∃ p ∈ l, p.1 = k) ↔ (mlookup l k).isSome = true := by
  rw [mlookup]
  cases hfind : l.find? (fun p => decide (p.1 = k)) with
  | none =>
    constructor
    · rintro ⟨p, hp, he⟩
      have h2 := List.find?_eq_none.mp hfind p hp
      simp only [decide_eq_true_eq] at h2
      exact absurd he h2
    · intro hc
      exact absurd hc (by simp)
  | some p =>
    constructor
    · intro _
      rfl
    · intro _
      have hmem := List.mem_of_find?_eq_some hfind
      have hpk := List.find?_some hfind
      simp only [decide_eq_true_eq] at hpk
      exact ⟨p, hmem, hpk⟩

theorem minsert_countP_eq_one (l : List (Int × V)) (k : Int) (v : V) :
    (minsert l k v).countP (fun p => decide (p.1 = k)) = 1 := by
  have hA : (l.filter (fun p => decide (p.1 < k))).countP
      (fun p => decide (p.1 = k)) = 0 := by
    rw [List.countP_eq_zero]
    intro p hp
    have h1 : p.1 < k := by simpa using (List.mem_filter.mp hp).2
    simp only [decide_eq_true_eq]
    omega
  have hB : (l.filter (fun p => decide (k < p.1))).countP
      (fun p => decide (p.1 = k)) = 0 := by
    rw [List.countP_eq_zero]
    intro p hp
    have h1 : k < p.1 := by simpa using (List.mem_filter.mp hp).2
    simp only [decide_eq_true_eq]
    omega
  rw [minsert, List.countP_append, List.countP_cons, hA, hB]
  simp

theorem filter_length_both (l : List (Int × V)) (k : Int) :
    (l.filter (fun p => decide (p.1 < k))).length +
      (l.filter (fun p => decide (k < p.1))).length ≤ l.length := by
  induction l with
  | nil => simp
  | cons a t ih =>
    rw [List.filter_cons, List.filter_cons]
    by_cases h1 : a.1 < k
    · have h2 : ¬ (k < a.1) := by omega
      rw [if_pos (by simpa using h1), if_neg (by simpa using h2)]
      simp only [List.length_cons]
      omega
    · by_cases h2 : k < a.1
      · rw [if_neg (by simpa using h1), if_pos (by simpa using h2)]
        simp only [List.length_cons]
        omega
      · rw [if_neg (by simpa using h1), if_neg (by simpa using h2)]
        simp only [List.length_cons]
        omega

theorem minsert_length_le (l : List (Int × V)) (k : Int) (v : V) :
    (minsert l k v).length ≤ l.length + 1 := by
  have h := filter_length_both l k
  rw [minsert]
  simp only [List.length_append, List.length_cons]
  omega

/-! ## The claims -/

/-- C1: the minimum-occupancy invariants I2/I3 are not maintained between
public operations.  After inserting 1, 2, 3 into a fresh tree of order 4, the
root's second child is the non-root leaf `[3]` holding one key, below
`leafMin 4 = ⌈(4-1)/2⌉ = 2`; the code's own `is_underflow` flags it. -/
theorem occupancy_violation_reachable :
    (runOps 4 [Op.ins 1 (), Op.ins 2 (), Op.ins 3 ()]).root =
      Node.internal [3] [Node.leaf [1, 2] [(), ()], Node.leaf [3] [()]] ∧
      Node.isUnderflow 4 (Node.leaf [3] [(() : Unit)]) = true ∧
      Node.leafMin 4 = 2 :=
  ⟨rfl, rfl, rfl⟩

/-- C2 (amended): on a sorted leaf, insertion splits the target leaf exactly
when the key was absent and the key count after insertion *reaches* `m - 1`
(`is_full` tests `len(keys) >= order - 1`), not only when it exceeds
`m - 1`. -/
theorem leaf_split_iff {m : Nat} {k : Int} {ks : List Int}
    (hs : List.Pairwise (· < ·) ks) (v : V) (vs : List V) :
    (∃ l s r, leafInsert m k v ks vs = InsRes.split l s r) ↔
      (k ∉ ks ∧ m - 1 ≤ ks.length + 1) := by
  have hlen : (ks.insertIdx (bisectLeft ks k) k).length = ks.length + 1 :=
    List.length_insertIdx (bisectLeft ks k) ks (bisectLeft_le_length ks k)
  rw [leafInsert]
  by_cases hfound : bisectLeft ks k < ks.length ∧ ks.getD (bisectLeft ks k) 0 = k
  · rw [if_pos hfound]
    have hmem : k ∈ ks := (bisectLeft_found_iff hs k).mp hfound
    constructor
    · rintro ⟨l, s, r, hcontra⟩
      exact InsRes.noConfusion hcontra
    · rintro ⟨hnot, -⟩
      exact absurd hmem hnot
  · rw [if_neg hfound]
    have hmem : k ∉ ks := fun hin => hfound ((bisectLeft_found_iff hs k).mpr hin)
    by_cases hful : m - 1 ≤ (ks.insertIdx (bisectLeft ks k) k).length
    · rw [if_pos hful]
      rw [hlen] at hful
      exact ⟨fun _ => ⟨hmem, hful⟩, fun _ => ⟨_, _, _, rfl⟩⟩
    · rw [if_neg hful]
      rw [hlen] at hful
      constructor
      · rintro ⟨l, s, r, hcontra⟩
        exact InsRes.noConfusion hcontra
      · rintro ⟨-, hge⟩
        exact absurd hge hful

/-- Witness for `leaf_split_iff` at order 4, inserting 3 into the leaf
`[1, 2]`: the insertion is reported as a split and the amended condition
holds. -/
theorem leaf_split_iff_witness :
    (∃ l s r, leafInsert 4 3 () [1, 2] [(), ()] = InsRes.split l s r) ↔
      ((3 : Int) ∉ [(1 : Int), 2] ∧ 4 - 1 ≤ [(1 : Int), 2].length + 1) :=
  leaf_split_iff (by simp) () [(), ()]

/-- C2 (counterexample): at order 4, inserting 3 into the reachable root leaf
`[1, 2]` yields a leaf with `3 = m - 1` keys after the insertion — which does
not exceed `m - 1` — yet the code splits it into `[1, 2]` and `[3]`. -/
theorem leaf_split_at_threshold_cex :
    (runOps 4 [Op.ins 1 (), Op.ins 2 ()]).root = Node.leaf [1, 2] [(), ()] ∧
      ((runOps 4 [Op.ins 1 (), Op.ins 2 ()]).insert 3 ()).root =
        Node.internal [3] [Node.leaf [1, 2] [(), ()], Node.leaf [3] [()]] ∧
      ¬ ((4 : Nat) - 1 < 2 + 1) :=
  ⟨rfl, rfl, by omega⟩

/-- C3 (amended): `_fill_child` borrows from a sibling iff that sibling's key
count strictly exceeds `internalMin m = ⌈m/2⌉ - 1` — the *internal-node*
threshold — regardless of whether the sibling is a leaf or an internal node
(left sibling tried first). -/
theorem fillChild_borrow_iff {m : Nat} {lo hi : Option Int} {ks : List Int}
    {cs : List (Node V)} (h : WFseq lo hi ks cs) {i : Nat}
    (hi2 : i < cs.length) :
    (fillChild m ks cs i).2.2 = false ↔
      ((0 < i ∧ Node.internalMin m <
          ((cs.getD (i - 1) (Node.leaf [] [])).keysOf).length) ∨
        (i + 1 < cs.length ∧ Node.internalMin m <
          ((cs.getD (i + 1) (Node.leaf [] [])).keysOf).length)) := by
  rw [fillChild_eq_of_WF h i, if_pos hi2]
  by_cases h1 : 0 < i ∧ Node.internalMin m <
      ((cs.getD (i - 1) (Node.leaf [] [])).keysOf).length
  · rw [if_pos h1]
    exact iff_of_true rfl (Or.inl h1)
  · rw [if_neg h1]
    by_cases h2 : i + 1 < cs.length ∧ Node.internalMin m <
        ((cs.getD (i + 1) (Node.leaf [] [])).keysOf).length
    · rw [if_pos h2]
      exact iff_of_true rfl (Or.inr h2)
    · rw [if_neg h2]
      exact iff_of_false (fun hc => Bool.noConfusion hc)
        (fun hc => hc.elim h1 h2)

/-- A concrete well-formed parent telescope: keys `[3]` over the leaves
`[1, 2]` and `[3]`. -/
theorem wfseq_pair_example :
    WFseq (V := Unit) none none [3]
      [Node.leaf [1, 2] [(), ()], Node.leaf [3] [()]] := by
  refine ⟨trivial, trivial, ⟨?_, rfl, ?_⟩, ⟨?_, rfl, ?_⟩⟩
  · simp
  · intro a ha
    refine ⟨trivial, ?_⟩
    rcases List.mem_cons.mp ha with h | h
    · rw [h]
      exact (by decide : (1 : Int) < 3)
    · rcases List.mem_cons.mp h with h' | h'
      · rw [h']
        exact (by decide : (2 : Int) < 3)
      · exact absurd h' (List.not_mem_nil a)
  · simp
  · intro a ha
    refine ⟨?_, trivial⟩
    rcases List.mem_cons.mp ha with h | h
    · rw [h]
      exact le_refl (3 : Int)
    · exact absurd h (List.not_mem_nil a)

/-- Witness for `fillChild_borrow_iff`: at order 4, parent keys `[3]` over
the leaves `[1, 2]` and `[3]`, rebalancing child 1 decides by comparing the
left leaf sibling's 2 keys against `internalMin 4 = 1`. -/
theorem fillChild_borrow_iff_witness :
    (fillChild 4 [3] [Node.leaf [1, 2] [(), ()], Node.leaf [3] [()]] 1).2.2
        = false ↔
      ((0 < 1 ∧ Node.internalMin 4 <
          (([Node.leaf [1, 2] [(), ()],
            Node.leaf [3] [()]].getD (1 - 1) (Node.leaf [] [])).keysOf).length) ∨
        (1 + 1 < [Node.leaf [1, 2] [(), ()], Node.leaf [3] [()]].length ∧
          Node.internalMin 4 <
          (([Node.leaf [1, 2] [(), ()],
            Node.leaf [3] [()]].getD (1 + 1) (Node.leaf [] [])).keysOf).length)) :=
  fillChild_borrow_iff wfseq_pair_example (by decide)

/-- C3 (counterexample): reached at order 4 by inserting 1..5 then deleting
5: the underflowing leaf borrows from the leaf sibling `[3, 4]`, which holds
exactly `leafMin 4 = 2` keys — the claimed per-variant threshold would
require strictly more than 2, but the code compares against
`internalMin 4 = 1` for leaf siblings too. -/
theorem borrow_from_minimal_leaf_cex :
    (runOps 4 [Op.ins 1 (), Op.ins 2 (), Op.ins 3 (), Op.ins 4 (),
        Op.ins 5 (), Op.del 5]).root =
      Node.internal [3, 4]
        [Node.leaf [1, 2] [(), ()], Node.leaf [3] [()],
          Node.leaf [4] [()]] ∧
      (fillChild 4 [3, 5]
        [Node.leaf [1, 2] [(), ()], Node.leaf [3, 4] [(), ()],
          Node.leaf ([] : List Int) [] ] 2).2.2 = false ∧
      Node.leafMin 4 = 2 ∧ Node.internalMin 4 = 1 :=
  ⟨rfl, rfl, rfl, rfl⟩

/-- C4: on every reachable tree, `range_query lo hi` returns exactly the
stored pairs with `lo ≤ key ≤ hi`, in ascending key order, and returns the
empty sequence whenever `lo > hi`. -/
theorem rangeQuery_spec {m : Nat} (hm : 3 ≤ m) (ops : List (Op V))
    (lo hi : Int) :
    (runOps m ops).rangeQuery lo hi =
        ((runOps m ops).getAll).filter
          (fun p : Int × V => decide (lo ≤ p.1 ∧ p.1 ≤ hi)) ∧
      List.Pairwise (fun p q : Int × V => p.1 < q.1)
        ((runOps m ops).rangeQuery lo hi) ∧
      (lo > hi → (runOps m ops).rangeQuery lo hi = []) := by
  obtain ⟨hwf, -, -, -⟩ := runOps_ok hm ops (V := V)
  have heq := rangeQuery_eq_filter hwf lo hi
  have hsorted := (entries_ok hwf).1
  refine ⟨by rw [heq, getAll_eq_entries], ?_, ?_⟩
  · rw [heq]
    exact hsorted.sublist (List.filter_sublist _)
  · intro hord
    rw [heq, List.filter_eq_nil_iff]
    intro p hp
    simp only [decide_eq_true_eq, not_and]
    omega

/-- Witness for `rangeQuery_spec`: order 4, one insert, range `[0, 2]`. -/
theorem rangeQuery_spec_witness :
    (runOps 4 [Op.ins 1 ()]).rangeQuery 0 2 =
        ((runOps 4 [Op.ins 1 ()]).getAll).filter
          (fun p : Int × Unit => decide (0 ≤ p.1 ∧ p.1 ≤ 2)) ∧
      List.Pairwise (fun p q : Int × Unit => p.1 < q.1)
        ((runOps 4 [Op.ins 1 ()]).rangeQuery 0 2) ∧
      ((0 : Int) > 2 → (runOps 4 [Op.ins 1 ()]).rangeQuery 0 2 = []) :=
  rangeQuery_spec (by decide) [Op.ins 1 ()] 0 2

/-- C5: insert is an upsert: on a reachable tree, after `insert k v1` then
`insert k v2`, `search k` returns `v2`, the full scan holds exactly one pair
with key `k`, and each of the two inserts grew the stored-pair count by at
most one. -/
theorem insert_upsert {m : Nat} (hm : 3 ≤ m) (ops : List (Op V)) (k : Int)
    (v1 v2 : V) :
    (((runOps m ops).insert k v1).insert k v2).search k = some v2 ∧
      ((((runOps m ops).insert k v1).insert k v2).getAll).countP
        (fun p : Int × V => decide (p.1 = k)) = 1 ∧
      (((runOps m ops).insert k v1).getAll).length ≤
        ((runOps m ops).getAll).length + 1 ∧
      ((((runOps m ops).insert k v1).insert k v2).getAll).length ≤
        (((runOps m ops).insert k v1).getAll).length + 1 := by
  obtain ⟨hwf, hbal, hord, -⟩ := runOps_ok hm ops (V := V)
  obtain ⟨hwf1, hbal1, hord1, hent1⟩ :=
    Tree.insert_ok hwf hbal (by rw [hord]; exact hm) k v1
  obtain ⟨hwf2, hbal2, hord2, hent2⟩ :=
    Tree.insert_ok hwf1 hbal1 (by rw [hord1, hord]; exact hm) k v2
  refine ⟨?_, ?_, ?_, ?_⟩
  · rw [search_eq_mlookup hwf2, hent2, mlookup_minsert_self]
  · rw [getAll_eq_entries, hent2, minsert_countP_eq_one]
  · rw [getAll_eq_entries, getAll_eq_entries, hent1]
    exact minsert_length_le _ k v1
  · rw [getAll_eq_entries, getAll_eq_entries, hent2]
    exact minsert_length_le _ k v2

/-- Witness for `insert_upsert`: fresh order-3 tree, two inserts of key 5. -/
theorem insert_upsert_witness :
    (((runOps 3 ([] : List (Op Bool))).insert 5 true).insert 5 false).search 5
        = some false ∧
      ((((runOps 3 ([] : List (Op Bool))).insert 5 true).insert 5
          false).getAll).countP
        (fun p : Int × Bool => decide (p.1 = 5)) = 1 ∧
      (((runOps 3 ([] : List (Op Bool))).insert 5 true).getAll).length ≤
        ((runOps 3 ([] : List (Op Bool))).getAll).length + 1 ∧
      ((((runOps 3 ([] : List (Op Bool))).insert 5 true).insert 5
          false).getAll).length ≤
        (((runOps 3 ([] : List (Op Bool))).insert 5 true).getAll).length + 1 :=
  insert_upsert (by decide) ([] : List (Op Bool)) 5 true false

/-- C6: on every reachable tree, `get_all` lists the stored pairs in strictly
ascending key order, and its key set is exactly the inserted-minus-deleted
key set of the operation history. -/
theorem getAll_spec {m : Nat} (hm : 3 ≤ m) (ops : List (Op V)) :
    List.Pairwise (fun p q : Int × V => p.1 < q.1) ((runOps m ops).getAll) ∧
      ∀ k : Int,
        (∃ p ∈ (runOps m ops).getAll, p.1 = k) ↔ insMinusDel ops k = true := by
  obtain ⟨hwf, -, -, hent⟩ := runOps_ok hm ops (V := V)
  constructor
  · rw [getAll_eq_entries]
    exact (entries_ok hwf).1
  · intro k
    rw [getAll_eq_entries, hent, exists_key_iff_isSome,
      lookup_isSome_eq_insMinusDel]

/-- Witness for `getAll_spec`: order 3 with one insert. -/
theorem getAll_spec_witness :
    List.Pairwise (fun p q : Int × Unit => p.1 < q.1)
        ((runOps 3 [Op.ins 2 ()]).getAll) ∧
      ∀ k : Int, (∃ p ∈ (runOps 3 [Op.ins 2 ()]).getAll, p.1 = k) ↔
        insMinusDel [Op.ins 2 ()] k = true :=
  getAll_spec (by decide) [Op.ins 2 ()]

/-- C7: on a well-formed tree, deleting or updating a key that `search` does
not find returns `false` and leaves the tree value (all keys, values and
nodes) unchanged; both functions are total, so no exception is raised. -/
theorem absent_key_noop {t : Tree V} (h : t.WF) {k : Int}
    (habs : t.search k = none) (v : V) :
    t.delete k = (t, false) ∧ t.update k v = (t, false) := by
  have hml : mlookup (entriesOf t.root) k = none := by
    rw [← search_eq_mlookup h]
    exact habs
  have habs' : ∀ p ∈ entriesOf t.root, p.1 ≠ k := by
    intro p hp he
    have hfind : (entriesOf t.root).find? (fun q => decide (q.1 = k)) = none :=
      Option.map_eq_none'.mp hml
    have h2 := List.find?_eq_none.mp hfind p hp
    simp only [decide_eq_true_eq] at h2
    exact h2 he
  exact ⟨Tree.delete_absent h habs', Tree.update_absent h v habs'⟩

/-- Witness for `absent_key_noop`: the fresh order-3 tree and key 1. -/
theorem absent_key_noop_witness :
    (⟨Node.leaf [] [], 3⟩ : Tree Unit).delete 1 =
        ((⟨Node.leaf [] [], 3⟩ : Tree Unit), false) ∧
      (⟨Node.leaf [] [], 3⟩ : Tree Unit).update 1 () =
        ((⟨Node.leaf [] [], 3⟩ : Tree Unit), false) :=
  absent_key_noop (t := (⟨Node.leaf [] [], 3⟩ : Tree Unit)) (k := 1)
    ⟨List.Pairwise.nil, rfl, fun a ha => absurd ha (List.not_mem_nil a)⟩
    rfl ()

/-- C8: the constructor rejects exactly the orders below 3 (`ValueError`,
modelled as `none`); for every order `m ≥ 3` it succeeds with a tree whose
root is an empty leaf. -/
theorem mkTree_spec (V : Type) (m : Nat) :
    (mkTree V m = none ↔ m < 3) ∧
      (3 ≤ m → mkTree V m = some ⟨Node.leaf [] [], m⟩) := by
  constructor
  · constructor
    · intro h
      by_contra hm
      rw [mkTree, if_neg hm] at h
      exact Option.noConfusion h
    · intro h
      rw [mkTree, if_pos h]
  · intro h
    rw [mkTree, if_neg (by omega)]

/-- C9: `_load_database` on a missing or empty persistence file yields the
empty table map; a corrupted snapshot (a failing `pickle.load`) also yields
the empty table map together with the diagnostic flag; a loadable snapshot is
installed verbatim.  The function is total: no branch propagates an
exception. -/
theorem loadDatabase_spec {T : Type} (empty : T) (f : FileView T) :
    ((f.present = false ∨ f.size = 0) → loadDatabase empty f = (empty, true)) ∧
      (f.decode = none → loadDatabase empty f = (empty, true)) ∧
      (∀ tb, f.present = true → 0 < f.size → f.decode = some tb →
        loadDatabase empty f = (tb, false)) := by
  refine ⟨?_, ?_, ?_⟩
  · intro h
    rw [loadDatabase, if_pos h]
  · intro h
    rw [loadDatabase]
    by_cases hp : f.present = false ∨ f.size = 0
    · rw [if_pos hp]
    · rw [if_neg hp, h]
  · intro tb hp hs hd
    have hne : ¬ (f.present = false ∨ f.size = 0) := by
      rintro (h1 | h2)
      · rw [hp] at h1
        exact Bool.noConfusion h1
      · omega
    rw [loadDatabase, if_neg hne, hd]

/-- C10: on every reachable tree the query operations are read-only: the
tree state after `search`, after `range_query` (either branch), and after
`get_all` is the tree state before the call. -/
theorem query_frame {m : Nat} (hm : 3 ≤ m) (ops : List (Op V))
    (k lo hi : Int) :
    (runOps m ops).searchEffect k = runOps m ops ∧
      (runOps m ops).rangeEffect lo hi = runOps m ops ∧
      (runOps m ops).getAllEffect = runOps m ops := by
  obtain ⟨hwf, -, -, -⟩ := runOps_ok hm ops (V := V)
  have hrep : ∀ k0 : Int,
      findLeafRepair k0 (runOps m ops).root = (runOps m ops).root :=
    fun k0 => findLeafRepair_id (runOps m ops).root none none hwf
  refine ⟨?_, ?_, rfl⟩
  · show (⟨findLeafRepair k (runOps m ops).root, (runOps m ops).order⟩ :
        Tree V) = runOps m ops
    rw [hrep]
  · rw [Tree.rangeEffect]
    by_cases hord : lo > hi
    · rw [if_pos hord]
    · rw [if_neg hord, hrep]

/-- Witness for `query_frame`: order 4 with one insert; key 1, range
`[0, 2]`. -/
theorem query_frame_witness :
    (runOps 4 [Op.ins 1 ()]).searchEffect 1 = runOps 4 [Op.ins 1 ()] ∧
      (runOps 4 [Op.ins 1 ()]).rangeEffect 0 2 = runOps 4 [Op.ins 1 ()] ∧
      (runOps 4 [Op.ins 1 ()]).getAllEffect = runOps 4 [Op.ins 1 ()] :=
  query_frame (by decide) [Op.ins 1 ()] 1 0 2

end DB
